import Mathlib

/-!
# Trading simulation: order lifecycle, matching engine and portfolio ledger

A shallow embedding of `Order`, `Market`, `Portfolio` and `TradingEngine`
(`include/*.h`, `src/*.cpp`) together with theorems about them.

Modelling conventions

* `double` is modelled by exact rationals `ℚ`: every arithmetic expression of
  the source is kept as written, evaluated without rounding.
* Where rounding decides a property, the method is embedded a second time in
  binary64 arithmetic (suffix `64`): the same expressions, each operation
  followed by `round64`, rounding to nearest with ties to even.
* `std::map<std::string, V>` is modelled by an association list kept in key
  order (`StdMap V`); `find`, `operator[]` (`index`), assignment (`assign`)
  and `erase` are the operations the source uses. The invariant of a
  `std::map` (strictly increasing keys) is the predicate `StdMap.Ordered`;
  the operations keep it, and the theorems that depend on it assume it.
* `std::queue<Order>` is a list whose head is the front of the queue;
  `std::vector<Order>` is a list whose last element is the back.
* References held by the engine (`Market&`, `Portfolio&`) and the static
  counter `Order::nextOrderId` are fields of the engine state, threaded
  explicitly through every operation. The counter is a 32-bit `int`: its
  increment is taken modulo `2^32` (`wrapInt32`).
* The random generator of `Market` is not part of the state: each draw
  `normalDist(randomGenerator)` and the value of `std::sqrt(dt)` are explicit
  arguments of the operations that use them.
* Console output and the wall-clock `timestamp` fields are not modelled: no
  control flow reads them.
-/

namespace TradingSim

/-! ## `std::map<std::string, V>` -/

/-- Ordered association list standing for `std::map<std::string, V>`. -/
abbrev StdMap (V : Type) := List (String × V)

namespace StdMap

variable {V : Type}

/-- Lookup as done by `m.find(k)`: `none` stands for `m.end()`. -/
def find : StdMap V → String → Option V
  | [], _ => none
  | (k', v) :: rest, k => if k' = k then some v else find rest k

/-- Assignment `m[k] = v`: overwrite the entry for `k`, or insert it in key order. -/
def assign : StdMap V → String → V → StdMap V
  | [], k, v => [(k, v)]
  | (k', v') :: rest, k, v =>
    if k' = k then (k, v) :: rest
    else if k < k' then (k, v) :: (k', v') :: rest
    else (k', v') :: assign rest k v

/-- Removal `m.erase(k)`: drops the entries whose key is `k`. -/
def erase : StdMap V → String → StdMap V
  | [], _ => []
  | (k', v) :: rest, k => if k' = k then erase rest k else (k', v) :: erase rest k

/-- Access `m[k]`: when `k` is absent a value-initialised entry `dflt` is
inserted first; returns the map after the access and the referenced value. -/
def index (m : StdMap V) (k : String) (dflt : V) : StdMap V × V :=
  match m.find k with
  | some v => (m, v)
  | none => (m.assign k dflt, dflt)

/-- Well-formedness of a `std::map`: the keys are strictly increasing, so no key occurs
twice. -/
def Ordered (m : StdMap V) : Prop :=
  (m.map Prod.fst).Pairwise (fun a b => a < b)

end StdMap

/-! ## `Order` (Order.h, Order.cpp) -/

inductive OrderType where
  | BUY
  | SELL
  deriving DecidableEq, Repr

inductive OrderStatus where
  | PENDING
  | FILLED
  | CANCELLED
  | PARTIALLY_FILLED
  deriving DecidableEq, Repr

structure Order where
  orderId : Int
  symbol : String
  type : OrderType
  quantity : ℚ
  price : ℚ
  filledQuantity : ℚ
  status : OrderStatus
  deriving DecidableEq, Repr

/-- Largest value of a 32-bit `int`. -/
def INT_MAX : Int := 2147483647

/-- Result of 32-bit `int` arithmetic for the exact value `x`: the two's-complement
representative of `x` in `[-2^31, 2^31 - 1]`. Signed overflow is undefined behaviour in
C++; the model takes the wrapped value the usual targets produce. -/
def wrapInt32 (x : Int) : Int := (x + 2147483648) % 4294967296 - 2147483648

namespace Order

/-- Constructor `Order::Order(symbol, type, quantity, price)`: takes the id
from the static `int` counter `nextOrderId` (first argument) and returns the new
order together with the counter after `nextOrderId++`. -/
def create (nextOrderId : Int) (symbol : String) (type : OrderType)
    (quantity price : ℚ) : Order × Int :=
  ({ orderId := nextOrderId, symbol := symbol, type := type, quantity := quantity,
     price := price, filledQuantity := 0, status := OrderStatus.PENDING },
   wrapInt32 (nextOrderId + 1))

def getRemainingQuantity (o : Order) : ℚ := o.quantity - o.filledQuantity

def isFullyFilled (o : Order) : Bool := decide (o.filledQuantity ≥ o.quantity)

def setStatus (o : Order) (newStatus : OrderStatus) : Order :=
  { o with status := newStatus }

/-- Method `Order::fillOrder(fillQuantity)`. -/
def fillOrder (o : Order) (fillQuantity : ℚ) : Order :=
  if fillQuantity ≤ 0 ∨ fillQuantity > o.getRemainingQuantity then o
  else
    let o1 := { o with filledQuantity := o.filledQuantity + fillQuantity }
    if o1.isFullyFilled then { o1 with status := OrderStatus.FILLED }
    else { o1 with status := OrderStatus.PARTIALLY_FILLED }

/-- A sequence of `fillOrder` calls on one order, first amount first. -/
def fillAll (o : Order) (amounts : List ℚ) : Order :=
  amounts.foldl fillOrder o

/-- Successive constructions `Order(symbol, type, quantity, price)`, one per element of
the argument list, starting with the counter at `nextOrderId`: the orders in
construction order and the counter afterwards. -/
def createMany : Int → List (String × OrderType × ℚ × ℚ) → List Order × Int
  | nextOrderId, [] => ([], nextOrderId)
  | nextOrderId, a :: rest =>
    let c := create nextOrderId a.1 a.2.1 a.2.2.1 a.2.2.2
    let r := createMany c.2 rest
    (c.1 :: r.1, r.2)

end Order

/-! ## `Market` (Market.h, Market.cpp) -/

structure PriceData where
  price : ℚ
  volume : ℚ
  deriving DecidableEq, Repr

structure Market where
  priceHistory : StdMap (List PriceData)
  currentPrices : StdMap ℚ
  volatility : StdMap ℚ
  deriving DecidableEq, Repr

namespace Market

def getCurrentPrice (m : Market) (symbol : String) : ℚ :=
  match m.currentPrices.find symbol with
  | some p => p
  | none => 0

def hasSymbol (m : Market) (symbol : String) : Bool :=
  (m.currentPrices.find symbol).isSome

/-- Constructor `Market()`: three empty maps. The random generator is not part of the
state; every draw is an explicit argument of the operation that consumes it. -/
def empty : Market :=
  { priceHistory := [], currentPrices := [], volatility := [] }

/-- Method `Market::recordPrice(symbol, price, volume)`. -/
def recordPrice (m : Market) (symbol : String) (price volume : ℚ) : Market :=
  let r := m.priceHistory.index symbol []
  let history1 := r.2 ++ [{ price := price, volume := volume }]
  let priceHistory1 := r.1.assign symbol history1
  if history1.length > 1000 then
    { m with priceHistory := priceHistory1.assign symbol history1.tail }
  else
    { m with priceHistory := priceHistory1 }

/-- Method `Market::addSymbol(symbol, initialPrice, vol)`. -/
def addSymbol (m : Market) (symbol : String) (initialPrice vol : ℚ) : Market :=
  let m1 : Market :=
    { priceHistory := m.priceHistory.assign symbol [],
      currentPrices := m.currentPrices.assign symbol initialPrice,
      volatility := m.volatility.assign symbol vol }
  m1.recordPrice symbol initialPrice 1000

/-- Method `Market::simulatePriceMovement(symbol)`. The value of `std::sqrt(dt)` and the
draw `normalDist(randomGenerator)` are the arguments `sqrtDt` and `randomShock`. -/
def simulatePriceMovement (m : Market) (symbol : String) (sqrtDt randomShock : ℚ) : Market :=
  if (m.currentPrices.find symbol).isNone then m
  else
    let rc := m.currentPrices.index symbol 0
    let currentPrice := rc.2
    let rv := m.volatility.index symbol 0
    let vol := rv.2
    let dt : ℚ := 1 / 252
    let drift : ℚ := 5 / 100
    let priceChange := currentPrice * (drift * dt + vol * sqrtDt * randomShock)
    let newPrice := max (1 / 100) (currentPrice + priceChange)
    let m1 : Market :=
      { priceHistory := m.priceHistory,
        currentPrices := rc.1.assign symbol newPrice,
        volatility := rv.1 }
    m1.recordPrice symbol newPrice 1000

/-- The `for (auto& pair : currentPrices)` loop of `updatePrices` over the keys still to
visit; the `i`-th call of `simulatePriceMovement` consumes the draw `draws i`. -/
def updatePricesLoop : List String → Market → ℚ → (Nat → ℚ) → Nat → Market
  | [], m, _, _, _ => m
  | symbol :: rest, m, sqrtDt, draws, i =>
    updatePricesLoop rest (m.simulatePriceMovement symbol sqrtDt (draws i)) sqrtDt draws (i + 1)

/-- Method `Market::updatePrices()`. -/
def updatePrices (m : Market) (sqrtDt : ℚ) (draws : Nat → ℚ) : Market :=
  updatePricesLoop (m.currentPrices.map Prod.fst) m sqrtDt draws 0

/-- Method `Market::getAvailableSymbols()`: the keys of `currentPrices` in map order. -/
def getAvailableSymbols (m : Market) : List String :=
  m.currentPrices.map Prod.fst

/-- Method `Market::getDailyReturn(symbol)`. -/
def getDailyReturn (m : Market) (symbol : String) : ℚ :=
  match m.priceHistory.find symbol with
  | none => 0
  | some history =>
    if history.length < 2 then 0
    else
      let currentPrice := (history.getD (history.length - 1) { price := 0, volume := 0 }).price
      let previousPrice := (history.getD (history.length - 2) { price := 0, volume := 0 }).price
      (currentPrice - previousPrice) / previousPrice * 100

end Market

/-- One call on a `Market`: `addSymbol(symbol, initialPrice, vol)` or `updatePrices()`
(with the value of `std::sqrt(dt)` and the draws it consumes). -/
inductive MarketOp where
  | addSymbol (symbol : String) (initialPrice vol : ℚ)
  | updatePrices (sqrtDt : ℚ) (draws : Nat → ℚ)

/-- Effect of one call. -/
def Market.step (m : Market) : MarketOp → Market
  | MarketOp.addSymbol symbol initialPrice vol => m.addSymbol symbol initialPrice vol
  | MarketOp.updatePrices sqrtDt draws => m.updatePrices sqrtDt draws

/-- Effect of a sequence of calls, first call first. -/
def Market.run (m : Market) (ops : List MarketOp) : Market :=
  ops.foldl Market.step m

/-- Every stored price history has at most 1000 points. -/
def Market.HistoryBounded (m : Market) : Prop :=
  ∀ (symbol : String) (history : List PriceData),
    m.priceHistory.find symbol = some history → history.length ≤ 1000

/-- Only registered symbols have a price history. -/
def Market.HistoryOnlyForRegistered (m : Market) : Prop :=
  ∀ symbol : String, m.currentPrices.find symbol = none → m.priceHistory.find symbol = none

/-! ## `Portfolio` (Portfolio.h, Portfolio.cpp) -/

structure Position where
  symbol : String
  quantity : ℚ
  averagePrice : ℚ
  unrealizedPnL : ℚ
  realizedPnL : ℚ
  deriving DecidableEq, Repr

/-- Constructor `Position(sym = "", qty = 0.0, price = 0.0)`. -/
def Position.create (sym : String) (qty price : ℚ) : Position :=
  { symbol := sym, quantity := qty, averagePrice := price,
    unrealizedPnL := 0, realizedPnL := 0 }

structure Portfolio where
  cash : ℚ
  totalValue : ℚ
  positions : StdMap Position
  orderHistory : List Order
  deriving DecidableEq, Repr

namespace Portfolio

/-- Constructor `Portfolio(initialCash)`. -/
def create (initialCash : ℚ) : Portfolio :=
  { cash := initialCash, totalValue := initialCash, positions := [], orderHistory := [] }

def hasPosition (pf : Portfolio) (symbol : String) : Bool :=
  (pf.positions.find symbol).isSome

def getPositionQuantity (pf : Portfolio) (symbol : String) : ℚ :=
  match pf.positions.find symbol with
  | some pos => pos.quantity
  | none => 0

def canAffordOrder (pf : Portfolio) (order : Order) : Bool :=
  match order.type with
  | OrderType.BUY =>
    let orderValue := order.quantity * order.price
    decide (pf.cash ≥ orderValue)
  | OrderType.SELL =>
    decide (pf.getPositionQuantity order.symbol ≥ order.quantity)

def updateCash (pf : Portfolio) (amount : ℚ) : Portfolio :=
  { pf with cash := pf.cash + amount }

/-- Method `Portfolio::updateTotalValue()`: starts from `cash` and adds, for each
position in map order, `quantity * averagePrice + unrealizedPnL`. -/
def updateTotalValue (pf : Portfolio) : Portfolio :=
  let total := pf.positions.foldl
    (fun acc kv => acc + (kv.2.quantity * kv.2.averagePrice + kv.2.unrealizedPnL)) pf.cash
  { pf with totalValue := total }

/-- Method `Portfolio::executeOrder(order, executionPrice)`. -/
def executeOrder (pf : Portfolio) (order : Order) (executionPrice : ℚ) : Portfolio :=
  if !pf.canAffordOrder order then pf
  else
    let symbol := order.symbol
    let quantity := order.quantity
    let pf2 : Portfolio :=
      match order.type with
      | OrderType.BUY =>
        let orderValue := quantity * executionPrice
        let pf1 := pf.updateCash (-orderValue)
        let positions1 :=
          if (pf1.positions.find symbol).isNone then
            pf1.positions.assign symbol (Position.create symbol 0 0)
          else pf1.positions
        let ref := positions1.index symbol (Position.create "" 0 0)
        let pos := ref.2
        let pos' : Position :=
          if pos.quantity > 0 then
            let totalCost := (pos.quantity * pos.averagePrice) + (quantity * executionPrice)
            let newQuantity := pos.quantity + quantity
            { pos with quantity := newQuantity, averagePrice := totalCost / newQuantity }
          else
            { pos with quantity := quantity, averagePrice := executionPrice }
        { pf1 with positions := ref.1.assign symbol pos' }
      | OrderType.SELL =>
        let ref := pf.positions.index symbol (Position.create "" 0 0)
        let pos := ref.2
        let saleValue := quantity * executionPrice
        let pf1 := pf.updateCash saleValue
        let realizedPnL := quantity * (executionPrice - pos.averagePrice)
        let pos1 := { pos with realizedPnL := pos.realizedPnL + realizedPnL }
        let pos2 := { pos1 with quantity := pos1.quantity - quantity }
        let positions2 := ref.1.assign symbol pos2
        if pos2.quantity ≤ 1 / 1000 then
          { pf1 with positions := positions2.erase symbol }
        else
          { pf1 with positions := positions2 }
    ({ pf2 with orderHistory := pf2.orderHistory ++ [order] }).updateTotalValue

/-- Method `Portfolio::updatePositionValue(symbol, currentPrice)`. -/
def updatePositionValue (pf : Portfolio) (symbol : String) (currentPrice : ℚ) : Portfolio :=
  let pf1 : Portfolio :=
    match pf.positions.find symbol with
    | some pos =>
      let pos1 : Position :=
        { pos with unrealizedPnL := pos.quantity * (currentPrice - pos.averagePrice) }
      { pf with positions := pf.positions.assign symbol pos1 }
    | none => pf
  pf1.updateTotalValue

/-- The sum of `quantity * averagePrice + unrealizedPnL` over the positions of the map. -/
def costBasisPlusUnrealized (pf : Portfolio) : ℚ :=
  (pf.positions.map
    (fun kv => kv.2.quantity * kv.2.averagePrice + kv.2.unrealizedPnL)).sum

/-- The sum of `quantity * price` over the positions of the map, the price of a position
being `price` at its key. -/
def markedValue (pf : Portfolio) (price : String → ℚ) : ℚ :=
  (pf.positions.map (fun kv => kv.2.quantity * price kv.1)).sum

/-- The cached `totalValue` agrees with `cash + Σ (quantity * averagePrice +
unrealizedPnL)`. -/
def TotalValueCached (pf : Portfolio) : Prop :=
  pf.totalValue = pf.cash + pf.costBasisPlusUnrealized

/-- Every position stored in the map has positive quantity. -/
def PositionsPositive (pf : Portfolio) : Prop :=
  ∀ kv ∈ pf.positions, 0 < kv.2.quantity

end Portfolio

/-- One call on a `Portfolio`: `executeOrder(order, executionPrice)` or
`updatePositionValue(symbol, currentPrice)`. -/
inductive PortfolioOp where
  | executeOrder (order : Order) (executionPrice : ℚ)
  | updatePositionValue (symbol : String) (currentPrice : ℚ)

/-- Effect of one call. -/
def Portfolio.step (pf : Portfolio) : PortfolioOp → Portfolio
  | PortfolioOp.executeOrder order executionPrice => pf.executeOrder order executionPrice
  | PortfolioOp.updatePositionValue symbol currentPrice =>
    pf.updatePositionValue symbol currentPrice

/-- Effect of a sequence of calls, first call first. -/
def Portfolio.run (pf : Portfolio) (ops : List PortfolioOp) : Portfolio :=
  ops.foldl Portfolio.step pf

/-- The call is an `executeOrder` with an order of positive quantity. -/
def PortfolioOp.IsExecuteOfPositiveQuantity : PortfolioOp → Prop
  | PortfolioOp.executeOrder order _ => 0 < order.quantity
  | PortfolioOp.updatePositionValue _ _ => False

/-! ## `TradingEngine` (TradingEngine.h, TradingEngine.cpp) -/

structure TradingEngine where
  market : Market
  portfolio : Portfolio
  pendingOrders : List Order
  executedOrders : List Order
  transactionCost : ℚ
  enableLogging : Bool
  nextOrderId : Int
  deriving DecidableEq, Repr

namespace TradingEngine

/-- Constructor `TradingEngine(mkt, port, txnCost)`; the last argument is the
current value of the static `Order::nextOrderId`. -/
def create (mkt : Market) (port : Portfolio) (txnCost : ℚ) (nextOrderId : Int) :
    TradingEngine :=
  { market := mkt, portfolio := port, pendingOrders := [], executedOrders := [],
    transactionCost := txnCost, enableLogging := true, nextOrderId := nextOrderId }

def getPendingOrderCount (e : TradingEngine) : Nat := e.pendingOrders.length

/-- Method `TradingEngine::validateOrder(order)`. -/
def validateOrder (e : TradingEngine) (order : Order) : Bool :=
  if !e.market.hasSymbol order.symbol then false
  else if order.quantity ≤ 0 then false
  else if order.price ≤ 0 then false
  else if !e.portfolio.canAffordOrder order then false
  else true

/-- The test `tryExecuteOrder` computes into its local `canExecute`, as a function of
the market it reads the current price from. -/
def canExecute (market : Market) (order : Order) : Bool :=
  let currentPrice := market.getCurrentPrice order.symbol
  match order.type with
  | OrderType.BUY => decide (currentPrice ≤ order.price)
  | OrderType.SELL => decide (currentPrice ≥ order.price)

/-- Method `TradingEngine::tryExecuteOrder(Order&)`: returns the result, the
order as left in the caller's variable, and the engine afterwards. -/
def tryExecuteOrder (e : TradingEngine) (order : Order) : Bool × Order × TradingEngine :=
  let currentPrice := e.market.getCurrentPrice order.symbol
  if canExecute e.market order then
    let order1 := order.fillOrder order.quantity
    let order2 := order1.setStatus OrderStatus.FILLED
    (true, order2, { e with portfolio := e.portfolio.executeOrder order2 currentPrice })
  else
    (false, order, e)

/-- Method `TradingEngine::submitOrder(order)`. -/
def submitOrder (e : TradingEngine) (order : Order) : Bool × TradingEngine :=
  if !e.validateOrder order then (false, e)
  else (true, { e with pendingOrders := e.pendingOrders ++ [order] })

/-- The `while (!pendingOrders.empty())` loop of `processOrders`: the first
argument is the content of `pendingOrders` at loop entry, the last one the
local queue `failedOrders`. -/
def processOrdersLoop : List Order → TradingEngine → List Order → TradingEngine × List Order
  | [], e, failedOrders => ({ e with pendingOrders := [] }, failedOrders)
  | order :: rest, e, failedOrders =>
    let r := ({ e with pendingOrders := rest }).tryExecuteOrder order
    if r.1 then
      processOrdersLoop rest
        { r.2.2 with executedOrders := r.2.2.executedOrders ++ [r.2.1] } failedOrders
    else
      processOrdersLoop rest r.2.2 (failedOrders ++ [r.2.1])

/-- Method `TradingEngine::processOrders()`. -/
def processOrders (e : TradingEngine) : TradingEngine :=
  let r := processOrdersLoop e.pendingOrders e []
  { r.1 with pendingOrders := r.2 }

/-- Method `TradingEngine::executeMarketOrder(symbol, type, quantity)`. -/
def executeMarketOrder (e : TradingEngine) (symbol : String) (type : OrderType)
    (quantity : ℚ) : TradingEngine :=
  if !e.market.hasSymbol symbol then e
  else
    let currentPrice := e.market.getCurrentPrice symbol
    let c := Order.create e.nextOrderId symbol type quantity currentPrice
    let marketOrder := c.1
    let e1 := { e with nextOrderId := c.2 }
    if e1.validateOrder marketOrder then
      let r := e1.tryExecuteOrder marketOrder
      if r.1 then { r.2.2 with executedOrders := r.2.2.executedOrders ++ [r.2.1] }
      else r.2.2
    else e1

/-- The `while (!pendingOrders.empty())` loop of `cancelOrder`: the first argument is
the content of `pendingOrders` at loop entry, the last two the locals `remainingOrders`
and `orderFound`. -/
def cancelOrderLoop : List Order → Int → List Order → Bool → List Order × Bool
  | [], _, remainingOrders, orderFound => (remainingOrders, orderFound)
  | order :: rest, orderId, remainingOrders, orderFound =>
    if order.orderId = orderId then cancelOrderLoop rest orderId remainingOrders true
    else cancelOrderLoop rest orderId (remainingOrders ++ [order]) orderFound

/-- Method `TradingEngine::cancelOrder(orderId)`. -/
def cancelOrder (e : TradingEngine) (orderId : Int) : TradingEngine :=
  { e with pendingOrders := (cancelOrderLoop e.pendingOrders orderId [] false).1 }

/-- Method `TradingEngine::executeLimitOrder(symbol, type, quantity, price)`. -/
def executeLimitOrder (e : TradingEngine) (symbol : String) (type : OrderType)
    (quantity price : ℚ) : TradingEngine :=
  let c := Order.create e.nextOrderId symbol type quantity price
  (({ e with nextOrderId := c.2 }).submitOrder c.1).2

/-- One iteration of the `for` loop of `runSimulation`: update the market prices (with the
draws of this step), revalue the portfolio for every available symbol, process the pending
orders. -/
def simulationStep (e : TradingEngine) (sqrtDt : ℚ) (draws : Nat → ℚ) : TradingEngine :=
  let market1 := e.market.updatePrices sqrtDt draws
  let portfolio1 := market1.getAvailableSymbols.foldl
    (fun pf symbol => pf.updatePositionValue symbol (market1.getCurrentPrice symbol))
    e.portfolio
  ({ e with market := market1, portfolio := portfolio1 }).processOrders

/-- The loop `for (int step = 0; step < steps; ++step)` of `runSimulation` with the number
of iterations still to run as first argument and the value of `step` as last one;
`draws step` are the draws consumed in iteration `step`. -/
def runSimulationLoop : Nat → TradingEngine → ℚ → (Nat → Nat → ℚ) → Nat → TradingEngine
  | 0, e, _, _, _ => e
  | n + 1, e, sqrtDt, draws, step =>
    runSimulationLoop n (e.simulationStep sqrtDt (draws step)) sqrtDt draws (step + 1)

/-- Method `TradingEngine::runSimulation(steps)`. -/
def runSimulation (e : TradingEngine) (steps : Int) (sqrtDt : ℚ) (draws : Nat → Nat → ℚ) :
    TradingEngine :=
  runSimulationLoop steps.toNat e sqrtDt draws 0

end TradingEngine

/-- One event on an engine: a call of one of its public operations, or a change of the
market it borrows made by the market's owner (`marketChange`, any new market state). -/
inductive EngineOp where
  | submitOrder (order : Order)
  | executeMarketOrder (symbol : String) (type : OrderType) (quantity : ℚ)
  | executeLimitOrder (symbol : String) (type : OrderType) (quantity price : ℚ)
  | processOrders
  | cancelOrder (orderId : Int)
  | runSimulation (steps : Int) (sqrtDt : ℚ) (draws : Nat → Nat → ℚ)
  | marketChange (market : Market)

/-- Effect of one event. -/
def TradingEngine.step (e : TradingEngine) : EngineOp → TradingEngine
  | EngineOp.submitOrder order => (e.submitOrder order).2
  | EngineOp.executeMarketOrder symbol type quantity => e.executeMarketOrder symbol type quantity
  | EngineOp.executeLimitOrder symbol type quantity price =>
    e.executeLimitOrder symbol type quantity price
  | EngineOp.processOrders => e.processOrders
  | EngineOp.cancelOrder orderId => e.cancelOrder orderId
  | EngineOp.runSimulation steps sqrtDt draws => e.runSimulation steps sqrtDt draws
  | EngineOp.marketChange market => { e with market := market }

/-- Effect of a sequence of events, first event first. -/
def TradingEngine.run (e : TradingEngine) (ops : List EngineOp) : TradingEngine :=
  ops.foldl TradingEngine.step e

/-- The event is not a direct `submitOrder` call with a caller-built order. -/
def EngineOp.NotRawSubmit : EngineOp → Prop
  | EngineOp.submitOrder _ => False
  | _ => True

/-! ## Binary64 arithmetic

`double` arithmetic as the processor performs it: every operation returns the exact result
rounded to the nearest binary64 value, ties to the value with even significand, each
operation rounded on its own. The methods whose results depend on that rounding are
embedded a second time below, with `round64` after every operation; these definitions
carry the suffix `64` and have the control flow of the exact versions above. Decimal
literals of the source (`0.05`, `0.01`, `0.001`) stand for the nearest binary64 value. A
quotient by `0` is `0`, as in `ℚ`, where the code yields an infinity or NaN. -/

/-- Nearest integer to `s`; a value halfway between two integers goes to the even one. -/
def roundHalfEven (s : ℚ) : Int :=
  if s - ⌊s⌋ < 1 / 2 then ⌊s⌋
  else if 1 / 2 < s - ⌊s⌋ then ⌊s⌋ + 1
  else if ⌊s⌋ % 2 = 0 then ⌊s⌋ else ⌊s⌋ + 1

/-- Exponent of the unit in the last place of the binary64 values of magnitude `a`: 52
below the binary exponent of `a`, and `-1074` throughout the subnormal range. -/
def binade (a : ℚ) : Int := max (Int.log 2 a - 52) (-1074)

/-- Rounding of the exact result `x` of an operation to binary64: round to nearest, ties
to even, 53-bit significand, gradual underflow. The exponent is not bounded above:
overflow to infinity is not represented, nor are NaN and the sign of zero. -/
def round64 (x : ℚ) : ℚ :=
  if x < 0 then -((roundHalfEven (|x| / 2 ^ binade |x|) : ℚ) * 2 ^ binade |x|)
  else (roundHalfEven (|x| / 2 ^ binade |x|) : ℚ) * 2 ^ binade |x|

namespace Order

/-- Method `getRemainingQuantity()` in binary64 arithmetic. -/
def getRemainingQuantity64 (o : Order) : ℚ := round64 (o.quantity - o.filledQuantity)

/-- Method `Order::fillOrder(fillQuantity)` in binary64 arithmetic: the difference
`quantity - filledQuantity` and the sum `filledQuantity += fillQuantity` are rounded. -/
def fillOrder64 (o : Order) (fillQuantity : ℚ) : Order :=
  if fillQuantity ≤ 0 ∨ fillQuantity > o.getRemainingQuantity64 then o
  else
    let o1 := { o with filledQuantity := round64 (o.filledQuantity + fillQuantity) }
    if o1.isFullyFilled then { o1 with status := OrderStatus.FILLED }
    else { o1 with status := OrderStatus.PARTIALLY_FILLED }

/-- A sequence of `fillOrder` calls on one order in binary64 arithmetic, first amount
first. -/
def fillAll64 (o : Order) (amounts : List ℚ) : Order :=
  amounts.foldl fillOrder64 o

end Order

namespace Market

/-- Method `Market::simulatePriceMovement(symbol)` in binary64 arithmetic. The value of
`std::sqrt(dt)` and the draw `normalDist(randomGenerator)` are the arguments `sqrtDt` and
`randomShock`; `dt` is the rounded quotient `1.0 / 252.0`. -/
def simulatePriceMovement64 (m : Market) (symbol : String) (sqrtDt randomShock : ℚ) :
    Market :=
  if (m.currentPrices.find symbol).isNone then m
  else
    let rc := m.currentPrices.index symbol 0
    let currentPrice := rc.2
    let rv := m.volatility.index symbol 0
    let vol := rv.2
    let dt : ℚ := round64 (1 / 252)
    let drift : ℚ := round64 (5 / 100)
    let priceChange := round64 (currentPrice *
      round64 (round64 (drift * dt) + round64 (round64 (vol * sqrtDt) * randomShock)))
    let newPrice := max (round64 (1 / 100)) (round64 (currentPrice + priceChange))
    let m1 : Market :=
      { priceHistory := m.priceHistory,
        currentPrices := rc.1.assign symbol newPrice,
        volatility := rv.1 }
    m1.recordPrice symbol newPrice 1000

/-- The loop of `updatePrices` in binary64 arithmetic; the `i`-th call of
`simulatePriceMovement` consumes the draw `draws i`. -/
def updatePricesLoop64 : List String → Market → ℚ → (Nat → ℚ) → Nat → Market
  | [], m, _, _, _ => m
  | symbol :: rest, m, sqrtDt, draws, i =>
    updatePricesLoop64 rest (m.simulatePriceMovement64 symbol sqrtDt (draws i)) sqrtDt draws
      (i + 1)

/-- Method `Market::updatePrices()` in binary64 arithmetic. -/
def updatePrices64 (m : Market) (sqrtDt : ℚ) (draws : Nat → ℚ) : Market :=
  updatePricesLoop64 (m.currentPrices.map Prod.fst) m sqrtDt draws 0

end Market

namespace Portfolio

/-- Method `Portfolio::canAffordOrder(order)` in binary64 arithmetic. -/
def canAffordOrder64 (pf : Portfolio) (order : Order) : Bool :=
  match order.type with
  | OrderType.BUY =>
    let orderValue := round64 (order.quantity * order.price)
    decide (pf.cash ≥ orderValue)
  | OrderType.SELL =>
    decide (pf.getPositionQuantity order.symbol ≥ order.quantity)

/-- Method `updateCash(amount)` in binary64 arithmetic. -/
def updateCash64 (pf : Portfolio) (amount : ℚ) : Portfolio :=
  { pf with cash := round64 (pf.cash + amount) }

/-- Method `Portfolio::updateTotalValue()` in binary64 arithmetic: the product, the inner
sum and the accumulation `totalValue += ...` are each rounded. -/
def updateTotalValue64 (pf : Portfolio) : Portfolio :=
  let total := pf.positions.foldl
    (fun acc kv =>
      round64 (acc + round64 (round64 (kv.2.quantity * kv.2.averagePrice) +
        kv.2.unrealizedPnL))) pf.cash
  { pf with totalValue := total }

/-- Method `Portfolio::executeOrder(order, executionPrice)` in binary64 arithmetic. -/
def executeOrder64 (pf : Portfolio) (order : Order) (executionPrice : ℚ) : Portfolio :=
  if !pf.canAffordOrder64 order then pf
  else
    let symbol := order.symbol
    let quantity := order.quantity
    let pf2 : Portfolio :=
      match order.type with
      | OrderType.BUY =>
        let orderValue := round64 (quantity * executionPrice)
        let pf1 := pf.updateCash64 (-orderValue)
        let positions1 :=
          if (pf1.positions.find symbol).isNone then
            pf1.positions.assign symbol (Position.create symbol 0 0)
          else pf1.positions
        let ref := positions1.index symbol (Position.create "" 0 0)
        let pos := ref.2
        let pos' : Position :=
          if pos.quantity > 0 then
            let totalCost := round64 (round64 (pos.quantity * pos.averagePrice) +
              round64 (quantity * executionPrice))
            let newQuantity := round64 (pos.quantity + quantity)
            { pos with quantity := newQuantity,
                       averagePrice := round64 (totalCost / newQuantity) }
          else
            { pos with quantity := quantity, averagePrice := executionPrice }
        { pf1 with positions := ref.1.assign symbol pos' }
      | OrderType.SELL =>
        let ref := pf.positions.index symbol (Position.create "" 0 0)
        let pos := ref.2
        let saleValue := round64 (quantity * executionPrice)
        let pf1 := pf.updateCash64 saleValue
        let realizedPnL := round64 (quantity * round64 (executionPrice - pos.averagePrice))
        let pos1 := { pos with realizedPnL := round64 (pos.realizedPnL + realizedPnL) }
        let pos2 := { pos1 with quantity := round64 (pos1.quantity - quantity) }
        let positions2 := ref.1.assign symbol pos2
        if pos2.quantity ≤ round64 (1 / 1000) then
          { pf1 with positions := positions2.erase symbol }
        else
          { pf1 with positions := positions2 }
    ({ pf2 with orderHistory := pf2.orderHistory ++ [order] }).updateTotalValue64

/-- Method `Portfolio::updatePositionValue(symbol, currentPrice)` in binary64
arithmetic. -/
def updatePositionValue64 (pf : Portfolio) (symbol : String) (currentPrice : ℚ) :
    Portfolio :=
  let pf1 : Portfolio :=
    match pf.positions.find symbol with
    | some pos =>
      let pos1 : Position :=
        { pos with
          unrealizedPnL := round64 (pos.quantity * round64 (currentPrice - pos.averagePrice)) }
      { pf with positions := pf.positions.assign symbol pos1 }
    | none => pf
  pf1.updateTotalValue64

end Portfolio

/-! ## Sample states used by the concrete checks -/

/-- A market with the single symbol `sym` quoted at `p`. -/
def Market.single (sym : String) (p : ℚ) : Market :=
  { priceHistory := [(sym, [{ price := p, volume := 1000 }])],
    currentPrices := [(sym, p)],
    volatility := [(sym, 1 / 50)] }

/-- An engine over `Market.single sym p` and a fresh ledger holding `cash`; order ids
start at 1. -/
def TradingEngine.sample (sym : String) (p cash : ℚ) : TradingEngine :=
  TradingEngine.create (Market.single sym p) (Portfolio.create cash) 5 1

/-- Cash 1000, "X" quoted at 60, and two limit BUYs of 10 @ 60 submitted one after the
other with `executeLimitOrder`. -/
def TradingEngine.twoBuysPending : TradingEngine :=
  ((TradingEngine.sample "X" 60 1000).executeLimitOrder "X" OrderType.BUY 10 60).executeLimitOrder
    "X" OrderType.BUY 10 60

/-- A ledger holding `cash` and a single position of `qty` units of `sym` at average
price `avg`. -/
def Portfolio.holding (cash : ℚ) (sym : String) (qty avg : ℚ) : Portfolio :=
  { cash := cash, totalValue := cash + qty * avg,
    positions := [(sym, Position.create sym qty avg)], orderHistory := [] }

/-- A market whose only symbol `sym` has the given history prices (volume 1000 each) and
current price `p`. -/
def Market.withHistory (sym : String) (prices : List ℚ) (p : ℚ) : Market :=
  { priceHistory := [(sym, prices.map (fun x => { price := x, volume := 1000 }))],
    currentPrices := [(sym, p)],
    volatility := [(sym, 1 / 50)] }

/-- Cash 1000, "X" quoted at 50, and one limit BUY of 5 @ 40 submitted with
`executeLimitOrder`. -/
def TradingEngine.restingBuy : TradingEngine :=
  (TradingEngine.sample "X" 50 1000).executeLimitOrder "X" OrderType.BUY 5 40

/-- The engine `e` after its market made one `updatePrices` step. -/
def TradingEngine.afterPriceUpdate (e : TradingEngine) (sqrtDt : ℚ) (draws : Nat → ℚ) :
    TradingEngine :=
  { e with market := e.market.updatePrices sqrtDt draws }

/-- A pending order with id `id`, as the constructor builds it. -/
def Order.pending (id : Int) (symbol : String) (type : OrderType) (quantity price : ℚ) :
    Order :=
  (Order.create id symbol type quantity price).1

/-- A session on an engine: a limit BUY, a market BUY, a pass over the queue, a
cancellation and a one-step simulation. -/
def EngineOp.sampleSession : List EngineOp :=
  [EngineOp.executeLimitOrder "X" OrderType.BUY 5 40,
   EngineOp.executeMarketOrder "X" OrderType.BUY 2,
   EngineOp.processOrders,
   EngineOp.cancelOrder 1,
   EngineOp.runSimulation 1 1 (fun _ _ => 0)]

/-- Two executions on a ledger: a BUY of 10 "X" at 50, then a SELL of 4 "X" at 55. -/
def PortfolioOp.sampleTrades : List PortfolioOp :=
  [PortfolioOp.executeOrder (Order.pending 1 "X" OrderType.BUY 10 60) 50,
   PortfolioOp.executeOrder (Order.pending 2 "X" OrderType.SELL 4 40) 55]

/-! ## Lemmas on `StdMap` -/

namespace StdMap
variable {V : Type}

theorem find_assign_self (m : StdMap V) (k : String) (v : V) :
    (m.assign k v).find k = some v := by
  induction m with
  | nil => simp [assign, find]
  | cons hd tl ih =>
    obtain ⟨k', v'⟩ := hd
    by_cases h1 : k' = k
    · simp [assign, find, h1]
    · by_cases h2 : k < k'
      · simp [assign, find, h1, h2]
      · simp [assign, find, h1, h2, ih]

theorem find_assign_ne (m : StdMap V) (k k2 : String) (v : V) (hne : k2 ≠ k) :
    (m.assign k v).find k2 = m.find k2 := by
  have hne' : ¬ k = k2 := fun h => hne h.symm
  induction m with
  | nil => simp [assign, find, hne']
  | cons hd tl ih =>
    obtain ⟨k', v'⟩ := hd
    by_cases h1 : k' = k
    · subst h1
      simp [assign, find, hne']
    · by_cases h2 : k < k'
      · simp [assign, find, h1, h2, hne']
      · simp [assign, find, h1, h2, ih]

theorem find_erase_self (m : StdMap V) (k : String) : (m.erase k).find k = none := by
  induction m with
  | nil => simp [erase, find]
  | cons hd tl ih =>
    obtain ⟨k', v'⟩ := hd
    by_cases h1 : k' = k
    · simp [erase, h1, ih]
    · simp [erase, find, h1, ih]

theorem find_erase_ne (m : StdMap V) (k k2 : String) (hne : k2 ≠ k) :
    (m.erase k).find k2 = m.find k2 := by
  induction m with
  | nil => simp [erase, find]
  | cons hd tl ih =>
    obtain ⟨k', v'⟩ := hd
    by_cases h1 : k' = k
    · subst h1
      have : ¬ k' = k2 := fun h => hne h.symm
      simp [erase, find, ih, this]
    · by_cases h3 : k' = k2
      · subst h3
        simp [erase, find, h1]
      · simp [erase, find, h1, h3, ih]

end StdMap

/-! ## Lemmas on `Order.fillOrder` -/

namespace Order

theorem fillOrder_fields (o : Order) (x : ℚ) :
    (o.fillOrder x).orderId = o.orderId ∧ (o.fillOrder x).symbol = o.symbol ∧
      (o.fillOrder x).type = o.type ∧ (o.fillOrder x).quantity = o.quantity ∧
      (o.fillOrder x).price = o.price := by
  unfold fillOrder
  by_cases h1 : x ≤ 0 ∨ x > o.getRemainingQuantity
  · simp [h1]
  · by_cases h2 : ({ o with filledQuantity := o.filledQuantity + x } : Order).isFullyFilled = true
    · simp [h1, h2]
    · simp [h1, h2]

/-- Filling a fresh order (nothing filled yet) of positive quantity for its full quantity. -/
theorem fillOrder_full (o : Order) (hq : 0 < o.quantity) (hf : o.filledQuantity = 0) :
    o.fillOrder o.quantity = { o with filledQuantity := o.quantity, status := OrderStatus.FILLED } := by
  unfold fillOrder
  have h1 : ¬ (o.quantity ≤ 0 ∨ o.quantity > o.getRemainingQuantity) := by
    simp [getRemainingQuantity, hf, hq]
  simp [h1, isFullyFilled, hf]

end Order

/-! ## Lemmas on `Portfolio.executeOrder` -/

namespace Portfolio

theorem executeOrder_cash_history (pf : Portfolio) (order : Order) (p : ℚ)
    (hafford : pf.canAffordOrder order = true) :
    (pf.executeOrder order p).cash =
        (match order.type with
         | OrderType.BUY => pf.cash - order.quantity * p
         | OrderType.SELL => pf.cash + order.quantity * p) ∧
      (pf.executeOrder order p).orderHistory = pf.orderHistory ++ [order] := by
  unfold executeOrder
  simp only [hafford, Bool.not_true, Bool.false_eq_true, if_false]
  cases ht : order.type
  · simp [updateTotalValue, updateCash, sub_eq_add_neg]
  · simp only []
    split_ifs <;> simp [updateTotalValue, updateCash]

theorem executeOrder_of_not_afford (pf : Portfolio) (order : Order) (p : ℚ)
    (h : pf.canAffordOrder order = false) : pf.executeOrder order p = pf := by
  simp [executeOrder, h]

/-- Positions after an affordable BUY. -/
theorem executeOrder_buy_positions (pf : Portfolio) (order : Order) (p : ℚ)
    (hafford : pf.canAffordOrder order = true) (ht : order.type = OrderType.BUY) :
    (pf.executeOrder order p).positions =
      match pf.positions.find order.symbol with
      | some pos =>
        pf.positions.assign order.symbol
          (if pos.quantity > 0 then
            { pos with
              quantity := pos.quantity + order.quantity,
              averagePrice := (pos.quantity * pos.averagePrice + order.quantity * p) /
                (pos.quantity + order.quantity) }
           else { pos with quantity := order.quantity, averagePrice := p })
      | none =>
        (pf.positions.assign order.symbol (Position.create order.symbol 0 0)).assign
          order.symbol (Position.create order.symbol order.quantity p) := by
  unfold executeOrder
  simp only [hafford, Bool.not_true, Bool.false_eq_true, if_false, ht]
  cases hf : pf.positions.find order.symbol with
  | none =>
    simp [updateTotalValue, updateCash, hf, StdMap.index, StdMap.find_assign_self,
      Position.create]
  | some pos =>
    simp [updateTotalValue, updateCash, hf, StdMap.index]

/-- Positions after an affordable SELL. -/
theorem executeOrder_sell_positions (pf : Portfolio) (order : Order) (p : ℚ)
    (hafford : pf.canAffordOrder order = true) (ht : order.type = OrderType.SELL)
    (pos : Position) (hf : pf.positions.find order.symbol = some pos) :
    (pf.executeOrder order p).positions =
      if pos.quantity - order.quantity ≤ 1 / 1000 then
        (pf.positions.assign order.symbol
          { pos with
            realizedPnL := pos.realizedPnL + order.quantity * (p - pos.averagePrice),
            quantity := pos.quantity - order.quantity }).erase order.symbol
      else
        pf.positions.assign order.symbol
          { pos with
            realizedPnL := pos.realizedPnL + order.quantity * (p - pos.averagePrice),
            quantity := pos.quantity - order.quantity } := by
  unfold executeOrder
  simp only [hafford, Bool.not_true, Bool.false_eq_true, if_false, ht, StdMap.index, hf]
  split_ifs <;> simp [updateTotalValue, updateCash]

end Portfolio

/-! ## Lemmas on the engine operations -/

namespace TradingEngine

theorem validateOrder_congr (e e2 : TradingEngine) (o : Order) (hm : e2.market = e.market)
    (hp : e2.portfolio = e.portfolio) : e2.validateOrder o = e.validateOrder o := by
  simp [validateOrder, hm, hp]

theorem tryExecuteOrder_fst (e : TradingEngine) (o : Order) :
    (e.tryExecuteOrder o).1 = canExecute e.market o := by
  unfold tryExecuteOrder
  split_ifs with h <;> simp [h]

theorem tryExecuteOrder_order (e : TradingEngine) (o : Order) :
    (e.tryExecuteOrder o).2.1 =
      if canExecute e.market o then (o.fillOrder o.quantity).setStatus OrderStatus.FILLED
      else o := by
  unfold tryExecuteOrder
  split_ifs with h <;> simp

theorem tryExecuteOrder_portfolio (e : TradingEngine) (o : Order) :
    (e.tryExecuteOrder o).2.2.portfolio =
      if canExecute e.market o then
        e.portfolio.executeOrder ((o.fillOrder o.quantity).setStatus OrderStatus.FILLED)
          (e.market.getCurrentPrice o.symbol)
      else e.portfolio := by
  unfold tryExecuteOrder
  split_ifs with h <;> simp

theorem tryExecuteOrder_frame (e : TradingEngine) (o : Order) :
    (e.tryExecuteOrder o).2.2.market = e.market ∧
      (e.tryExecuteOrder o).2.2.pendingOrders = e.pendingOrders ∧
      (e.tryExecuteOrder o).2.2.executedOrders = e.executedOrders ∧
      (e.tryExecuteOrder o).2.2.nextOrderId = e.nextOrderId := by
  unfold tryExecuteOrder
  split_ifs with h <;> simp

theorem tryExecuteOrder_of_not_canExecute (e : TradingEngine) (o : Order)
    (h : canExecute e.market o = false) : e.tryExecuteOrder o = (false, o, e) := by
  simp [tryExecuteOrder, h]

theorem processOrdersLoop_spec (queue : List Order) :
    ∀ (e : TradingEngine) (failedOrders : List Order),
      (processOrdersLoop queue e failedOrders).2 =
          failedOrders ++ queue.filter (fun o => !canExecute e.market o) ∧
        (processOrdersLoop queue e failedOrders).1.executedOrders =
          e.executedOrders ++ (queue.filter (fun o => canExecute e.market o)).map
            (fun o => (o.fillOrder o.quantity).setStatus OrderStatus.FILLED) ∧
        (processOrdersLoop queue e failedOrders).1.market = e.market ∧
        (processOrdersLoop queue e failedOrders).1.nextOrderId = e.nextOrderId := by
  induction queue with
  | nil => intro e failedOrders; simp [processOrdersLoop]
  | cons o rest ih =>
    intro e failedOrders
    simp only [processOrdersLoop, tryExecuteOrder_fst, tryExecuteOrder_order]
    cases hx : canExecute e.market o with
    | true =>
      simp only [if_true]
      refine ⟨?_, ?_, ?_, ?_⟩
      · rw [(ih _ _).1]; simp [hx, (tryExecuteOrder_frame _ _).1]
      · rw [(ih _ _).2.1]; simp [hx, (tryExecuteOrder_frame _ _).1, (tryExecuteOrder_frame _ _).2.2.1]
      · rw [(ih _ _).2.2.1]; simp [(tryExecuteOrder_frame _ _).1]
      · rw [(ih _ _).2.2.2]; simp [(tryExecuteOrder_frame _ _).2.2.2]
    | false =>
      simp only [Bool.false_eq_true, if_false]
      refine ⟨?_, ?_, ?_, ?_⟩
      · rw [(ih _ _).1]; simp [hx, (tryExecuteOrder_frame _ _).1]
      · rw [(ih _ _).2.1]; simp [hx, (tryExecuteOrder_frame _ _).1, (tryExecuteOrder_frame _ _).2.2.1]
      · rw [(ih _ _).2.2.1]; simp [(tryExecuteOrder_frame _ _).1]
      · rw [(ih _ _).2.2.2]; simp [(tryExecuteOrder_frame _ _).2.2.2]

end TradingEngine

/-! ## Lemmas on `executeMarketOrder` -/

namespace Portfolio

theorem canAffordOrder_congr (pf : Portfolio) (o o2 : Order) (ht : o2.type = o.type)
    (hs : o2.symbol = o.symbol) (hq : o2.quantity = o.quantity) (hp : o2.price = o.price) :
    pf.canAffordOrder o2 = pf.canAffordOrder o := by
  simp [canAffordOrder, ht, hs, hq, hp]

end Portfolio

namespace TradingEngine

theorem validateOrder_iff (e : TradingEngine) (order : Order) :
    e.validateOrder order = true ↔
      (e.market.hasSymbol order.symbol = true ∧ order.quantity > 0 ∧ order.price > 0 ∧
        e.portfolio.canAffordOrder order = true) := by
  unfold validateOrder
  split_ifs with h1 h2 h3 h4 <;> simp_all

theorem canExecute_at_market (m : Market) (o : Order)
    (h : o.price = m.getCurrentPrice o.symbol) : canExecute m o = true := by
  unfold canExecute
  cases o.type <;> simp [h]

/-- State after `executeMarketOrder` when the symbol is registered and the synthesized
order passes validation. -/
theorem executeMarketOrder_of_valid (e : TradingEngine) (symbol : String) (type : OrderType)
    (quantity : ℚ)
    (hvalid : e.validateOrder
      (Order.create e.nextOrderId symbol type quantity (e.market.getCurrentPrice symbol)).1
        = true) :
    e.executeMarketOrder symbol type quantity =
      { market := e.market,
        portfolio := e.portfolio.executeOrder
          { orderId := e.nextOrderId, symbol := symbol, type := type, quantity := quantity,
            price := e.market.getCurrentPrice symbol, filledQuantity := quantity,
            status := OrderStatus.FILLED } (e.market.getCurrentPrice symbol),
        pendingOrders := e.pendingOrders,
        executedOrders := e.executedOrders ++
          [{ orderId := e.nextOrderId, symbol := symbol, type := type, quantity := quantity,
             price := e.market.getCurrentPrice symbol, filledQuantity := quantity,
             status := OrderStatus.FILLED }],
        transactionCost := e.transactionCost,
        enableLogging := e.enableLogging,
        nextOrderId := wrapInt32 (e.nextOrderId + 1) } := by
  have hg := (validateOrder_iff e _).mp hvalid
  simp only [Order.create] at hg
  have hsym : e.market.hasSymbol symbol = true := hg.1
  have hfill := Order.fillOrder_full
    { orderId := e.nextOrderId, symbol := symbol, type := type, quantity := quantity,
      price := e.market.getCurrentPrice symbol, filledQuantity := 0,
      status := OrderStatus.PENDING } hg.2.1 rfl
  have hce : canExecute e.market
      { orderId := e.nextOrderId, symbol := symbol, type := type, quantity := quantity,
        price := e.market.getCurrentPrice symbol, filledQuantity := 0,
        status := OrderStatus.PENDING } = true := canExecute_at_market _ _ rfl
  have hv2 : validateOrder { e with nextOrderId := wrapInt32 (e.nextOrderId + 1) }
      { orderId := e.nextOrderId, symbol := symbol, type := type, quantity := quantity,
        price := e.market.getCurrentPrice symbol, filledQuantity := 0,
        status := OrderStatus.PENDING } = true := by
    simpa [validateOrder, Order.create] using hvalid
  simp only [executeMarketOrder, hsym, Bool.not_true, Bool.false_eq_true, if_false,
    Order.create, hv2, if_true, tryExecuteOrder, hce, hfill, Order.setStatus]

theorem executeMarketOrder_of_invalid (e : TradingEngine) (symbol : String) (type : OrderType)
    (quantity : ℚ)
    (hinvalid : ¬ (e.market.hasSymbol symbol = true ∧ e.validateOrder
      (Order.create e.nextOrderId symbol type quantity (e.market.getCurrentPrice symbol)).1
        = true)) :
    (e.executeMarketOrder symbol type quantity).portfolio = e.portfolio ∧
      (e.executeMarketOrder symbol type quantity).executedOrders = e.executedOrders ∧
      (e.executeMarketOrder symbol type quantity).pendingOrders = e.pendingOrders ∧
      (e.executeMarketOrder symbol type quantity).market = e.market := by
  unfold executeMarketOrder
  cases hsym : e.market.hasSymbol symbol with
  | false => simp
  | true =>
    have hv : e.validateOrder
        (Order.create e.nextOrderId symbol type quantity (e.market.getCurrentPrice symbol)).1
          = false := by
      simpa [hsym] using hinvalid
    have hv2 : validateOrder { e with nextOrderId :=
          (Order.create e.nextOrderId symbol type quantity
            (e.market.getCurrentPrice symbol)).2 }
        (Order.create e.nextOrderId symbol type quantity (e.market.getCurrentPrice symbol)).1
          = false := by
      simpa [validateOrder, Order.create] using hv
    simp [hv2]

end TradingEngine

/-! ## Claims C1 to C10 -/

/-- Claim C1 (evaluation at the failing input): with cash 1000 and "X" at 60, two limit
BUYs of 10 @ 60 are both admitted (each needs 600, cash is 1000 at both submissions). One
`processOrders` pass then moves both to the execution log as FILLED and empties the queue,
but only the first reaches the ledger: its history holds order 1 alone, cash is 400 (one
debit of `10 * 60`, not two) and the position is 10 units, not 20. -/
theorem processOrders_logs_order_ledger_refused :
    TradingEngine.twoBuysPending.pendingOrders.map Order.orderId = [1, 2] ∧
      TradingEngine.twoBuysPending.portfolio = Portfolio.create 1000 ∧
      TradingEngine.twoBuysPending.processOrders.pendingOrders = [] ∧
      TradingEngine.twoBuysPending.processOrders.executedOrders.map Order.orderId = [1, 2] ∧
      TradingEngine.twoBuysPending.processOrders.executedOrders.map Order.status =
        [OrderStatus.FILLED, OrderStatus.FILLED] ∧
      TradingEngine.twoBuysPending.processOrders.portfolio.orderHistory.map Order.orderId
        = [1] ∧
      TradingEngine.twoBuysPending.processOrders.portfolio.cash = 400 ∧
      TradingEngine.twoBuysPending.processOrders.portfolio.cash ≠ 1000 - 10 * 60 - 10 * 60 ∧
      TradingEngine.twoBuysPending.processOrders.portfolio.getPositionQuantity "X" = 10 := by
  norm_num [TradingEngine.twoBuysPending, TradingEngine.sample, TradingEngine.executeLimitOrder,
    TradingEngine.submitOrder, TradingEngine.processOrders, TradingEngine.processOrdersLoop,
    TradingEngine.create, Market.single, Portfolio.create, Market.hasSymbol,
    Market.getCurrentPrice, StdMap.find, StdMap.assign, StdMap.index, Order.create,
    TradingEngine.validateOrder, Portfolio.canAffordOrder, TradingEngine.tryExecuteOrder,
    TradingEngine.canExecute, Order.fillOrder, Order.getRemainingQuantity, Order.isFullyFilled,
    Order.setStatus, Portfolio.executeOrder, Portfolio.updateCash, Portfolio.updateTotalValue,
    Position.create, Portfolio.getPositionQuantity, wrapInt32]

/-- Claim C2: `executeMarketOrder` is immediate-or-reject. It never changes the pending
queue. When the symbol is registered and the synthesized order (limit = current market
price) passes validation, exactly one order, FILLED with `filledQuantity = quantity`, is
appended to the execution log, and the ledger executes it at the current price (history
gains it, cash moves by `quantity * currentPrice`). Otherwise the ledger and the log are
unchanged. With cash 1000 and "Y" at 50, a market BUY of 10 leaves cash 500 and a
position of quantity 10 at average cost 50. -/
theorem executeMarketOrder_immediate_or_reject (e : TradingEngine) (symbol : String)
    (type : OrderType) (quantity : ℚ) :
    (e.executeMarketOrder symbol type quantity).pendingOrders = e.pendingOrders ∧
      ((e.market.hasSymbol symbol = true ∧
          e.validateOrder (Order.create e.nextOrderId symbol type quantity
            (e.market.getCurrentPrice symbol)).1 = true) →
        ∃ o : Order,
          o.orderId = e.nextOrderId ∧ o.symbol = symbol ∧ o.type = type ∧
          o.quantity = quantity ∧ o.price = e.market.getCurrentPrice symbol ∧
          o.status = OrderStatus.FILLED ∧ o.filledQuantity = quantity ∧
          (e.executeMarketOrder symbol type quantity).executedOrders =
            e.executedOrders ++ [o] ∧
          (e.executeMarketOrder symbol type quantity).portfolio =
            e.portfolio.executeOrder o (e.market.getCurrentPrice symbol) ∧
          (e.executeMarketOrder symbol type quantity).portfolio.orderHistory =
            e.portfolio.orderHistory ++ [o] ∧
          (e.executeMarketOrder symbol type quantity).portfolio.cash =
            (match type with
             | OrderType.BUY => e.portfolio.cash - quantity * e.market.getCurrentPrice symbol
             | OrderType.SELL => e.portfolio.cash + quantity * e.market.getCurrentPrice symbol)) ∧
      (¬ (e.market.hasSymbol symbol = true ∧
          e.validateOrder (Order.create e.nextOrderId symbol type quantity
            (e.market.getCurrentPrice symbol)).1 = true) →
        (e.executeMarketOrder symbol type quantity).portfolio = e.portfolio ∧
        (e.executeMarketOrder symbol type quantity).executedOrders = e.executedOrders) ∧
      (((TradingEngine.sample "Y" 50 1000).executeMarketOrder "Y" OrderType.BUY 10).portfolio.cash
          = 500 ∧
        ((TradingEngine.sample "Y" 50 1000).executeMarketOrder "Y" OrderType.BUY
            10).portfolio.positions.find "Y" =
          some { symbol := "Y", quantity := 10, averagePrice := 50, unrealizedPnL := 0,
                 realizedPnL := 0 }) := by
  refine ⟨?_, ?_, ?_, ?_⟩
  · by_cases hv : e.market.hasSymbol symbol = true ∧
        e.validateOrder (Order.create e.nextOrderId symbol type quantity
          (e.market.getCurrentPrice symbol)).1 = true
    · rw [TradingEngine.executeMarketOrder_of_valid e symbol type quantity hv.2]
    · exact (TradingEngine.executeMarketOrder_of_invalid e symbol type quantity hv).2.2.1
  · intro hv
    have hafford : e.portfolio.canAffordOrder
        { orderId := e.nextOrderId, symbol := symbol, type := type, quantity := quantity,
          price := e.market.getCurrentPrice symbol, filledQuantity := quantity,
          status := OrderStatus.FILLED } = true := by
      exact (Portfolio.canAffordOrder_congr e.portfolio
        (Order.create e.nextOrderId symbol type quantity (e.market.getCurrentPrice symbol)).1
        _ rfl rfl rfl rfl).trans ((TradingEngine.validateOrder_iff e _).mp hv.2).2.2.2
    have hc := Portfolio.executeOrder_cash_history e.portfolio _
      (e.market.getCurrentPrice symbol) hafford
    refine ⟨
      { orderId := e.nextOrderId, symbol := symbol, type := type, quantity := quantity,
        price := e.market.getCurrentPrice symbol, filledQuantity := quantity,
        status := OrderStatus.FILLED }, rfl, rfl, rfl, rfl, rfl, rfl, rfl, ?_, ?_, ?_, ?_⟩
    · rw [TradingEngine.executeMarketOrder_of_valid e symbol type quantity hv.2]
    · rw [TradingEngine.executeMarketOrder_of_valid e symbol type quantity hv.2]
    · rw [TradingEngine.executeMarketOrder_of_valid e symbol type quantity hv.2]
      exact hc.2
    · rw [TradingEngine.executeMarketOrder_of_valid e symbol type quantity hv.2]
      exact hc.1
  · intro hv
    exact ⟨(TradingEngine.executeMarketOrder_of_invalid e symbol type quantity hv).1,
      (TradingEngine.executeMarketOrder_of_invalid e symbol type quantity hv).2.1⟩
  · norm_num [TradingEngine.sample, TradingEngine.executeMarketOrder,
      TradingEngine.create, Market.single, Portfolio.create, Market.hasSymbol,
      Market.getCurrentPrice, StdMap.find, StdMap.assign, StdMap.index, Order.create,
      TradingEngine.validateOrder, Portfolio.canAffordOrder, TradingEngine.tryExecuteOrder,
      TradingEngine.canExecute, Order.fillOrder, Order.getRemainingQuantity,
      Order.isFullyFilled, Order.setStatus, Portfolio.executeOrder, Portfolio.updateCash,
      Portfolio.updateTotalValue, Position.create]

/-- Claim C3: `submitOrder` returns true exactly when the four admission gates pass
(symbol registered, quantity `> 0`, limit price `> 0`, `canAffordOrder`); on true the
pending queue is the old queue with the order appended at the back, on false it is the
old queue; the ledger and the execution log are the same in both cases. In particular a
BUY whose quantity times limit price exceeds cash is rejected with the queue length
unchanged. -/
theorem submitOrder_iff_gates (e : TradingEngine) (order : Order) :
    ((e.submitOrder order).1 = true ↔
        (e.market.hasSymbol order.symbol = true ∧ order.quantity > 0 ∧ order.price > 0 ∧
          e.portfolio.canAffordOrder order = true)) ∧
      ((e.submitOrder order).1 = true →
        (e.submitOrder order).2.pendingOrders = e.pendingOrders ++ [order]) ∧
      ((e.submitOrder order).1 = false →
        (e.submitOrder order).2.pendingOrders = e.pendingOrders) ∧
      (e.submitOrder order).2.portfolio = e.portfolio ∧
      (e.submitOrder order).2.executedOrders = e.executedOrders ∧
      (order.type = OrderType.BUY → order.quantity * order.price > e.portfolio.cash →
        (e.submitOrder order).1 = false ∧
        (e.submitOrder order).2.getPendingOrderCount = e.getPendingOrderCount) := by
  have hv : e.validateOrder order = true ↔
      (e.market.hasSymbol order.symbol = true ∧ order.quantity > 0 ∧ order.price > 0 ∧
        e.portfolio.canAffordOrder order = true) := by
    unfold TradingEngine.validateOrder
    split_ifs with h1 h2 h3 h4 <;> simp_all
  unfold TradingEngine.submitOrder
  cases hval : e.validateOrder order with
  | true =>
    rw [hval] at hv
    have hg := hv.mp rfl
    refine ⟨by simpa using hg, by simp, by simp, by simp, by simp, ?_⟩
    intro hbuy hgt
    have hca := hg.2.2.2
    simp [Portfolio.canAffordOrder, hbuy] at hca
    exact absurd hca (not_le.mpr hgt)
  | false =>
    rw [hval] at hv
    refine ⟨by simpa using hv, by simp, by simp, by simp, by simp, ?_⟩
    intro _ _
    simp

theorem submitOrder_iff_gates_witness :
    ((TradingEngine.sample "X" 50 100).submitOrder
        (Order.pending 1 "X" OrderType.BUY 10 60)).1 = false ∧
      ((TradingEngine.sample "X" 50 100).submitOrder
        (Order.pending 1 "X" OrderType.BUY 10 60)).2.getPendingOrderCount =
        (TradingEngine.sample "X" 50 100).getPendingOrderCount :=
  (submitOrder_iff_gates (TradingEngine.sample "X" 50 100)
    (Order.pending 1 "X" OrderType.BUY 10 60)).2.2.2.2.2 rfl
    (by norm_num [Order.pending, Order.create, TradingEngine.sample, TradingEngine.create,
      Portfolio.create])

/-- Claim C4: one `processOrders` pass at fixed market prices partitions the pending
queue: the new queue is the old queue filtered to the orders failing the fill condition
(original relative order), the execution log is the old log followed by the orders meeting
the fill condition (original relative order, each in its filled state, same ids), and
old pending count = new pending count + number of newly logged orders. -/
theorem processOrders_partitions_queue (e : TradingEngine) :
    e.processOrders.market = e.market ∧
      e.processOrders.pendingOrders =
        e.pendingOrders.filter (fun o => !TradingEngine.canExecute e.market o) ∧
      e.processOrders.executedOrders =
        e.executedOrders ++
          (e.pendingOrders.filter (fun o => TradingEngine.canExecute e.market o)).map
            (fun o => (o.fillOrder o.quantity).setStatus OrderStatus.FILLED) ∧
      e.processOrders.executedOrders.map Order.orderId =
        e.executedOrders.map Order.orderId ++
          (e.pendingOrders.filter (fun o => TradingEngine.canExecute e.market o)).map
            Order.orderId ∧
      e.processOrders.executedOrders.length =
        e.executedOrders.length +
          (e.pendingOrders.filter (fun o => TradingEngine.canExecute e.market o)).length ∧
      e.pendingOrders.length =
        e.processOrders.pendingOrders.length +
          (e.processOrders.executedOrders.length - e.executedOrders.length) := by
  obtain ⟨h1, h2, h3, _⟩ := TradingEngine.processOrdersLoop_spec e.pendingOrders e []
  have hpend : e.processOrders.pendingOrders =
      e.pendingOrders.filter (fun o => !TradingEngine.canExecute e.market o) := by
    simp [TradingEngine.processOrders, h1]
  have hexec : e.processOrders.executedOrders =
      e.executedOrders ++
        (e.pendingOrders.filter (fun o => TradingEngine.canExecute e.market o)).map
          (fun o => (o.fillOrder o.quantity).setStatus OrderStatus.FILLED) := by
    simp [TradingEngine.processOrders, h2]
  have hid : ∀ o : Order,
      ((o.fillOrder o.quantity).setStatus OrderStatus.FILLED).orderId = o.orderId := by
    intro o
    simp [Order.setStatus, (Order.fillOrder_fields o o.quantity).1]
  have hlen : ∀ l : List Order,
      l.length = (l.filter (fun o => !TradingEngine.canExecute e.market o)).length +
        (l.filter (fun o => TradingEngine.canExecute e.market o)).length := by
    intro l
    induction l with
    | nil => simp
    | cons o t ih =>
      cases hx : TradingEngine.canExecute e.market o <;>
        simp [List.filter_cons, hx] <;> omega
  refine ⟨by simp [TradingEngine.processOrders, h3], hpend, hexec, ?_, ?_, ?_⟩
  · rw [hexec]
    simp [List.map_map, Function.comp_def, hid]
  · rw [hexec]; simp
  · rw [hexec, hpend]
    simp only [List.length_append, List.length_map, Nat.add_sub_cancel_left]
    exact hlen _

theorem processOrders_partitions_queue_witness :
    (((TradingEngine.sample "X" 50 1000).executeLimitOrder "X" OrderType.BUY 5
        40).executeLimitOrder "X" OrderType.BUY 2 55).processOrders.pendingOrders.map
        Order.orderId = [1] ∧
      (((TradingEngine.sample "X" 50 1000).executeLimitOrder "X" OrderType.BUY 5
        40).executeLimitOrder "X" OrderType.BUY 2 55).processOrders.executedOrders.map
        Order.orderId = [2] := by
  have h := processOrders_partitions_queue
    (((TradingEngine.sample "X" 50 1000).executeLimitOrder "X" OrderType.BUY 5
      40).executeLimitOrder "X" OrderType.BUY 2 55)
  rw [h.2.1, h.2.2.2.1]
  norm_num [TradingEngine.sample, TradingEngine.executeLimitOrder, TradingEngine.submitOrder,
    TradingEngine.create, Market.single, Portfolio.create, Market.hasSymbol,
    Market.getCurrentPrice, StdMap.find, Order.create, TradingEngine.validateOrder,
    Portfolio.canAffordOrder, TradingEngine.canExecute, List.filter, wrapInt32]

/-- Claim C5: `tryExecuteOrder` succeeds exactly when the order is a BUY with current
price `≤` limit price or a SELL with current price `≥` limit price, the current price
being the market's price of the order's symbol; on failure the order (so its filled
quantity and status) and the engine (so the ledger and the execution log) are returned
as they were. -/
theorem tryExecuteOrder_iff_price_condition (e : TradingEngine) (order : Order) :
    ((e.tryExecuteOrder order).1 = true ↔
        (order.type = OrderType.BUY ∧ e.market.getCurrentPrice order.symbol ≤ order.price) ∨
        (order.type = OrderType.SELL ∧ e.market.getCurrentPrice order.symbol ≥ order.price)) ∧
      ((e.tryExecuteOrder order).1 = false →
        (e.tryExecuteOrder order).2.1 = order ∧
        (e.tryExecuteOrder order).2.1.filledQuantity = order.filledQuantity ∧
        (e.tryExecuteOrder order).2.1.status = order.status ∧
        (e.tryExecuteOrder order).2.2.portfolio = e.portfolio ∧
        (e.tryExecuteOrder order).2.2.executedOrders = e.executedOrders ∧
        (e.tryExecuteOrder order).2.2 = e) := by
  constructor
  · rw [TradingEngine.tryExecuteOrder_fst]
    cases ht : order.type <;> simp [TradingEngine.canExecute, ht]
  · intro hfail
    rw [TradingEngine.tryExecuteOrder_fst] at hfail
    simp [TradingEngine.tryExecuteOrder_of_not_canExecute e order hfail]

theorem tryExecuteOrder_iff_price_condition_witness :
    ((TradingEngine.sample "X" 50 1000).tryExecuteOrder
        (Order.pending 1 "X" OrderType.BUY 5 40)).1 = false ∧
      ((TradingEngine.sample "X" 50 1000).tryExecuteOrder
        (Order.pending 1 "X" OrderType.BUY 5 40)).2.2.portfolio =
        (TradingEngine.sample "X" 50 1000).portfolio := by
  have h := tryExecuteOrder_iff_price_condition (TradingEngine.sample "X" 50 1000)
    (Order.pending 1 "X" OrderType.BUY 5 40)
  have hfalse : ((TradingEngine.sample "X" 50 1000).tryExecuteOrder
      (Order.pending 1 "X" OrderType.BUY 5 40)).1 = false := by
    rw [Bool.eq_false_iff]
    intro ht
    have hc := h.1.mp ht
    norm_num [Order.pending, Order.create, TradingEngine.sample, TradingEngine.create,
      Market.single, Market.getCurrentPrice, StdMap.find] at hc
    exact OrderType.noConfusion hc
  exact ⟨hfalse, (h.2 hfalse).2.2.2.1⟩

/-- Claim C6: an affordable BUY of quantity `q` executed at price `p` lowers cash by
exactly `q * p` (the execution price, not the limit price of the order), appends the
order to the execution history and leaves the position of every other symbol as it was. -/
theorem buy_debits_cash_at_execution_price (pf : Portfolio) (order : Order) (p : ℚ)
    (hbuy : order.type = OrderType.BUY) (hafford : pf.canAffordOrder order = true) :
    (pf.executeOrder order p).cash = pf.cash - order.quantity * p ∧
      (pf.executeOrder order p).orderHistory = pf.orderHistory ++ [order] ∧
      ∀ s : String, s ≠ order.symbol →
        (pf.executeOrder order p).positions.find s = pf.positions.find s := by
  have h := Portfolio.executeOrder_cash_history pf order p hafford
  rw [hbuy] at h
  refine ⟨h.1, h.2, ?_⟩
  intro s hs
  rw [Portfolio.executeOrder_buy_positions pf order p hafford hbuy]
  cases hf : pf.positions.find order.symbol with
  | none => simp only [StdMap.find_assign_ne _ _ _ _ hs]
  | some pos => simp only [StdMap.find_assign_ne _ _ _ _ hs]

theorem buy_debits_cash_at_execution_price_witness :
    (Portfolio.create 1000).canAffordOrder (Order.pending 1 "X" OrderType.BUY 10 60) = true ∧
      ((Portfolio.create 1000).executeOrder (Order.pending 1 "X" OrderType.BUY 10 60) 50).cash
        = 1000 - 10 * 50 :=
  ⟨by norm_num [Portfolio.canAffordOrder, Portfolio.create, Order.pending, Order.create],
   (buy_debits_cash_at_execution_price (Portfolio.create 1000)
      (Order.pending 1 "X" OrderType.BUY 10 60) 50 rfl
      (by norm_num [Portfolio.canAffordOrder, Portfolio.create, Order.pending,
        Order.create])).1⟩

/-- Claim C7: for an affordable BUY of quantity `q > 0` executed at price `p`, a held
position with `oldQty > 0` becomes one with quantity `oldQty + q` and average cost
`(oldQty * oldAvg + q * p) / (oldQty + q)` (other fields kept), and when the symbol has no
position one is created with quantity `q` and average cost `p`. -/
theorem buy_weighted_average_cost (pf : Portfolio) (order : Order) (p : ℚ)
    (hbuy : order.type = OrderType.BUY) (hafford : pf.canAffordOrder order = true)
    (_hq : 0 < order.quantity) :
    (∀ pos : Position, pf.positions.find order.symbol = some pos → 0 < pos.quantity →
        (pf.executeOrder order p).positions.find order.symbol =
          some { pos with
            quantity := pos.quantity + order.quantity,
            averagePrice := (pos.quantity * pos.averagePrice + order.quantity * p) /
              (pos.quantity + order.quantity) }) ∧
      (pf.positions.find order.symbol = none →
        (pf.executeOrder order p).positions.find order.symbol =
          some { symbol := order.symbol, quantity := order.quantity, averagePrice := p,
                 unrealizedPnL := 0, realizedPnL := 0 }) := by
  constructor
  · intro pos hf hpos
    rw [Portfolio.executeOrder_buy_positions pf order p hafford hbuy, hf]
    simp only [StdMap.find_assign_self, gt_iff_lt, hpos, if_true]
  · intro hf
    rw [Portfolio.executeOrder_buy_positions pf order p hafford hbuy, hf]
    simp only [StdMap.find_assign_self, Position.create]

theorem buy_weighted_average_cost_witness :
    (((Portfolio.create 5000).executeOrder (Order.pending 1 "X" OrderType.BUY 10 100)
        100).executeOrder (Order.pending 2 "X" OrderType.BUY 10 120) 120).positions.find "X" =
      some { symbol := "X", quantity := 20, averagePrice := 110, unrealizedPnL := 0,
             realizedPnL := 0 } := by
  have h1 := (buy_weighted_average_cost (Portfolio.create 5000)
    (Order.pending 1 "X" OrderType.BUY 10 100) 100 rfl
    (by norm_num [Portfolio.canAffordOrder, Portfolio.create, Order.pending, Order.create])
    (by norm_num [Order.pending, Order.create])).2
    (by simp [Portfolio.create, StdMap.find])
  have h2 := (buy_weighted_average_cost
    ((Portfolio.create 5000).executeOrder (Order.pending 1 "X" OrderType.BUY 10 100) 100)
    (Order.pending 2 "X" OrderType.BUY 10 120) 120 rfl
    (by norm_num [Portfolio.canAffordOrder, Portfolio.create, Order.pending, Order.create,
      Portfolio.executeOrder, Portfolio.updateCash, Portfolio.updateTotalValue, StdMap.find,
      StdMap.assign, StdMap.index, Position.create])
    (by norm_num [Order.pending, Order.create])).1 _ h1
    (by norm_num [Order.pending, Order.create])
  have h3 : (Order.pending 2 "X" OrderType.BUY 10 120).symbol = "X" := rfl
  rw [h3] at h2
  rw [h2]
  norm_num [Order.pending, Order.create]

/-- Claim C8: from a ledger with cash `c` and no position in `s`, a BUY of `q > 0` in `s`
(affordable at its limit price) executed at `p`, followed by a SELL of the same `q` in `s`
executed at `p2`, leaves cash `c - q * p + q * p2` and no position for `s`:
`hasPosition s` is false and `getPositionQuantity s` is `0`. -/
theorem buy_then_sell_round_trip (pf : Portfolio) (buy sell : Order) (p p2 : ℚ)
    (hbuy : buy.type = OrderType.BUY) (hsell : sell.type = OrderType.SELL)
    (hsym : sell.symbol = buy.symbol) (hqty : sell.quantity = buy.quantity)
    (hnopos : pf.positions.find buy.symbol = none)
    (_hq : 0 < buy.quantity) (hcash : pf.cash ≥ buy.quantity * buy.price) :
    ((pf.executeOrder buy p).executeOrder sell p2).cash =
        pf.cash - buy.quantity * p + buy.quantity * p2 ∧
      ((pf.executeOrder buy p).executeOrder sell p2).hasPosition buy.symbol = false ∧
      ((pf.executeOrder buy p).executeOrder sell p2).getPositionQuantity buy.symbol = 0 := by
  have hafford : pf.canAffordOrder buy = true := by
    simp [Portfolio.canAffordOrder, hbuy, hcash]
  have hb := Portfolio.executeOrder_cash_history pf buy p hafford
  rw [hbuy] at hb
  have hfind1 : (pf.executeOrder buy p).positions.find sell.symbol =
      some (Position.create buy.symbol buy.quantity p) := by
    rw [hsym, Portfolio.executeOrder_buy_positions pf buy p hafford hbuy, hnopos]
    simp only [StdMap.find_assign_self]
  have hafford2 : (pf.executeOrder buy p).canAffordOrder sell = true := by
    simp [Portfolio.canAffordOrder, hsell, Portfolio.getPositionQuantity, hfind1,
      Position.create, hqty]
  have hs := Portfolio.executeOrder_cash_history (pf.executeOrder buy p) sell p2 hafford2
  rw [hsell] at hs
  have hnone : ((pf.executeOrder buy p).executeOrder sell p2).positions.find buy.symbol
      = none := by
    rw [Portfolio.executeOrder_sell_positions (pf.executeOrder buy p) sell p2 hafford2 hsell
      _ hfind1]
    have hsmall : (Position.create buy.symbol buy.quantity p).quantity - sell.quantity
        ≤ 1 / 1000 := by
      simp only [Position.create, hqty, sub_self]
      norm_num
    rw [if_pos hsmall, ← hsym, StdMap.find_erase_self]
  refine ⟨?_, ?_, ?_⟩
  · rw [hs.1, hb.1, hqty]
  · simp [Portfolio.hasPosition, hnone]
  · simp [Portfolio.getPositionQuantity, hnone]

theorem buy_then_sell_round_trip_witness :
    (((Portfolio.create 1000).executeOrder (Order.pending 1 "X" OrderType.BUY 10 60)
        50).executeOrder (Order.pending 2 "X" OrderType.SELL 10 40) 55).cash =
        1000 - 10 * 50 + 10 * 55 ∧
      (((Portfolio.create 1000).executeOrder (Order.pending 1 "X" OrderType.BUY 10 60)
        50).executeOrder (Order.pending 2 "X" OrderType.SELL 10 40) 55).hasPosition "X"
        = false ∧
      (((Portfolio.create 1000).executeOrder (Order.pending 1 "X" OrderType.BUY 10 60)
        50).executeOrder (Order.pending 2 "X" OrderType.SELL 10 40) 55).getPositionQuantity
        "X" = 0 :=
  buy_then_sell_round_trip (Portfolio.create 1000)
    (Order.pending 1 "X" OrderType.BUY 10 60) (Order.pending 2 "X" OrderType.SELL 10 40) 50 55
    rfl rfl rfl rfl (by simp [Portfolio.create, StdMap.find])
    (by norm_num [Order.pending, Order.create])
    (by norm_num [Order.pending, Order.create, Portfolio.create])

/-- Claim C9: selling `q` with `0 < q ≤ Q` out of a held position `(Q, a, r)` at price `p`
raises cash by exactly `q * p`; when `Q - q > 0.001` the position stays with quantity
`Q - q`, the same average cost and realized P&L `r + q * (p - a)`; when `Q - q ≤ 0.001`
the symbol has no entry in the map afterwards. -/
theorem sell_credits_cash_and_realizes_pnl (pf : Portfolio) (order : Order) (p : ℚ) (pos : Position)
    (hsell : order.type = OrderType.SELL)
    (hheld : pf.positions.find order.symbol = some pos)
    (_hq : 0 < order.quantity) (hle : order.quantity ≤ pos.quantity) :
    (pf.executeOrder order p).cash = pf.cash + order.quantity * p ∧
      (pos.quantity - order.quantity > 1 / 1000 →
        (pf.executeOrder order p).positions.find order.symbol =
          some { pos with
            quantity := pos.quantity - order.quantity,
            realizedPnL := pos.realizedPnL + order.quantity * (p - pos.averagePrice) }) ∧
      (pos.quantity - order.quantity ≤ 1 / 1000 →
        (pf.executeOrder order p).positions.find order.symbol = none ∧
          (pf.executeOrder order p).hasPosition order.symbol = false) := by
  have hafford : pf.canAffordOrder order = true := by
    simp [Portfolio.canAffordOrder, hsell, Portfolio.getPositionQuantity, hheld, hle]
  have hc := Portfolio.executeOrder_cash_history pf order p hafford
  rw [hsell] at hc
  refine ⟨hc.1, ?_, ?_⟩
  · intro hgt
    rw [Portfolio.executeOrder_sell_positions pf order p hafford hsell pos hheld,
      if_neg (not_le.mpr hgt), StdMap.find_assign_self]
  · intro hsmall
    have hnone : (pf.executeOrder order p).positions.find order.symbol = none := by
      rw [Portfolio.executeOrder_sell_positions pf order p hafford hsell pos hheld,
        if_pos hsmall, StdMap.find_erase_self]
    exact ⟨hnone, by simp [Portfolio.hasPosition, hnone]⟩

theorem sell_credits_cash_and_realizes_pnl_witness :
    ((Portfolio.holding 500 "X" 10 50).executeOrder (Order.pending 3 "X" OrderType.SELL 4 55)
        60).cash = 500 + 4 * 60 ∧
      ((Portfolio.holding 500 "X" 10 50).executeOrder (Order.pending 3 "X" OrderType.SELL 4 55)
        60).positions.find "X" =
        some { symbol := "X", quantity := 10 - 4, averagePrice := 50, unrealizedPnL := 0,
               realizedPnL := 0 + 4 * (60 - 50) } ∧
      ((Portfolio.holding 500 "X" 10 50).executeOrder
        (Order.pending 4 "X" OrderType.SELL 10 55) 60).positions.find "X" = none :=
  ⟨(sell_credits_cash_and_realizes_pnl (Portfolio.holding 500 "X" 10 50)
      (Order.pending 3 "X" OrderType.SELL 4 55) 60 (Position.create "X" 10 50) rfl
      (by simp [Portfolio.holding, StdMap.find, Order.pending, Order.create])
      (by norm_num [Order.pending, Order.create])
      (by norm_num [Order.pending, Order.create, Position.create])).1,
   (sell_credits_cash_and_realizes_pnl (Portfolio.holding 500 "X" 10 50)
      (Order.pending 3 "X" OrderType.SELL 4 55) 60 (Position.create "X" 10 50) rfl
      (by simp [Portfolio.holding, StdMap.find, Order.pending, Order.create])
      (by norm_num [Order.pending, Order.create])
      (by norm_num [Order.pending, Order.create, Position.create])).2.1
      (by norm_num [Order.pending, Order.create, Position.create]),
   ((sell_credits_cash_and_realizes_pnl (Portfolio.holding 500 "X" 10 50)
      (Order.pending 4 "X" OrderType.SELL 10 55) 60 (Position.create "X" 10 50) rfl
      (by simp [Portfolio.holding, StdMap.find, Order.pending, Order.create])
      (by norm_num [Order.pending, Order.create])
      (by norm_num [Order.pending, Order.create, Position.create])).2.2
      (by norm_num [Order.pending, Order.create, Position.create])).1⟩

/-- Claim C10: when `canAffordOrder` rejects the order, `executeOrder` returns the
ledger it was given: cash, total value, the position map and the execution history
are all the same. -/
theorem rejected_order_leaves_ledger_unchanged (pf : Portfolio) (order : Order) (p : ℚ)
    (hreject : pf.canAffordOrder order = false) :
    pf.executeOrder order p = pf ∧
      (pf.executeOrder order p).cash = pf.cash ∧
      (pf.executeOrder order p).totalValue = pf.totalValue ∧
      (pf.executeOrder order p).positions = pf.positions ∧
      (pf.executeOrder order p).orderHistory = pf.orderHistory := by
  have h := Portfolio.executeOrder_of_not_afford pf order p hreject
  simp [h]

theorem rejected_order_leaves_ledger_unchanged_witness :
    (Portfolio.create 100).canAffordOrder (Order.pending 1 "X" OrderType.BUY 10 60) = false ∧
      (Portfolio.create 100).executeOrder (Order.pending 1 "X" OrderType.BUY 10 60) 50 =
        Portfolio.create 100 :=
  ⟨by norm_num [Portfolio.canAffordOrder, Portfolio.create, Order.pending, Order.create],
   (rejected_order_leaves_ledger_unchanged (Portfolio.create 100)
      (Order.pending 1 "X" OrderType.BUY 10 60) 50
      (by norm_num [Portfolio.canAffordOrder, Portfolio.create, Order.pending,
        Order.create])).1⟩

/-! ## Lemmas on fill sequences and the id counter -/

namespace Order

/-- The two possible results of `fillOrder`. -/
theorem fillOrder_cases (o : Order) (x : ℚ) :
    ((x ≤ 0 ∨ x > o.quantity - o.filledQuantity) ∧ o.fillOrder x = o) ∨
      (0 < x ∧ x ≤ o.quantity - o.filledQuantity ∧
        (o.fillOrder x).filledQuantity = o.filledQuantity + x ∧
        (o.fillOrder x).quantity = o.quantity ∧
        ((o.fillOrder x).status = OrderStatus.FILLED ↔
          o.filledQuantity + x ≥ o.quantity)) := by
  by_cases h : x ≤ 0 ∨ x > o.quantity - o.filledQuantity
  · left
    exact ⟨h, by simp only [fillOrder, getRemainingQuantity, if_pos h]⟩
  · right
    have h' := h
    push_neg at h'
    refine ⟨h'.1, h'.2, ?_, (fillOrder_fields o x).2.2.2.1, ?_⟩
    · simp only [fillOrder, getRemainingQuantity, if_neg h]
      split_ifs <;> rfl
    · simp only [fillOrder, getRemainingQuantity, if_neg h, isFullyFilled]
      by_cases hf : o.filledQuantity + x ≥ o.quantity
      · simp [hf]
      · simp [hf]

/-- A property kept by every `fillOrder` call holds after any sequence of calls. -/
theorem fillAll_induction (P : Order → Prop)
    (hstep : ∀ (o : Order) (x : ℚ), P o → P (o.fillOrder x)) (amounts : List ℚ) :
    ∀ o : Order, P o → P (o.fillAll amounts) := by
  induction amounts with
  | nil => intro o h; simpa [fillAll] using h
  | cons x rest ih =>
    intro o h
    have := ih (o.fillOrder x) (hstep o x h)
    simpa [fillAll] using this

theorem fillAll_append (o : Order) (xs ys : List ℚ) :
    o.fillAll (xs ++ ys) = (o.fillAll xs).fillAll ys := by
  simp [fillAll, List.foldl_append]

theorem wrapInt32_of_inRange (x : Int) (hlo : -2147483648 ≤ x) (hhi : x ≤ 2147483647) :
    wrapInt32 x = x := by
  unfold wrapInt32
  omega

theorem createMany_append (xs ys : List (String × OrderType × ℚ × ℚ)) :
    ∀ n : Int, (createMany n (xs ++ ys)).1 =
        (createMany n xs).1 ++ (createMany (createMany n xs).2 ys).1 ∧
      (createMany n (xs ++ ys)).2 = (createMany (createMany n xs).2 ys).2 := by
  induction xs with
  | nil => intro n; simp [createMany]
  | cons a rest ih =>
    intro n
    simp [createMany, ih]

theorem createMany_cons (n : Int) (a : String × OrderType × ℚ × ℚ)
    (rest : List (String × OrderType × ℚ × ℚ)) :
    createMany n (a :: rest) =
      ((create n a.1 a.2.1 a.2.2.1 a.2.2.2).1 :: (createMany (wrapInt32 (n + 1)) rest).1,
        (createMany (wrapInt32 (n + 1)) rest).2) := rfl

/-- Ids handed out by successive constructions while the counter stays within `int`. -/
theorem createMany_ids (args : List (String × OrderType × ℚ × ℚ)) :
    ∀ n : Int, -2147483648 ≤ n → n + args.length ≤ 2147483648 →
      (createMany n args).1.map Order.orderId =
        (List.range args.length).map (fun i : Nat => n + (i : Int)) ∧
      (n + args.length ≤ 2147483647 → (createMany n args).2 = n + args.length) := by
  induction args with
  | nil => intro n _ _; simp [createMany]
  | cons a rest ih =>
    intro n hlo hhi
    simp only [List.length_cons, Nat.cast_add, Nat.cast_one] at hhi
    rw [createMany_cons]
    by_cases hrest : rest = []
    · subst hrest
      refine ⟨by simp [createMany, create, List.range_succ], ?_⟩
      intro h
      simp only [List.length_cons, List.length_nil, Nat.cast_add, Nat.cast_one] at h
      simp only [createMany, List.length_cons, List.length_nil, Nat.cast_add, Nat.cast_one,
        Nat.cast_zero, zero_add]
      exact wrapInt32_of_inRange _ (by omega) (by omega)
    · have hlen : 1 ≤ (rest.length : Int) := by
        have : 0 < rest.length := List.length_pos.mpr hrest
        omega
      have hw : wrapInt32 (n + 1) = n + 1 := wrapInt32_of_inRange _ (by omega) (by omega)
      have ih' := ih (n + 1) (by omega) (by omega)
      rw [hw]
      constructor
      · simp only [create, List.map_cons, ih'.1, List.length_cons]
        rw [List.range_succ_eq_map]
        simp only [List.map_cons, List.map_map, Nat.cast_zero, add_zero]
        congr 1
        apply List.map_congr_left
        intro i _
        simp only [Function.comp, Nat.cast_succ]
        ring
      · intro h
        simp only [List.length_cons, Nat.cast_add, Nat.cast_one] at h
        simp only [List.length_cons, Nat.cast_add, Nat.cast_one]
        rw [ih'.2 (by omega)]
        ring

end Order

/-! ## Lemma on `cancelOrder` -/

namespace TradingEngine

theorem cancelOrderLoop_fst (queue : List Order) (orderId : Int) :
    ∀ (remainingOrders : List Order) (orderFound : Bool),
      (cancelOrderLoop queue orderId remainingOrders orderFound).1 =
        remainingOrders ++ queue.filter (fun o => decide (o.orderId ≠ orderId)) := by
  induction queue with
  | nil => intro r f; simp [cancelOrderLoop]
  | cons o rest ih =>
    intro r f
    by_cases h : o.orderId = orderId
    · simp [cancelOrderLoop, h, ih]
    · simp [cancelOrderLoop, h, ih]

end TradingEngine

/-! ## Lemmas on `Market` -/

namespace Market

/-- History stored for `symbol` by `recordPrice`, given the history `h` found before the
call (`[]` when the symbol had none). -/
theorem recordPrice_find_self (m : Market) (symbol : String) (price volume : ℚ) :
    (m.recordPrice symbol price volume).priceHistory.find symbol =
      some (if ((m.priceHistory.find symbol).getD [] ++
                [PriceData.mk price volume]).length > 1000 then
              ((m.priceHistory.find symbol).getD [] ++
                [PriceData.mk price volume]).tail
            else
              (m.priceHistory.find symbol).getD [] ++
                [PriceData.mk price volume]) := by
  unfold recordPrice
  cases hf : m.priceHistory.find symbol with
  | none =>
    simp only [StdMap.index, hf, Option.getD_none]
    split_ifs <;> simp only [StdMap.find_assign_self]
  | some h =>
    simp only [StdMap.index, hf, Option.getD_some]
    split_ifs <;> simp only [StdMap.find_assign_self]

theorem recordPrice_find_ne (m : Market) (symbol s2 : String) (price volume : ℚ)
    (hne : s2 ≠ symbol) :
    (m.recordPrice symbol price volume).priceHistory.find s2 = m.priceHistory.find s2 := by
  unfold recordPrice
  cases hf : m.priceHistory.find symbol with
  | none =>
    simp only [StdMap.index, hf]
    split_ifs <;> simp only [StdMap.find_assign_ne _ _ _ _ hne]
  | some h =>
    simp only [StdMap.index, hf]
    split_ifs <;> simp only [StdMap.find_assign_ne _ _ _ _ hne]

theorem recordPrice_frame (m : Market) (symbol : String) (price volume : ℚ) :
    (m.recordPrice symbol price volume).currentPrices = m.currentPrices ∧
      (m.recordPrice symbol price volume).volatility = m.volatility := by
  unfold recordPrice
  simp only []
  split_ifs <;> exact ⟨rfl, rfl⟩

/-- Effect of `simulatePriceMovement` on a registered symbol. -/
theorem simulatePriceMovement_of_registered (m : Market) (symbol : String)
    (sqrtDt randomShock p : ℚ) (hp : m.currentPrices.find symbol = some p) :
    m.simulatePriceMovement symbol sqrtDt randomShock =
      ({ priceHistory := m.priceHistory,
         currentPrices := m.currentPrices.assign symbol
           (max (1 / 100)
             (p + p * (5 / 100 * (1 / 252) +
               (m.volatility.index symbol 0).2 * sqrtDt * randomShock))),
         volatility := (m.volatility.index symbol 0).1 } : Market).recordPrice symbol
        (max (1 / 100)
          (p + p * (5 / 100 * (1 / 252) +
            (m.volatility.index symbol 0).2 * sqrtDt * randomShock))) 1000 := by
  simp [simulatePriceMovement, hp, StdMap.index]

theorem simulatePriceMovement_of_unregistered (m : Market) (symbol : String)
    (sqrtDt randomShock : ℚ) (hp : m.currentPrices.find symbol = none) :
    m.simulatePriceMovement symbol sqrtDt randomShock = m := by
  simp [simulatePriceMovement, hp]

/-- Current prices after `simulatePriceMovement`. -/
theorem simulatePriceMovement_currentPrices (m : Market) (symbol : String)
    (sqrtDt randomShock : ℚ) :
    (∀ p : ℚ, m.currentPrices.find symbol = some p →
        (m.simulatePriceMovement symbol sqrtDt randomShock).currentPrices.find symbol =
          some (max (1 / 100)
            (p + p * (5 / 100 * (1 / 252) +
              (m.volatility.index symbol 0).2 * sqrtDt * randomShock)))) ∧
      (∀ s2 : String, s2 ≠ symbol →
        (m.simulatePriceMovement symbol sqrtDt randomShock).currentPrices.find s2 =
          m.currentPrices.find s2) := by
  constructor
  · intro p hp
    rw [simulatePriceMovement_of_registered m symbol sqrtDt randomShock p hp,
      (recordPrice_frame _ _ _ _).1]
    exact StdMap.find_assign_self _ _ _
  · intro s2 hne
    cases hp : m.currentPrices.find symbol with
    | none => rw [simulatePriceMovement_of_unregistered m symbol sqrtDt randomShock hp]
    | some p =>
      rw [simulatePriceMovement_of_registered m symbol sqrtDt randomShock p hp,
        (recordPrice_frame _ _ _ _).1]
      exact StdMap.find_assign_ne _ _ _ _ hne

/-- Price histories after `simulatePriceMovement`. -/
theorem simulatePriceMovement_priceHistory (m : Market) (symbol : String)
    (sqrtDt randomShock : ℚ) :
    (m.currentPrices.find symbol = none →
        (m.simulatePriceMovement symbol sqrtDt randomShock).priceHistory = m.priceHistory) ∧
      (∀ p : ℚ, m.currentPrices.find symbol = some p →
        ∃ pd : PriceData,
          (m.simulatePriceMovement symbol sqrtDt randomShock).priceHistory.find symbol =
            some (if ((m.priceHistory.find symbol).getD [] ++ [pd]).length > 1000 then
                    ((m.priceHistory.find symbol).getD [] ++ [pd]).tail
                  else (m.priceHistory.find symbol).getD [] ++ [pd])) ∧
      (∀ s2 : String, s2 ≠ symbol →
        (m.simulatePriceMovement symbol sqrtDt randomShock).priceHistory.find s2 =
          m.priceHistory.find s2) := by
  refine ⟨?_, ?_, ?_⟩
  · intro hp
    rw [simulatePriceMovement_of_unregistered m symbol sqrtDt randomShock hp]
  · intro p hp
    rw [simulatePriceMovement_of_registered m symbol sqrtDt randomShock p hp]
    exact ⟨_, recordPrice_find_self _ _ _ _⟩
  · intro s2 hne
    cases hp : m.currentPrices.find symbol with
    | none => rw [simulatePriceMovement_of_unregistered m symbol sqrtDt randomShock hp]
    | some p =>
      rw [simulatePriceMovement_of_registered m symbol sqrtDt randomShock p hp]
      exact recordPrice_find_ne _ _ _ _ _ hne

end Market

/-! ## Price floor and bounded history through the market operations -/

theorem StdMap.mem_keys_of_find {V : Type} (m : StdMap V) (k : String) (v : V)
    (h : m.find k = some v) : k ∈ m.map Prod.fst := by
  induction m with
  | nil => simp [StdMap.find] at h
  | cons hd tl ih =>
    obtain ⟨k', v'⟩ := hd
    by_cases hk : k' = k
    · simp [hk]
    · simp only [StdMap.find, hk, if_false] at h
      simp [ih h]

namespace Market

theorem updatePricesLoop_floor (keys : List String) (k : String) (sqrtDt : ℚ)
    (draws : Nat → ℚ) :
    ∀ (m : Market) (i : Nat),
      ((k ∈ keys ∧ ∃ p : ℚ, m.currentPrices.find k = some p) ∨
        (∃ p : ℚ, m.currentPrices.find k = some p ∧ 1 / 100 ≤ p)) →
      ∃ p : ℚ, (updatePricesLoop keys m sqrtDt draws i).currentPrices.find k = some p ∧
        1 / 100 ≤ p := by
  induction keys with
  | nil =>
    intro m i h
    rcases h with ⟨hmem, _⟩ | h
    · simp at hmem
    · simpa [updatePricesLoop] using h
  | cons s rest ih =>
    intro m i h
    simp only [updatePricesLoop]
    apply ih
    have hcp := simulatePriceMovement_currentPrices m s sqrtDt (draws i)
    by_cases hs : k = s
    · subst hs
      have hsome : ∃ p : ℚ, m.currentPrices.find k = some p := by
        rcases h with ⟨_, hp⟩ | ⟨p, hp, _⟩
        · exact hp
        · exact ⟨p, hp⟩
      obtain ⟨p, hp⟩ := hsome
      right
      exact ⟨_, hcp.1 p hp, le_max_left _ _⟩
    · rcases h with ⟨hmem, p, hp⟩ | ⟨p, hp, hle⟩
      · left
        refine ⟨?_, p, ?_⟩
        · rcases List.mem_cons.mp hmem with h1 | h1
          · exact absurd h1 hs
          · exact h1
        · rw [hcp.2 k hs]; exact hp
      · right
        exact ⟨p, by rw [hcp.2 k hs]; exact hp, hle⟩

theorem recordPrice_historyBounded (m : Market) (symbol : String) (price volume : ℚ)
    (hinv : m.HistoryBounded) : (m.recordPrice symbol price volume).HistoryBounded := by
  intro s h hf
  by_cases hs : s = symbol
  · subst hs
    rw [recordPrice_find_self] at hf
    have hlen : ((m.priceHistory.find s).getD []).length ≤ 1000 := by
      cases hfind : m.priceHistory.find s with
      | none => simp
      | some h0 => simpa using hinv s h0 hfind
    injection hf with hf
    rw [← hf]
    split_ifs with hgt
    · simp only [List.length_tail, List.length_append, List.length_singleton]
      omega
    · exact not_lt.mp hgt
  · rw [recordPrice_find_ne _ _ _ _ _ hs] at hf
    exact hinv s h hf

theorem simulatePriceMovement_historyBounded (m : Market) (symbol : String)
    (sqrtDt randomShock : ℚ) (hinv : m.HistoryBounded) :
    (m.simulatePriceMovement symbol sqrtDt randomShock).HistoryBounded := by
  cases hp : m.currentPrices.find symbol with
  | none => rw [simulatePriceMovement_of_unregistered m symbol sqrtDt randomShock hp]; exact hinv
  | some p =>
    rw [simulatePriceMovement_of_registered m symbol sqrtDt randomShock p hp]
    exact recordPrice_historyBounded _ _ _ _ hinv

theorem updatePricesLoop_historyBounded (keys : List String) (sqrtDt : ℚ) (draws : Nat → ℚ) :
    ∀ (m : Market) (i : Nat), m.HistoryBounded →
      (updatePricesLoop keys m sqrtDt draws i).HistoryBounded := by
  induction keys with
  | nil => intro m i h; simpa [updatePricesLoop] using h
  | cons s rest ih =>
    intro m i h
    simp only [updatePricesLoop]
    exact ih _ _ (simulatePriceMovement_historyBounded m s sqrtDt (draws i) h)

theorem addSymbol_historyBounded (m : Market) (symbol : String) (initialPrice vol : ℚ)
    (hinv : m.HistoryBounded) : (m.addSymbol symbol initialPrice vol).HistoryBounded := by
  unfold addSymbol
  apply recordPrice_historyBounded
  intro s h hf
  by_cases hs : s = symbol
  · subst hs
    simp only [StdMap.find_assign_self] at hf
    injection hf with hf
    rw [← hf]; simp
  · simp only [StdMap.find_assign_ne _ _ _ _ hs] at hf
    exact hinv s h hf

theorem run_historyBounded (ops : List MarketOp) :
    ∀ m : Market, m.HistoryBounded → (m.run ops).HistoryBounded := by
  induction ops with
  | nil => intro m h; simpa [run] using h
  | cons op rest ih =>
    intro m h
    have hstep : (m.step op).HistoryBounded := by
      cases op with
      | addSymbol symbol initialPrice vol => exact addSymbol_historyBounded m _ _ _ h
      | updatePrices sqrtDt draws => exact updatePricesLoop_historyBounded _ _ _ _ _ h
    simpa [run] using ih _ hstep

end Market

/-! ## Histories of registered symbols and `getDailyReturn` -/

namespace Market

theorem recordPrice_historyOnlyForRegistered (m : Market) (symbol : String)
    (price volume : ℚ) (hreg : m.currentPrices.find symbol ≠ none)
    (hinv : m.HistoryOnlyForRegistered) :
    (m.recordPrice symbol price volume).HistoryOnlyForRegistered := by
  intro s hs
  rw [(recordPrice_frame m symbol price volume).1] at hs
  have hne : s ≠ symbol := by
    intro h; rw [h] at hs; exact hreg hs
  rw [recordPrice_find_ne _ _ _ _ _ hne]
  exact hinv s hs

theorem simulatePriceMovement_historyOnlyForRegistered (m : Market) (symbol : String)
    (sqrtDt randomShock : ℚ) (hinv : m.HistoryOnlyForRegistered) :
    (m.simulatePriceMovement symbol sqrtDt randomShock).HistoryOnlyForRegistered := by
  cases hp : m.currentPrices.find symbol with
  | none => rw [simulatePriceMovement_of_unregistered m symbol sqrtDt randomShock hp]; exact hinv
  | some p =>
    rw [simulatePriceMovement_of_registered m symbol sqrtDt randomShock p hp]
    apply recordPrice_historyOnlyForRegistered
    · simp only [StdMap.find_assign_self]
      exact Option.some_ne_none _
    · intro s hs
      have hne : s ≠ symbol := by
        intro h
        rw [h] at hs
        simp only [StdMap.find_assign_self] at hs
        exact Option.some_ne_none _ hs
      simp only [StdMap.find_assign_ne _ _ _ _ hne] at hs
      exact hinv s hs

theorem updatePricesLoop_historyOnlyForRegistered (keys : List String) (sqrtDt : ℚ)
    (draws : Nat → ℚ) :
    ∀ (m : Market) (i : Nat), m.HistoryOnlyForRegistered →
      (updatePricesLoop keys m sqrtDt draws i).HistoryOnlyForRegistered := by
  induction keys with
  | nil => intro m i h; simpa [updatePricesLoop] using h
  | cons s rest ih =>
    intro m i h
    simp only [updatePricesLoop]
    exact ih _ _ (simulatePriceMovement_historyOnlyForRegistered m s sqrtDt (draws i) h)

theorem addSymbol_historyOnlyForRegistered (m : Market) (symbol : String)
    (initialPrice vol : ℚ) (hinv : m.HistoryOnlyForRegistered) :
    (m.addSymbol symbol initialPrice vol).HistoryOnlyForRegistered := by
  unfold addSymbol
  apply recordPrice_historyOnlyForRegistered
  · simp only [StdMap.find_assign_self]
    exact Option.some_ne_none _
  · intro s hs
    have hne : s ≠ symbol := by
      intro h
      rw [h] at hs
      simp only [StdMap.find_assign_self] at hs
      exact Option.some_ne_none _ hs
    simp only [StdMap.find_assign_ne _ _ _ _ hne] at hs ⊢
    exact hinv s hs

theorem run_historyOnlyForRegistered (ops : List MarketOp) :
    ∀ m : Market, m.HistoryOnlyForRegistered → (m.run ops).HistoryOnlyForRegistered := by
  induction ops with
  | nil => intro m h; simpa [run] using h
  | cons op rest ih =>
    intro m h
    have hstep : (m.step op).HistoryOnlyForRegistered := by
      cases op with
      | addSymbol symbol initialPrice vol =>
        exact addSymbol_historyOnlyForRegistered m _ _ _ h
      | updatePrices sqrtDt draws =>
        exact updatePricesLoop_historyOnlyForRegistered _ _ _ _ _ h
    simpa [run] using ih _ hstep

/-- Value of `getDailyReturn` on a history ending with the two points `a`, `b`. -/
theorem getDailyReturn_of_two_last (m : Market) (symbol : String)
    (older : List PriceData) (a b : PriceData)
    (hf : m.priceHistory.find symbol = some (older ++ [a, b])) :
    m.getDailyReturn symbol = (b.price - a.price) / a.price * 100 := by
  have hlen : (older ++ [a, b]).length = older.length + 2 := by simp
  have hnot : ¬ (older ++ [a, b]).length < 2 := by omega
  have hb : (older ++ [a, b]).getD ((older ++ [a, b]).length - 1) { price := 0, volume := 0 }
      = b := by
    rw [hlen, List.getD_eq_getElem?_getD, List.getElem?_append_right (by omega)]
    have : older.length + 2 - 1 - older.length = 1 := by omega
    rw [this]
    rfl
  have ha : (older ++ [a, b]).getD ((older ++ [a, b]).length - 2) { price := 0, volume := 0 }
      = a := by
    rw [hlen, List.getD_eq_getElem?_getD, List.getElem?_append_right (by omega)]
    have : older.length + 2 - 2 - older.length = 0 := by omega
    rw [this]
    rfl
  simp only [getDailyReturn, hf, hnot, if_false, ha, hb]

end Market

/-! ## Ledger after a `processOrders` pass; `executeLimitOrder` -/

namespace TradingEngine

/-- Ledger after the `processOrders` loop: the orders meeting the fill condition are
executed in queue order, the others leave it untouched. -/
theorem processOrdersLoop_portfolio (queue : List Order) :
    ∀ (e : TradingEngine) (failedOrders : List Order),
      (processOrdersLoop queue e failedOrders).1.portfolio =
        queue.foldl
          (fun pf o =>
            if canExecute e.market o then
              pf.executeOrder ((o.fillOrder o.quantity).setStatus OrderStatus.FILLED)
                (e.market.getCurrentPrice o.symbol)
            else pf)
          e.portfolio := by
  induction queue with
  | nil => intro e failedOrders; simp [processOrdersLoop]
  | cons o rest ih =>
    intro e failedOrders
    simp only [processOrdersLoop, tryExecuteOrder_fst, List.foldl_cons]
    cases hx : canExecute e.market o with
    | true =>
      simp only [if_true]
      rw [ih]
      simp [tryExecuteOrder_portfolio, (tryExecuteOrder_frame _ _).1, hx]
    | false =>
      simp only [Bool.false_eq_true, if_false]
      rw [ih]
      simp [tryExecuteOrder_portfolio, (tryExecuteOrder_frame _ _).1, hx]

theorem processOrders_portfolio (e : TradingEngine) :
    e.processOrders.portfolio =
      e.pendingOrders.foldl
        (fun pf o =>
          if canExecute e.market o then
            pf.executeOrder ((o.fillOrder o.quantity).setStatus OrderStatus.FILLED)
              (e.market.getCurrentPrice o.symbol)
          else pf)
        e.portfolio := by
  simp [processOrders, processOrdersLoop_portfolio]

/-- Orders failing a test that selects no executable order can be dropped from the queue
without changing the ledger the pass produces. -/
theorem foldl_execute_filter (m : Market) (keep : Order → Bool) (queue : List Order)
    (hkeep : ∀ o ∈ queue, canExecute m o = true → keep o = true) :
    ∀ pf : Portfolio,
      queue.foldl
          (fun pf o =>
            if canExecute m o then
              pf.executeOrder ((o.fillOrder o.quantity).setStatus OrderStatus.FILLED)
                (m.getCurrentPrice o.symbol)
            else pf) pf =
        (queue.filter keep).foldl
          (fun pf o =>
            if canExecute m o then
              pf.executeOrder ((o.fillOrder o.quantity).setStatus OrderStatus.FILLED)
                (m.getCurrentPrice o.symbol)
            else pf) pf := by
  induction queue with
  | nil => intro pf; rfl
  | cons o rest ih =>
    intro pf
    have ih' := ih (fun x hx => hkeep x (List.mem_cons_of_mem _ hx))
    cases hk : keep o with
    | true =>
      simp only [List.filter_cons, hk, if_true, List.foldl_cons]
      exact ih' _
    | false =>
      have hx : canExecute m o = false := by
        cases hc : canExecute m o with
        | false => rfl
        | true =>
          have := hkeep o (List.mem_cons_self _ _) hc
          rw [hk] at this
          exact absurd this (by simp)
      simp only [List.filter_cons, hk, List.foldl_cons, hx, Bool.false_eq_true, if_false]
      exact ih' _

theorem executeLimitOrder_eq (e : TradingEngine) (symbol : String) (type : OrderType)
    (quantity price : ℚ) :
    e.executeLimitOrder symbol type quantity price =
      { e with
        nextOrderId := wrapInt32 (e.nextOrderId + 1),
        pendingOrders :=
          if e.validateOrder (Order.create e.nextOrderId symbol type quantity price).1 then
            e.pendingOrders ++ [(Order.create e.nextOrderId symbol type quantity price).1]
          else e.pendingOrders } := by
  have hv : validateOrder { e with nextOrderId := wrapInt32 (e.nextOrderId + 1) }
      (Order.create e.nextOrderId symbol type quantity price).1 =
        e.validateOrder (Order.create e.nextOrderId symbol type quantity price).1 := by
    simp [validateOrder]
  simp only [executeLimitOrder, submitOrder, Order.create] at hv ⊢
  rw [hv]
  cases e.validateOrder
      { orderId := e.nextOrderId, symbol := symbol, type := type, quantity := quantity,
        price := price, filledQuantity := 0, status := OrderStatus.PENDING } <;> simp

end TradingEngine


theorem Market.withHistory_find (sym : String) (prices : List ℚ) (p : ℚ) :
    (Market.withHistory sym prices p).priceHistory.find sym =
      some (prices.map (fun x => { price := x, volume := 1000 })) := by
  simp [Market.withHistory, StdMap.find]

/-! ## Lemmas on binary64 rounding -/

theorem roundHalfEven_eq (s : ℚ) (m : Int)
    (h : |s - m| < 1 / 2 ∨ (|s - m| = 1 / 2 ∧ m % 2 = 0)) : roundHalfEven s = m := by
  have hf1 : (⌊s⌋ : ℚ) ≤ s := Int.floor_le s
  have hf2 : s < ⌊s⌋ + 1 := Int.lt_floor_add_one s
  unfold roundHalfEven
  generalize ⌊s⌋ = f at hf1 hf2
  rcases h with h | ⟨h, hev⟩
  · rw [abs_lt] at h
    have h1 : f ≤ m := by
      have : (f : ℚ) < m + 1 := by linarith [h.2]
      exact Int.lt_add_one_iff.mp (by exact_mod_cast this)
    have h2 : m ≤ f + 1 := by
      have : (m : ℚ) < f + 1 + 1 := by linarith [h.1]
      exact Int.lt_add_one_iff.mp (by exact_mod_cast this)
    rcases lt_or_eq_of_le h1 with h3 | h3
    · have h4 : m = f + 1 := by omega
      subst h4
      push_cast at h
      have : ¬ (s - f < 1 / 2) := by linarith [h.1]
      rw [if_neg this, if_pos (by linarith [h.1])]
    · subst h3
      rw [if_pos (by linarith [h.2])]
  · rcases abs_eq (by norm_num : (0 : ℚ) ≤ 1 / 2) |>.mp h with h1 | h1
    · have hs : s = m + 1 / 2 := by linarith
      have hfm : f = m := by
        have a1 : (f : ℚ) < m + 1 := by linarith
        have a2 : (m : ℚ) < f + 1 := by linarith
        have a1' : f < m + 1 := by exact_mod_cast a1
        have a2' : m < f + 1 := by exact_mod_cast a2
        omega
      subst hfm
      rw [if_neg (by linarith), if_neg (by linarith), if_pos hev]
    · have hs : s = m - 1 / 2 := by linarith
      have hfm : f = m - 1 := by
        have a1 : (f : ℚ) < m := by linarith
        have a2 : (m : ℚ) < f + 1 + 1 := by linarith
        have a1' : f < m := by exact_mod_cast a1
        have a2' : m < f + 1 + 1 := by exact_mod_cast a2
        omega
      subst hfm
      push_cast
      rw [if_neg (by linarith), if_neg (by linarith), if_neg (by omega)]
      ring

theorem roundHalfEven_intCast (m : Int) : roundHalfEven (m : ℚ) = m :=
  roundHalfEven_eq _ m (Or.inl (by simp))

theorem floor_le_roundHalfEven (s : ℚ) : ⌊s⌋ ≤ roundHalfEven s := by
  unfold roundHalfEven
  split_ifs <;> omega

theorem roundHalfEven_le_floor_add_one (s : ℚ) : roundHalfEven s ≤ ⌊s⌋ + 1 := by
  unfold roundHalfEven
  split_ifs <;> omega

theorem roundHalfEven_mono {s t : ℚ} (h : s ≤ t) : roundHalfEven s ≤ roundHalfEven t := by
  have hfl : ⌊s⌋ ≤ ⌊t⌋ := Int.floor_mono h
  rcases lt_or_eq_of_le hfl with h1 | h1
  · calc roundHalfEven s ≤ ⌊s⌋ + 1 := roundHalfEven_le_floor_add_one s
      _ ≤ ⌊t⌋ := h1
      _ ≤ roundHalfEven t := floor_le_roundHalfEven t
  · unfold roundHalfEven
    rw [h1]
    have hst : s - ⌊t⌋ ≤ t - ⌊t⌋ := by linarith
    split_ifs <;> first | omega | (exfalso; linarith)


theorem binade_ge (a : ℚ) : -1074 ≤ binade a := le_max_right _ _

theorem log_sub_le_binade (a : ℚ) : Int.log 2 a - 52 ≤ binade a := le_max_left _ _

theorem binade_eq_of_bounds (a : ℚ) (e : Int) (he : -1074 ≤ e)
    (hlo : (2 : ℚ) ^ (e + 52) ≤ a) (hhi : a < (2 : ℚ) ^ (e + 53)) : binade a = e := by
  have ha : 0 < a := lt_of_lt_of_le (zpow_pos (by norm_num) _) hlo
  have h1 : e + 52 ≤ Int.log 2 a :=
    (Int.zpow_le_iff_le_log (by norm_num) ha).mp (by exact_mod_cast hlo)
  have h2 : Int.log 2 a < e + 53 :=
    (Int.lt_zpow_iff_log_lt (by norm_num) ha).mp (by exact_mod_cast hhi)
  unfold binade
  have : Int.log 2 a - 52 = e := by omega
  rw [this]
  exact max_eq_left he

theorem lt_zpow_binade (a : ℚ) : a < (2 : ℚ) ^ (binade a + 53) := by
  have h1 : a < ((2 : ℕ) : ℚ) ^ (Int.log 2 a + 1) := Int.lt_zpow_succ_log_self (by norm_num) a
  have h2 : Int.log 2 a + 1 ≤ binade a + 53 := by
    have := log_sub_le_binade a
    omega
  have h3 : ((2 : ℕ) : ℚ) ^ (Int.log 2 a + 1) ≤ (2 : ℚ) ^ (binade a + 53) := by
    have : (1 : ℚ) ≤ 2 := by norm_num
    exact_mod_cast zpow_le_zpow_right₀ this h2
  exact lt_of_lt_of_le h1 h3

theorem zpow_binade_le (a : ℚ) (ha : 0 < a) (h : -1074 < binade a) :
    (2 : ℚ) ^ (binade a + 52) ≤ a := by
  have hb : binade a = Int.log 2 a - 52 := by
    unfold binade at h ⊢
    rcases max_cases (Int.log 2 a - 52) (-1074) with ⟨h1, _⟩ | ⟨h1, _⟩
    · exact h1
    · rw [h1] at h
      exact absurd h (lt_irrefl _)
  have h1 : ((2 : ℕ) : ℚ) ^ Int.log 2 a ≤ a := Int.zpow_log_le_self (by norm_num) ha
  rw [hb]
  have : Int.log 2 a - 52 + 52 = Int.log 2 a := by omega
  rw [this]
  exact_mod_cast h1

theorem binade_mono {a b : ℚ} (ha : 0 < a) (h : a ≤ b) : binade a ≤ binade b := by
  unfold binade
  have := Int.log_mono_right (b := 2) ha h
  exact max_le_max (by omega) le_rfl

theorem round64_of_nonneg (x : ℚ) (hx : 0 ≤ x) :
    round64 x = (roundHalfEven (x / 2 ^ binade x) : ℚ) * 2 ^ binade x := by
  unfold round64
  rw [if_neg (not_lt.mpr hx), abs_of_nonneg hx]

theorem round64_zero : round64 0 = 0 := by
  rw [round64_of_nonneg 0 le_rfl]
  have h : roundHalfEven 0 = 0 := by
    have := roundHalfEven_intCast 0
    simpa using this
  simp [h]

theorem round64_neg (x : ℚ) : round64 (-x) = -round64 x := by
  rcases lt_trichotomy x 0 with h | h | h
  · unfold round64
    rw [if_neg (by linarith), if_pos h, abs_neg, neg_neg]
  · subst h
    simp [round64_zero]
  · unfold round64
    rw [if_pos (by linarith), if_neg (by linarith), abs_neg]

theorem roundHalfEven_nonneg {s : ℚ} (h : 0 ≤ s) : 0 ≤ roundHalfEven s := by
  have := roundHalfEven_mono h
  rw [show ((0 : ℚ)) = ((0 : Int) : ℚ) by simp, roundHalfEven_intCast] at this
  exact this

theorem round64_nonneg {x : ℚ} (hx : 0 ≤ x) : 0 ≤ round64 x := by
  rw [round64_of_nonneg x hx]
  have h1 : 0 ≤ roundHalfEven (x / 2 ^ binade x) :=
    roundHalfEven_nonneg (div_nonneg hx (le_of_lt (zpow_pos (by norm_num) _)))
  have h2 : (0 : ℚ) ≤ (roundHalfEven (x / 2 ^ binade x) : ℚ) := by exact_mod_cast h1
  exact mul_nonneg h2 (le_of_lt (zpow_pos (by norm_num) _))

/-- Evaluation of `round64` on a positive value of known binade. -/
theorem round64_eq_of_bounds (x : ℚ) (e m : Int) (he : -1074 ≤ e)
    (hlo : (2 : ℚ) ^ (e + 52) ≤ x) (hhi : x < (2 : ℚ) ^ (e + 53))
    (hm : |x / 2 ^ e - m| < 1 / 2 ∨ (|x / 2 ^ e - m| = 1 / 2 ∧ m % 2 = 0)) :
    round64 x = (m : ℚ) * 2 ^ e := by
  have hx : 0 < x := lt_of_lt_of_le (zpow_pos (by norm_num) _) hlo
  rw [round64_of_nonneg x (le_of_lt hx), binade_eq_of_bounds x e he hlo hhi,
    roundHalfEven_eq _ m hm]

/-- Values `m * 2 ^ e` with `0 ≤ m < 2 ^ 53` and `e ≥ -1074` are fixed by `round64`. -/
theorem round64_of_scaled_lt (m e : Int) (he : -1074 ≤ e) (hm0 : 0 ≤ m)
    (hm : m < 2 ^ 53) : round64 ((m : ℚ) * 2 ^ e) = (m : ℚ) * 2 ^ e := by
  rcases eq_or_lt_of_le hm0 with h0 | h0
  · rw [← h0]; simp [round64_zero]
  · have hpos : (0 : ℚ) < (m : ℚ) * 2 ^ e :=
      mul_pos (by exact_mod_cast h0) (zpow_pos (by norm_num) _)
    have hlt : (m : ℚ) * 2 ^ e < (2 : ℚ) ^ (e + 53) := by
      rw [zpow_add₀ (by norm_num : (2 : ℚ) ≠ 0), mul_comm ((2 : ℚ) ^ e)]
      have : (m : ℚ) < 2 ^ (53 : ℤ) := by
        have h : (m : ℚ) < ((2 ^ 53 : Int) : ℚ) := by exact_mod_cast hm
        have h53 : ((2 ^ 53 : Int) : ℚ) = (2 : ℚ) ^ (53 : ℤ) := by norm_num
        rw [h53] at h
        exact h
      exact mul_lt_mul_of_pos_right this (zpow_pos (by norm_num) _)
    have hlog : Int.log 2 ((m : ℚ) * 2 ^ e) < e + 53 :=
      (Int.lt_zpow_iff_log_lt (b := 2) (by norm_num) hpos).mp (by exact_mod_cast hlt)
    have hb : binade ((m : ℚ) * 2 ^ e) ≤ e := by
      unfold binade
      exact max_le (by omega) he
    obtain ⟨k, hk⟩ := Int.le.dest hb
    rw [round64_of_nonneg _ (le_of_lt hpos)]
    generalize binade ((m : ℚ) * 2 ^ e) = b at hk hb
    have he' : e = b + k := hk.symm
    have hdiv : (m : ℚ) * 2 ^ e / 2 ^ b = ((m * 2 ^ k : Int) : ℚ) := by
      rw [he', zpow_add₀ (by norm_num : (2 : ℚ) ≠ 0), zpow_natCast]
      push_cast
      field_simp
      ring
    rw [hdiv, roundHalfEven_intCast, he', zpow_add₀ (by norm_num : (2 : ℚ) ≠ 0), zpow_natCast]
    push_cast
    ring

/-- Values `m * 2 ^ e` with `0 ≤ m ≤ 2 ^ 53` and `e ≥ -1074` are fixed by `round64`. -/
theorem round64_of_scaled (m e : Int) (he : -1074 ≤ e) (hm0 : 0 ≤ m)
    (hm : m ≤ 2 ^ 53) : round64 ((m : ℚ) * 2 ^ e) = (m : ℚ) * 2 ^ e := by
  rcases lt_or_eq_of_le hm with h | h
  · exact round64_of_scaled_lt m e he hm0 h
  · have h2 : (m : ℚ) * 2 ^ e = ((2 ^ 52 : Int) : ℚ) * 2 ^ (e + 1) := by
      rw [h, zpow_add₀ (by norm_num : (2 : ℚ) ≠ 0)]
      push_cast
      ring
    rw [h2]
    exact round64_of_scaled_lt (2 ^ 52) (e + 1) (by omega) (by norm_num) (by norm_num)

theorem roundHalfEven_scaled_le (x : ℚ) :
    roundHalfEven (x / 2 ^ binade x) ≤ 2 ^ 53 := by
  have h1 : x / 2 ^ binade x ≤ ((2 ^ 53 : Int) : ℚ) := by
    rw [div_le_iff₀ (zpow_pos (by norm_num) _)]
    have := lt_zpow_binade x
    rw [add_comm, zpow_add₀ (by norm_num : (2 : ℚ) ≠ 0)] at this
    push_cast
    have h53 : (2 : ℚ) ^ (53 : ℤ) = 2 ^ 53 := by norm_cast
    rw [h53] at this
    exact le_of_lt this
  have := roundHalfEven_mono h1
  rwa [roundHalfEven_intCast] at this

theorem round64_idem (x : ℚ) : round64 (round64 x) = round64 x := by
  have key : ∀ y : ℚ, 0 ≤ y → round64 (round64 y) = round64 y := by
    intro y hy
    rw [round64_of_nonneg y hy]
    exact round64_of_scaled _ _ (binade_ge y)
      (roundHalfEven_nonneg (div_nonneg hy (le_of_lt (zpow_pos (by norm_num) _))))
      (roundHalfEven_scaled_le y)
  rcases le_or_lt 0 x with h | h
  · exact key x h
  · have h1 := key (-x) (by linarith)
    rw [round64_neg, round64_neg] at h1
    exact neg_injective h1

theorem round64_mono_of_nonneg {x y : ℚ} (hx : 0 ≤ x) (h : x ≤ y) :
    round64 x ≤ round64 y := by
  rcases eq_or_lt_of_le hx with h0 | h0
  · rw [← h0, round64_zero]
    exact round64_nonneg (le_trans hx h)
  have hy : 0 < y := lt_of_lt_of_le h0 h
  rw [round64_of_nonneg x hx, round64_of_nonneg y (le_of_lt hy)]
  have hb := binade_mono h0 h
  rcases lt_or_eq_of_le hb with hlt | heq
  · have h1 : (roundHalfEven (x / 2 ^ binade x) : ℚ) ≤ (2 : ℚ) ^ 53 := by
      exact_mod_cast roundHalfEven_scaled_le x
    have h2 : (2 : ℚ) ^ 52 ≤ (roundHalfEven (y / 2 ^ binade y) : ℚ) := by
      have hn : -1074 < binade y := lt_of_le_of_lt (binade_ge x) hlt
      have h3 := zpow_binade_le y hy hn
      have h4 : ((2 ^ 52 : Int) : ℚ) ≤ y / 2 ^ binade y := by
        rw [le_div_iff₀ (zpow_pos (by norm_num) _)]
        rw [add_comm, zpow_add₀ (by norm_num : (2 : ℚ) ≠ 0)] at h3
        push_cast
        have h52 : (2 : ℚ) ^ (52 : ℤ) = 2 ^ 52 := by norm_cast
        rw [h52] at h3
        exact h3
      have := roundHalfEven_mono h4
      rw [roundHalfEven_intCast] at this
      exact_mod_cast this
    obtain ⟨k, hk⟩ := Int.le.dest (Int.add_one_le_iff.mpr hlt)
    have hpx : (0 : ℚ) < 2 ^ binade x := zpow_pos (by norm_num) _
    have hby : (2 : ℚ) ^ binade y = 2 ^ binade x * 2 * 2 ^ k := by
      rw [← hk, zpow_add₀ (by norm_num : (2 : ℚ) ≠ 0),
        zpow_add₀ (by norm_num : (2 : ℚ) ≠ 0), zpow_natCast]
      simp
    have hk1 : (1 : ℚ) ≤ 2 ^ k := one_le_pow₀ (by norm_num)
    calc (roundHalfEven (x / 2 ^ binade x) : ℚ) * 2 ^ binade x
        ≤ 2 ^ 53 * 2 ^ binade x := mul_le_mul_of_nonneg_right h1 (le_of_lt hpx)
      _ = 2 ^ 52 * (2 ^ binade x * 2 * 1) := by ring
      _ ≤ 2 ^ 52 * (2 ^ binade x * 2 * 2 ^ k) := by
          apply mul_le_mul_of_nonneg_left _ (by norm_num)
          exact mul_le_mul_of_nonneg_left hk1 (by positivity)
      _ ≤ (roundHalfEven (y / 2 ^ binade y) : ℚ) * (2 ^ binade x * 2 * 2 ^ k) :=
          mul_le_mul_of_nonneg_right h2 (by positivity)
      _ = (roundHalfEven (y / 2 ^ binade y) : ℚ) * 2 ^ binade y := by rw [hby]
  · rw [heq]
    have hp : (0 : ℚ) < 2 ^ binade y := zpow_pos (by norm_num) _
    have h1 : x / 2 ^ binade y ≤ y / 2 ^ binade y := div_le_div_of_nonneg_right h (le_of_lt hp)
    have h2 := roundHalfEven_mono h1
    have h3 : (roundHalfEven (x / 2 ^ binade y) : ℚ) ≤
        (roundHalfEven (y / 2 ^ binade y) : ℚ) := by
      exact_mod_cast h2
    exact mul_le_mul_of_nonneg_right h3 (le_of_lt hp)

theorem round64_nonpos {x : ℚ} (hx : x ≤ 0) : round64 x ≤ 0 := by
  have := round64_nonneg (show 0 ≤ -x by linarith)
  rw [round64_neg] at this
  linarith

theorem round64_mono {x y : ℚ} (h : x ≤ y) : round64 x ≤ round64 y := by
  rcases le_or_lt 0 x with hx | hx
  · exact round64_mono_of_nonneg hx h
  · rcases le_or_lt 0 y with hy | hy
    · exact le_trans (round64_nonpos (le_of_lt hx)) (round64_nonneg hy)
    · have := round64_mono_of_nonneg (show 0 ≤ -y by linarith) (show -y ≤ -x by linarith)
      rw [round64_neg, round64_neg] at this
      linarith

theorem roundHalfEven_le_add_half (s : ℚ) : (roundHalfEven s : ℚ) ≤ s + 1 / 2 := by
  have hf1 : (⌊s⌋ : ℚ) ≤ s := Int.floor_le s
  unfold roundHalfEven
  split_ifs with h1 h2 h3
  · linarith
  · push_cast; linarith
  · linarith
  · push_cast; linarith

/-- Rounding a non-negative value raises it by at most half a unit in its last place. -/
theorem round64_le_add_half_ulp (x : ℚ) (hx : 0 ≤ x) :
    round64 x ≤ x + 2 ^ binade x / 2 := by
  rw [round64_of_nonneg x hx]
  have hp : (0 : ℚ) < 2 ^ binade x := zpow_pos (by norm_num) _
  have h := roundHalfEven_le_add_half (x / 2 ^ binade x)
  have h2 := mul_le_mul_of_nonneg_right h (le_of_lt hp)
  have h3 : (x / 2 ^ binade x + 1 / 2) * 2 ^ binade x = x + 2 ^ binade x / 2 := by
    field_simp
    ring
  rw [h3] at h2
  exact h2

/-- A non-negative binary64 value plus one unit in its last place is a binary64 value. -/
theorem round64_add_ulp (q : ℚ) (hq0 : 0 ≤ q) (hq : round64 q = q) :
    round64 (q + 2 ^ binade q) = q + 2 ^ binade q := by
  have hp : (0 : ℚ) < 2 ^ binade q := zpow_pos (by norm_num) _
  have hrep := round64_of_nonneg q hq0
  rw [hq] at hrep
  have hm0 : 0 ≤ roundHalfEven (q / 2 ^ binade q) :=
    roundHalfEven_nonneg (div_nonneg hq0 (le_of_lt hp))
  have hlt : roundHalfEven (q / 2 ^ binade q) < 2 ^ 53 := by
    have h1 := lt_zpow_binade q
    rw [add_comm, zpow_add₀ (by norm_num : (2 : ℚ) ≠ 0)] at h1
    have h53 : (2 : ℚ) ^ (53 : ℤ) = 2 ^ 53 := by norm_cast
    rw [h53] at h1
    have h2 : (roundHalfEven (q / 2 ^ binade q) : ℚ) * 2 ^ binade q < 2 ^ 53 * 2 ^ binade q := by
      rw [← hrep]; exact h1
    have h3 : (roundHalfEven (q / 2 ^ binade q) : ℚ) < 2 ^ 53 :=
      lt_of_mul_lt_mul_right h2 (le_of_lt hp)
    exact_mod_cast h3
  have h := round64_of_scaled (roundHalfEven (q / 2 ^ binade q) + 1) (binade q) (binade_ge q)
    (by omega) (by omega)
  have heq : ((roundHalfEven (q / 2 ^ binade q) + 1 : Int) : ℚ) * 2 ^ binade q =
      q + 2 ^ binade q := by
    push_cast
    rw [add_mul, one_mul, ← hrep]
  rw [heq] at h
  exact h

/-- Value of `round64` at `x`, from the binade `e` of `x` and the integer `m` nearest to
`x / 2 ^ e` (the even one of the two when `x / 2 ^ e` is halfway). -/
theorem round64_value (x : ℚ) (e m : Int) (v : ℚ) (he : -1074 ≤ e)
    (hlo : (2 : ℚ) ^ (e + 52) ≤ x) (hhi : x < (2 : ℚ) ^ (e + 53))
    (hm : |x / 2 ^ e - m| < 1 / 2 ∨ (|x / 2 ^ e - m| = 1 / 2 ∧ m % 2 = 0))
    (hv : (m : ℚ) * 2 ^ e = v) : round64 x = v := by
  rw [← hv]
  exact round64_eq_of_bounds x e m he hlo hhi hm

/-- Integers up to `2 ^ 53` are binary64 values. -/
theorem round64_intCast_small (n : Int) (h0 : 0 ≤ n) (h : n ≤ 2 ^ 53) :
    round64 (n : ℚ) = n := by
  have := round64_of_scaled n 0 (by norm_num) h0 h
  simpa using this

/-! ## Lemmas on fills in binary64 arithmetic -/

namespace Order

theorem fillOrder64_cases (o : Order) (x : ℚ) :
    ((x ≤ 0 ∨ x > round64 (o.quantity - o.filledQuantity)) ∧ o.fillOrder64 x = o) ∨
      (0 < x ∧ x ≤ round64 (o.quantity - o.filledQuantity) ∧
        (o.fillOrder64 x).filledQuantity = round64 (o.filledQuantity + x) ∧
        (o.fillOrder64 x).quantity = o.quantity) := by
  by_cases h : x ≤ 0 ∨ x > round64 (o.quantity - o.filledQuantity)
  · left
    refine ⟨h, ?_⟩
    simp only [fillOrder64, getRemainingQuantity64, if_pos h]
  · right
    have h' := h
    push_neg at h'
    refine ⟨h'.1, h'.2, ?_, ?_⟩
    · simp only [fillOrder64, getRemainingQuantity64, if_neg h]
      split_ifs <;> rfl
    · simp only [fillOrder64, getRemainingQuantity64, if_neg h]
      split_ifs <;> rfl

theorem fillAll64_induction (P : Order → Prop)
    (hstep : ∀ (o : Order) (x : ℚ), P o → P (o.fillOrder64 x)) :
    ∀ (amounts : List ℚ) (o : Order), P o → P (o.fillAll64 amounts) := by
  intro amounts
  induction amounts with
  | nil => intro o h; exact h
  | cons a rest ih =>
    intro o h
    exact ih (o.fillOrder64 a) (hstep o a h)

theorem fillAll64_append (o : Order) (xs ys : List ℚ) :
    o.fillAll64 (xs ++ ys) = (o.fillAll64 xs).fillAll64 ys := by
  simp [fillAll64, List.foldl_append]

/-- Invariant of binary64 fill sequences on an order whose quantity `q` is a positive
binary64 value: `filledQuantity` is a non-negative binary64 value at most one unit in the
last place of `q` above `q`. -/
theorem fillOrder64_invariant (q : ℚ) (hq : 0 < q) (hdouble : round64 q = q) (o : Order)
    (x : ℚ)
    (hinv : o.quantity = q ∧ 0 ≤ o.filledQuantity ∧
      round64 o.filledQuantity = o.filledQuantity ∧
      o.filledQuantity ≤ q + 2 ^ binade q) :
    (o.fillOrder64 x).quantity = q ∧ 0 ≤ (o.fillOrder64 x).filledQuantity ∧
      round64 (o.fillOrder64 x).filledQuantity = (o.fillOrder64 x).filledQuantity ∧
      (o.fillOrder64 x).filledQuantity ≤ q + 2 ^ binade q ∧
      o.filledQuantity ≤ (o.fillOrder64 x).filledQuantity := by
  obtain ⟨hqty, hf0, hfd, hfle⟩ := hinv
  rcases fillOrder64_cases o x with ⟨_, hsame⟩ | ⟨hpos, hle, hf, hq'⟩
  · rw [hsame]
    exact ⟨hqty, hf0, hfd, hfle, le_rfl⟩
  · rw [hf, hq']
    refine ⟨hqty, round64_nonneg (by linarith), round64_idem _, ?_, ?_⟩
    · rw [hqty] at hle
      have hd : 0 < q - o.filledQuantity := by
        by_contra hcon
        have := round64_nonpos (not_lt.mp hcon)
        linarith
      have h1 := round64_le_add_half_ulp (q - o.filledQuantity) (le_of_lt hd)
      have h2 : binade (q - o.filledQuantity) ≤ binade q :=
        binade_mono hd (by linarith)
      have h3 : (2 : ℚ) ^ binade (q - o.filledQuantity) ≤ 2 ^ binade q :=
        zpow_le_zpow_right₀ (by norm_num) h2
      have hp : (0 : ℚ) < 2 ^ binade q := zpow_pos (by norm_num) _
      have h4 : o.filledQuantity + x ≤ q + 2 ^ binade q := by linarith
      have h5 := round64_mono h4
      rw [round64_add_ulp q (le_of_lt hq) hdouble] at h5
      exact h5
    · have h1 : o.filledQuantity ≤ o.filledQuantity + x := by linarith
      have h2 := round64_mono h1
      rw [hfd] at h2
      exact h2

/-- Binary64 fills keep `filledQuantity` a non-negative binary64 value and never lower
it. -/
theorem fillOrder64_monotone (o : Order) (x : ℚ)
    (hinv : 0 ≤ o.filledQuantity ∧ round64 o.filledQuantity = o.filledQuantity) :
    (0 ≤ (o.fillOrder64 x).filledQuantity ∧
        round64 (o.fillOrder64 x).filledQuantity = (o.fillOrder64 x).filledQuantity) ∧
      o.filledQuantity ≤ (o.fillOrder64 x).filledQuantity := by
  obtain ⟨hf0, hfd⟩ := hinv
  rcases fillOrder64_cases o x with ⟨_, hsame⟩ | ⟨hpos, _, hf, _⟩
  · rw [hsame]
    exact ⟨⟨hf0, hfd⟩, le_rfl⟩
  · rw [hf]
    refine ⟨⟨round64_nonneg (by linarith), round64_idem _⟩, ?_⟩
    have h1 : o.filledQuantity ≤ o.filledQuantity + x := by linarith
    have h2 := round64_mono h1
    rw [hfd] at h2
    exact h2

end Order

/-! ## Claims C11 to C20 -/

/-- Claim C11: `canAffordOrder` is true exactly when, for a BUY, cash is at least
`quantity * price` (the limit price of the order) and, for a SELL, the held quantity of the
order's symbol is at least `quantity`, the held quantity being the position's quantity or
`0` when the map has no position for the symbol. `canAffordOrder` is a `const` method:
its embedding returns the Boolean only, so the ledger after the call is the ledger before
it. -/
theorem canAffordOrder_iff_cash_or_position (pf : Portfolio) (order : Order) :
    (order.type = OrderType.BUY →
        (pf.canAffordOrder order = true ↔ pf.cash ≥ order.quantity * order.price)) ∧
      (order.type = OrderType.SELL →
        (pf.canAffordOrder order = true ↔
          pf.getPositionQuantity order.symbol ≥ order.quantity)) ∧
      (∀ pos : Position, pf.positions.find order.symbol = some pos →
        pf.getPositionQuantity order.symbol = pos.quantity) ∧
      (pf.positions.find order.symbol = none → pf.getPositionQuantity order.symbol = 0) := by
  refine ⟨?_, ?_, ?_, ?_⟩
  · intro ht
    simp [Portfolio.canAffordOrder, ht]
  · intro ht
    simp [Portfolio.canAffordOrder, ht]
  · intro pos hf
    simp [Portfolio.getPositionQuantity, hf]
  · intro hf
    simp [Portfolio.getPositionQuantity, hf]

theorem canAffordOrder_iff_cash_or_position_witness :
    (Portfolio.holding 500 "X" 10 50).canAffordOrder (Order.pending 1 "X" OrderType.BUY 10 50)
        = true ∧
      (Portfolio.holding 500 "X" 10 50).canAffordOrder
        (Order.pending 2 "X" OrderType.SELL 11 50) = false ∧
      (Portfolio.holding 500 "X" 10 50).canAffordOrder
        (Order.pending 3 "Y" OrderType.SELL 1 50) = false := by
  have h1 := canAffordOrder_iff_cash_or_position (Portfolio.holding 500 "X" 10 50)
    (Order.pending 1 "X" OrderType.BUY 10 50)
  have h2 := canAffordOrder_iff_cash_or_position (Portfolio.holding 500 "X" 10 50)
    (Order.pending 2 "X" OrderType.SELL 11 50)
  have h3 := canAffordOrder_iff_cash_or_position (Portfolio.holding 500 "X" 10 50)
    (Order.pending 3 "Y" OrderType.SELL 1 50)
  refine ⟨(h1.1 rfl).mpr ?_, ?_, ?_⟩
  · norm_num [Portfolio.holding, Order.pending, Order.create]
  · rw [Bool.eq_false_iff]
    intro hc
    have hq := (h2.2.1 rfl).mp hc
    rw [h2.2.2.1 (Position.create "X" 10 50)
      (by simp [Portfolio.holding, StdMap.find, Order.pending, Order.create])] at hq
    norm_num [Position.create, Order.pending, Order.create] at hq
  · rw [Bool.eq_false_iff]
    intro hc
    have hq := (h3.2.1 rfl).mp hc
    rw [h3.2.2.2 (by simp [Portfolio.holding, StdMap.find, Order.pending, Order.create])] at hq
    norm_num [Order.pending, Order.create] at hq

/-- Claim C12: after `cancelOrder(orderId)` the pending queue is the old queue without the
orders whose id is `orderId`, the others in their original relative order; when no pending
order has that id the queue is unchanged; the ledger and the execution log (and the
market) are unchanged in every case. -/
theorem cancelOrder_removes_matching_orders (e : TradingEngine) (orderId : Int) :
    (e.cancelOrder orderId).pendingOrders =
        e.pendingOrders.filter (fun o => decide (o.orderId ≠ orderId)) ∧
      (∀ o ∈ (e.cancelOrder orderId).pendingOrders, o.orderId ≠ orderId) ∧
      (e.cancelOrder orderId).pendingOrders.Sublist e.pendingOrders ∧
      ((∀ o ∈ e.pendingOrders, o.orderId ≠ orderId) →
        (e.cancelOrder orderId).pendingOrders = e.pendingOrders) ∧
      (e.cancelOrder orderId).portfolio = e.portfolio ∧
      (e.cancelOrder orderId).executedOrders = e.executedOrders ∧
      (e.cancelOrder orderId).market = e.market := by
  have hq : (e.cancelOrder orderId).pendingOrders =
      e.pendingOrders.filter (fun o => decide (o.orderId ≠ orderId)) := by
    simp [TradingEngine.cancelOrder, TradingEngine.cancelOrderLoop_fst]
  refine ⟨hq, ?_, ?_, ?_, rfl, rfl, rfl⟩
  · intro o ho
    rw [hq, List.mem_filter] at ho
    simpa using ho.2
  · rw [hq]
    exact List.filter_sublist _
  · intro hall
    rw [hq, List.filter_eq_self]
    intro o ho
    simpa using hall o ho

theorem cancelOrder_removes_matching_orders_witness :
    (TradingEngine.twoBuysPending.cancelOrder 1).pendingOrders.map Order.orderId = [2] ∧
      (TradingEngine.twoBuysPending.cancelOrder 7).pendingOrders =
        TradingEngine.twoBuysPending.pendingOrders := by
  have h1 := cancelOrder_removes_matching_orders TradingEngine.twoBuysPending 1
  have h7 := cancelOrder_removes_matching_orders TradingEngine.twoBuysPending 7
  refine ⟨?_, h7.2.2.2.1 ?_⟩
  · rw [h1.1]
    norm_num [TradingEngine.twoBuysPending, TradingEngine.sample,
      TradingEngine.executeLimitOrder, TradingEngine.submitOrder, TradingEngine.create,
      Market.single, Portfolio.create, Market.hasSymbol, StdMap.find, Order.create,
      TradingEngine.validateOrder, Portfolio.canAffordOrder, List.filter, wrapInt32]
  · norm_num [TradingEngine.twoBuysPending, TradingEngine.sample,
      TradingEngine.executeLimitOrder, TradingEngine.submitOrder, TradingEngine.create,
      Market.single, Portfolio.create, Market.hasSymbol, StdMap.find, Order.create,
      TradingEngine.validateOrder, Portfolio.canAffordOrder, wrapInt32]

/-- Claim C13: `executeLimitOrder` never fills at submission: the ledger, the execution
log and the market are unchanged and the order (status PENDING) is appended to the
pending queue exactly when validation passes. A pending limit BUY whose limit price is
below the current market price is still in the pending queue, as it was, after one
`processOrders` pass and does not touch the ledger: the pass leaves the ledger it would
leave without that order in the queue, and leaves it unchanged when no pending order meets
the fill condition. A pass at a market price `≤` the limit removes the order (fresh, of
positive quantity) from the queue and logs it FILLED for its full quantity. With cash 1000
and "X" at 50, a limit BUY of 5 @ 40 is still pending after one pass with cash 1000; after
the price moves to 40 the next pass logs it FILLED and cash is 800. -/
theorem limit_order_rests_until_price_met (e : TradingEngine) (symbol : String)
    (type : OrderType) (quantity price : ℚ) :
    ((e.executeLimitOrder symbol type quantity price).portfolio = e.portfolio ∧
        (e.executeLimitOrder symbol type quantity price).executedOrders = e.executedOrders ∧
        (e.executeLimitOrder symbol type quantity price).market = e.market ∧
        (e.validateOrder (Order.create e.nextOrderId symbol type quantity price).1 = true →
          (e.executeLimitOrder symbol type quantity price).pendingOrders =
            e.pendingOrders ++ [(Order.create e.nextOrderId symbol type quantity price).1] ∧
          (Order.create e.nextOrderId symbol type quantity price).1.status =
            OrderStatus.PENDING) ∧
        (e.validateOrder (Order.create e.nextOrderId symbol type quantity price).1 = false →
          (e.executeLimitOrder symbol type quantity price).pendingOrders =
            e.pendingOrders)) ∧
      (∀ o ∈ e.pendingOrders, o.type = OrderType.BUY →
        o.price < e.market.getCurrentPrice o.symbol →
          o ∈ e.processOrders.pendingOrders ∧
          e.processOrders.executedOrders =
            (TradingEngine.processOrders
              { e with pendingOrders := e.pendingOrders.filter (fun x => decide (x ≠ o)) }
              ).executedOrders ∧
          e.processOrders.portfolio =
            (TradingEngine.processOrders
              { e with pendingOrders := e.pendingOrders.filter (fun x => decide (x ≠ o)) }
              ).portfolio) ∧
      ((∀ o ∈ e.pendingOrders, TradingEngine.canExecute e.market o = false) →
        e.processOrders.portfolio = e.portfolio ∧
        e.processOrders.pendingOrders = e.pendingOrders ∧
        e.processOrders.executedOrders = e.executedOrders) ∧
      (∀ o ∈ e.pendingOrders, o.type = OrderType.BUY →
        e.market.getCurrentPrice o.symbol ≤ o.price →
        o.filledQuantity = 0 → 0 < o.quantity →
          o ∉ e.processOrders.pendingOrders ∧
          { o with filledQuantity := o.quantity, status := OrderStatus.FILLED } ∈
            e.processOrders.executedOrders) ∧
      (TradingEngine.restingBuy.pendingOrders = [Order.pending 1 "X" OrderType.BUY 5 40] ∧
        TradingEngine.restingBuy.processOrders.pendingOrders =
          [Order.pending 1 "X" OrderType.BUY 5 40] ∧
        TradingEngine.restingBuy.processOrders.portfolio = Portfolio.create 1000 ∧
        TradingEngine.restingBuy.processOrders.executedOrders = [] ∧
        (TradingEngine.restingBuy.processOrders.afterPriceUpdate 1
          (fun _ => -5045 / 504)).market.getCurrentPrice "X" = 40 ∧
        ((TradingEngine.restingBuy.processOrders.afterPriceUpdate 1
          (fun _ => -5045 / 504)).processOrders).pendingOrders = [] ∧
        ((TradingEngine.restingBuy.processOrders.afterPriceUpdate 1
          (fun _ => -5045 / 504)).processOrders).executedOrders =
          [{ orderId := 1, symbol := "X", type := OrderType.BUY, quantity := 5, price := 40,
             filledQuantity := 5, status := OrderStatus.FILLED }] ∧
        ((TradingEngine.restingBuy.processOrders.afterPriceUpdate 1
          (fun _ => -5045 / 504)).processOrders).portfolio.cash = 800) := by
  have hpart := TradingEngine.processOrdersLoop_spec e.pendingOrders e []
  have hpend : e.processOrders.pendingOrders =
      e.pendingOrders.filter (fun o => !TradingEngine.canExecute e.market o) := by
    simp [TradingEngine.processOrders, hpart.1]
  have hexec : e.processOrders.executedOrders =
      e.executedOrders ++
        (e.pendingOrders.filter (fun o => TradingEngine.canExecute e.market o)).map
          (fun o => (o.fillOrder o.quantity).setStatus OrderStatus.FILLED) := by
    simp [TradingEngine.processOrders, hpart.2.1]
  refine ⟨?_, ?_, ?_, ?_, ?_⟩
  · rw [TradingEngine.executeLimitOrder_eq]
    refine ⟨rfl, rfl, rfl, ?_, ?_⟩
    · intro hv
      refine ⟨?_, rfl⟩
      simp only [hv, if_true]
    · intro hv
      simp only [hv, Bool.false_eq_true, if_false]
  · intro o ho hbuy hlt
    have hno : TradingEngine.canExecute e.market o = false := by
      simp [TradingEngine.canExecute, hbuy, hlt]
    refine ⟨?_, ?_, ?_⟩
    · rw [hpend, List.mem_filter]
      exact ⟨ho, by simp [hno]⟩
    · rw [hexec]
      have h2 := (TradingEngine.processOrdersLoop_spec
        (e.pendingOrders.filter (fun x => decide (x ≠ o)))
        { e with pendingOrders := e.pendingOrders.filter (fun x => decide (x ≠ o)) } []).2.1
      have hfilter : (e.pendingOrders.filter (fun x => decide (x ≠ o))).filter
          (fun x => TradingEngine.canExecute e.market x) =
            e.pendingOrders.filter (fun x => TradingEngine.canExecute e.market x) := by
        rw [List.filter_filter]
        apply List.filter_congr
        intro x _
        by_cases hx : x = o
        · rw [hx, hno]; simp
        · simp [hx]
      simp only [TradingEngine.processOrders, h2, hfilter]
    · rw [TradingEngine.processOrders_portfolio, TradingEngine.processOrders_portfolio]
      exact TradingEngine.foldl_execute_filter e.market (fun x => decide (x ≠ o))
        e.pendingOrders
        (by
          intro x _ hx
          have : x ≠ o := by
            intro h; rw [h, hno] at hx; exact absurd hx (by simp)
          simpa using this) e.portfolio
  · intro hall
    refine ⟨?_, ?_, ?_⟩
    · rw [TradingEngine.processOrders_portfolio,
        TradingEngine.foldl_execute_filter e.market (fun _ => false) e.pendingOrders
          (by intro x hx hc; rw [hall x hx] at hc; exact absurd hc (by simp)) e.portfolio]
      simp
    · rw [hpend, List.filter_eq_self]
      intro o ho
      simp [hall o ho]
    · rw [hexec]
      have : e.pendingOrders.filter (fun o => TradingEngine.canExecute e.market o) = [] := by
        rw [List.filter_eq_nil_iff]
        intro o ho
        simp [hall o ho]
      simp [this]
  · intro o ho hbuy hle hfresh hq
    have hyes : TradingEngine.canExecute e.market o = true := by
      simp [TradingEngine.canExecute, hbuy, hle]
    constructor
    · rw [hpend, List.mem_filter]
      intro h
      simp [hyes] at h
    · rw [hexec, List.mem_append]
      right
      rw [List.mem_map]
      refine ⟨o, List.mem_filter.mpr ⟨ho, hyes⟩, ?_⟩
      rw [Order.fillOrder_full o hq hfresh]
      rfl
  · norm_num [TradingEngine.restingBuy, TradingEngine.afterPriceUpdate, TradingEngine.sample,
      TradingEngine.executeLimitOrder, TradingEngine.submitOrder, TradingEngine.processOrders,
      TradingEngine.processOrdersLoop, TradingEngine.create, Market.single, Portfolio.create,
      Market.hasSymbol, Market.getCurrentPrice, Market.updatePrices, Market.updatePricesLoop,
      Market.simulatePriceMovement, Market.recordPrice, StdMap.find, StdMap.assign,
      StdMap.index, Order.create, Order.pending, TradingEngine.validateOrder,
      Portfolio.canAffordOrder, TradingEngine.tryExecuteOrder, TradingEngine.canExecute,
      Order.fillOrder, Order.getRemainingQuantity, Order.isFullyFilled, Order.setStatus,
      Portfolio.executeOrder, Portfolio.updateCash, Portfolio.updateTotalValue,
      Position.create, wrapInt32]

/-- Claim C14 (counterexample): the order constructed with quantity `0` has status PENDING
although `filledQuantity ≥ quantity` already holds (`0 ≥ 0`), before any fill call; so
`status = FILLED ↔ filledQuantity ≥ quantity` is false in a state reachable from
construction. -/
theorem status_invariant_fails_at_zero_quantity :
    ((Order.create 1 "X" OrderType.BUY 0 10).1.fillAll []).status = OrderStatus.PENDING ∧
      ((Order.create 1 "X" OrderType.BUY 0 10).1.fillAll []).filledQuantity ≥
        ((Order.create 1 "X" OrderType.BUY 0 10).1.fillAll []).quantity ∧
      ¬ (((Order.create 1 "X" OrderType.BUY 0 10).1.fillAll []).status = OrderStatus.FILLED ↔
          ((Order.create 1 "X" OrderType.BUY 0 10).1.fillAll []).filledQuantity ≥
            ((Order.create 1 "X" OrderType.BUY 0 10).1.fillAll []).quantity) := by
  simp [Order.create, Order.fillAll]

/-- Claim C14 (amended): for an order constructed with positive quantity, after any
sequence of `fillOrder` calls the status is FILLED if and only if
`filledQuantity ≥ quantity`. -/
theorem status_filled_iff_fully_filled (nextOrderId : Int) (symbol : String)
    (type : OrderType) (quantity price : ℚ) (amounts : List ℚ) (hq : 0 < quantity) :
    ((Order.create nextOrderId symbol type quantity price).1.fillAll amounts).status =
        OrderStatus.FILLED ↔
      ((Order.create nextOrderId symbol type quantity price).1.fillAll amounts).filledQuantity ≥
        ((Order.create nextOrderId symbol type quantity price).1.fillAll amounts).quantity := by
  apply Order.fillAll_induction
    (fun o => o.status = OrderStatus.FILLED ↔ o.filledQuantity ≥ o.quantity)
  · intro o x hinv
    rcases Order.fillOrder_cases o x with ⟨_, hsame⟩ | ⟨_, _, hf, hqty, hst⟩
    · rw [hsame]; exact hinv
    · rw [hf, hqty]; exact hst
  · simp [Order.create, not_le.mpr hq]

theorem status_filled_iff_fully_filled_witness :
    ((Order.create 1 "X" OrderType.BUY 10 50).1.fillAll [4, 6]).status = OrderStatus.FILLED ∧
      ((Order.create 1 "X" OrderType.BUY 10 50).1.fillAll [4]).status ≠ OrderStatus.FILLED := by
  constructor
  · rw [status_filled_iff_fully_filled 1 "X" OrderType.BUY 10 50 [4, 6] (by norm_num)]
    norm_num [Order.create, Order.fillAll, Order.fillOrder, Order.getRemainingQuantity,
      Order.isFullyFilled]
  · rw [Ne, status_filled_iff_fully_filled 1 "X" OrderType.BUY 10 50 [4] (by norm_num)]
    norm_num [Order.create, Order.fillAll, Order.fillOrder, Order.getRemainingQuantity,
      Order.isFullyFilled]

/-- Claim C15: `fillOrder(amount)` with `amount ≤ 0` or
`amount > quantity - filledQuantity` leaves the filled quantity and the status (the whole
order) unchanged; with any other amount it raises the filled quantity by exactly
`amount`. -/
theorem fillOrder_noop_or_adds_amount (o : Order) (amount : ℚ) :
    ((amount ≤ 0 ∨ amount > o.quantity - o.filledQuantity) →
        (o.fillOrder amount).filledQuantity = o.filledQuantity ∧
        (o.fillOrder amount).status = o.status ∧
        o.fillOrder amount = o) ∧
      (¬ (amount ≤ 0 ∨ amount > o.quantity - o.filledQuantity) →
        (o.fillOrder amount).filledQuantity = o.filledQuantity + amount) := by
  constructor
  · intro h
    have : o.fillOrder amount = o := by
      simp only [Order.fillOrder, Order.getRemainingQuantity, if_pos h]
    simp [this]
  · intro h
    simp only [Order.fillOrder, Order.getRemainingQuantity, if_neg h]
    split_ifs <;> rfl

theorem fillOrder_noop_or_adds_amount_witness :
    ((Order.pending 1 "X" OrderType.BUY 10 50).fillOrder 11).filledQuantity = 0 ∧
      ((Order.pending 1 "X" OrderType.BUY 10 50).fillOrder 11).status = OrderStatus.PENDING ∧
      ((Order.pending 1 "X" OrderType.BUY 10 50).fillOrder 4).filledQuantity = 0 + 4 :=
  ⟨((fillOrder_noop_or_adds_amount (Order.pending 1 "X" OrderType.BUY 10 50) 11).1
      (by norm_num [Order.pending, Order.create])).1,
   ((fillOrder_noop_or_adds_amount (Order.pending 1 "X" OrderType.BUY 10 50) 11).1
      (by norm_num [Order.pending, Order.create])).2.1,
   (fillOrder_noop_or_adds_amount (Order.pending 1 "X" OrderType.BUY 10 50) 4).2
      (by norm_num [Order.pending, Order.create])⟩

/-- Claim C16 (counterexample): in binary64 arithmetic take the order constructed with
quantity 7.88, that is the double `8872091265919877 / 2^50`, and fill it by 2.64 and then
by 5.24. Both fills are accepted (after the first, the remaining quantity rounds to the
double 5.24 itself) and the sum rounds up: `filledQuantity` ends at
`8872091265919878 / 2^50` (7.880000000000001), above the quantity, so
`filledQuantity ≤ quantity` is false. -/
theorem filledQuantity_exceeds_quantity_in_binary64 :
    0 < round64 (788 / 100) ∧
      ((Order.create 1 "X" OrderType.BUY (round64 (788 / 100)) 50).1.fillAll64
        [round64 (264 / 100), round64 (524 / 100)]).filledQuantity =
          8872091265919878 / 2 ^ 50 ∧
      (Order.create 1 "X" OrderType.BUY (round64 (788 / 100)) 50).1.quantity =
          8872091265919877 / 2 ^ 50 ∧
      ¬ (((Order.create 1 "X" OrderType.BUY (round64 (788 / 100)) 50).1.fillAll64
          [round64 (264 / 100), round64 (524 / 100)]).filledQuantity ≤
        (Order.create 1 "X" OrderType.BUY (round64 (788 / 100)) 50).1.quantity) := by
  have h1 : round64 (197 / 25) = 8872091265919877 / 1125899906842624 :=
    round64_value _ (-50) 8872091265919877 _ (by norm_num) (by norm_num) (by norm_num)
      (Or.inl (by norm_num [abs_lt])) (by norm_num)
  have h2 : round64 (66 / 25) = 5944751508129055 / 2251799813685248 :=
    round64_value _ (-51) 5944751508129055 _ (by norm_num) (by norm_num) (by norm_num)
      (Or.inl (by norm_num [abs_lt])) (by norm_num)
  have h3 : round64 (131 / 25) = 2949857755927675 / 562949953421312 :=
    round64_value _ (-50) 5899715511855350 _ (by norm_num) (by norm_num) (by norm_num)
      (Or.inl (by norm_num [abs_lt])) (by norm_num)
  have h4 : round64 (8872091265919877 / 1125899906842624) = 8872091265919877 / 1125899906842624 :=
    round64_value _ (-50) 8872091265919877 _ (by norm_num) (by norm_num) (by norm_num)
      (Or.inl (by norm_num [abs_lt])) (by norm_num)
  have h5 : round64 (5944751508129055 / 2251799813685248) = 5944751508129055 / 2251799813685248 :=
    round64_value _ (-51) 5944751508129055 _ (by norm_num) (by norm_num) (by norm_num)
      (Or.inl (by norm_num [abs_lt])) (by norm_num)
  have h6 : round64 (11799431023710699 / 2251799813685248) = 2949857755927675 / 562949953421312 :=
    round64_value _ (-50) 5899715511855350 _ (by norm_num) (by norm_num) (by norm_num)
      (Or.inr ⟨by norm_num [abs_eq], by decide⟩) (by norm_num)
  have h7 : round64 (17744182531839755 / 2251799813685248) = 4436045632959939 / 562949953421312 :=
    round64_value _ (-50) 8872091265919878 _ (by norm_num) (by norm_num) (by norm_num)
      (Or.inr ⟨by norm_num [abs_eq], by decide⟩) (by norm_num)
  norm_num [Order.create, Order.fillAll64, Order.fillOrder64, Order.getRemainingQuantity64,
    Order.isFullyFilled, wrapInt32, h1, h2, h3, h4, h5, h6, h7]

/-- Claim C16 (amended): take an order constructed with positive quantity and any
sequence of `fillOrder` calls. In binary64 arithmetic `filledQuantity` is never negative,
one more call never lowers it, and when the quantity is a binary64 value it exceeds the
quantity by at most one unit in the last place of the quantity (`2 ^ binade quantity`).
In exact arithmetic `0 ≤ filledQuantity ≤ quantity`, and one more call never lowers
`filledQuantity`. -/
theorem filledQuantity_monotone_bounded_up_to_rounding (nextOrderId : Int) (symbol : String)
    (type : OrderType) (quantity price : ℚ) (amounts : List ℚ) (hq : 0 < quantity) :
    (0 ≤ ((Order.create nextOrderId symbol type quantity price).1.fillAll64
          amounts).filledQuantity ∧
      (∀ amount : ℚ,
        ((Order.create nextOrderId symbol type quantity price).1.fillAll64
            amounts).filledQuantity ≤
          ((Order.create nextOrderId symbol type quantity price).1.fillAll64
            (amounts ++ [amount])).filledQuantity) ∧
      (round64 quantity = quantity →
        ((Order.create nextOrderId symbol type quantity price).1.fillAll64
          amounts).filledQuantity ≤ quantity + 2 ^ binade quantity)) ∧
    (0 ≤ ((Order.create nextOrderId symbol type quantity price).1.fillAll
          amounts).filledQuantity ∧
      (∀ amount : ℚ,
        ((Order.create nextOrderId symbol type quantity price).1.fillAll
            amounts).filledQuantity ≤
          ((Order.create nextOrderId symbol type quantity price).1.fillAll
            (amounts ++ [amount])).filledQuantity) ∧
      ((Order.create nextOrderId symbol type quantity price).1.fillAll
          amounts).filledQuantity ≤ quantity) := by
  constructor
  · have hbasic := Order.fillAll64_induction
      (fun o => 0 ≤ o.filledQuantity ∧ round64 o.filledQuantity = o.filledQuantity)
      (fun o x hinv => (Order.fillOrder64_monotone o x hinv).1)
      amounts (Order.create nextOrderId symbol type quantity price).1
      (by simp [Order.create, round64_zero])
    refine ⟨hbasic.1, ?_, ?_⟩
    · intro amount
      rw [Order.fillAll64_append]
      simp only [Order.fillAll64, List.foldl_cons, List.foldl_nil]
      exact (Order.fillOrder64_monotone _ amount hbasic).2
    · intro hdouble
      have hp : (0 : ℚ) < 2 ^ binade quantity := zpow_pos (by norm_num) _
      have hinv := Order.fillAll64_induction
        (fun o => o.quantity = quantity ∧ 0 ≤ o.filledQuantity ∧
          round64 o.filledQuantity = o.filledQuantity ∧
          o.filledQuantity ≤ quantity + 2 ^ binade quantity)
        (fun o x hinv =>
          have h := Order.fillOrder64_invariant quantity hq hdouble o x hinv
          ⟨h.1, h.2.1, h.2.2.1, h.2.2.2.1⟩)
        amounts (Order.create nextOrderId symbol type quantity price).1
        (by
          refine ⟨rfl, ?_, ?_, ?_⟩
          · simp [Order.create]
          · simp [Order.create, round64_zero]
          · simp only [Order.create]
            linarith)
      exact hinv.2.2.2
  · have hinv := Order.fillAll_induction
      (fun o => o.quantity = quantity ∧ 0 ≤ o.filledQuantity ∧ o.filledQuantity ≤ o.quantity)
      (by
        intro o x hinv
        rcases Order.fillOrder_cases o x with ⟨_, hsame⟩ | ⟨hpos, hle, hf, hqty, _⟩
        · rw [hsame]; exact hinv
        · rw [hf, hqty]
          exact ⟨hinv.1, by linarith [hinv.2.1], by linarith⟩)
      amounts (Order.create nextOrderId symbol type quantity price).1
      (by simp [Order.create, le_of_lt hq])
    refine ⟨hinv.2.1, ?_, ?_⟩
    · intro amount
      rw [Order.fillAll_append]
      simp only [Order.fillAll, List.foldl_cons, List.foldl_nil]
      rcases Order.fillOrder_cases
        (List.foldl Order.fillOrder (Order.create nextOrderId symbol type quantity price).1
          amounts) amount with ⟨_, hsame⟩ | ⟨hpos, _, hf, _, _⟩
      · rw [hsame]
      · rw [hf]; linarith
    · have h := hinv.2.2
      rw [hinv.1] at h
      exact h

theorem filledQuantity_monotone_bounded_up_to_rounding_witness :
    (0 : ℚ) < 10 ∧ round64 10 = 10 ∧
      0 ≤ ((Order.create 1 "X" OrderType.BUY 10 50).1.fillAll64
        [4, -1, 7, 6]).filledQuantity ∧
      ((Order.create 1 "X" OrderType.BUY 10 50).1.fillAll64 [4, -1, 7, 6]).filledQuantity
        ≤ 10 + 2 ^ binade 10 ∧
      0 ≤ ((Order.create 1 "X" OrderType.BUY 10 50).1.fillAll [4, -1, 7, 6]).filledQuantity ∧
      ((Order.create 1 "X" OrderType.BUY 10 50).1.fillAll [4, -1, 7, 6]).filledQuantity
        ≤ 10 :=
  ⟨by norm_num, by simpa using round64_intCast_small 10 (by norm_num) (by norm_num),
   (filledQuantity_monotone_bounded_up_to_rounding 1 "X" OrderType.BUY 10 50 [4, -1, 7, 6]
      (by norm_num)).1.1,
   (filledQuantity_monotone_bounded_up_to_rounding 1 "X" OrderType.BUY 10 50 [4, -1, 7, 6]
      (by norm_num)).1.2.2
      (by simpa using round64_intCast_small 10 (by norm_num) (by norm_num)),
   (filledQuantity_monotone_bounded_up_to_rounding 1 "X" OrderType.BUY 10 50 [4, -1, 7, 6]
      (by norm_num)).2.1,
   (filledQuantity_monotone_bounded_up_to_rounding 1 "X" OrderType.BUY 10 50 [4, -1, 7, 6]
      (by norm_num)).2.2.2⟩

/-- Claim C17 (counterexample): starting from the initial counter value 1, after
2147483646 constructions the counter is `INT_MAX = 2147483647`; the next construction
gets id 2147483647 and leaves the counter at -2147483648 (not advanced by one), and the
construction after it gets id -2147483648: the later order has the smaller id, so the ids
of the run are not strictly increasing. -/
theorem order_ids_wrap_after_int_max :
    (Order.createMany 1 (List.replicate 2147483646 ("X", OrderType.BUY, 1, 1))).2
        = 2147483647 ∧
      (Order.create 2147483647 "X" OrderType.BUY 1 1).2 = -2147483648 ∧
      (Order.createMany 2147483647
        [("X", OrderType.BUY, 1, 1), ("X", OrderType.BUY, 1, 1)]).1.map Order.orderId
          = [2147483647, -2147483648] ∧
      ¬ ((Order.createMany 1
          (List.replicate 2147483646 ("X", OrderType.BUY, 1, 1) ++
            [("X", OrderType.BUY, 1, 1), ("X", OrderType.BUY, 1, 1)])).1.map
          Order.orderId).Pairwise (fun a b => a < b) := by
  have hlen : ((List.replicate 2147483646 (("X", OrderType.BUY, 1, 1) :
      String × OrderType × ℚ × ℚ)).length : Int) = 2147483646 := by
    rw [List.length_replicate]
    rfl
  have hcount : (Order.createMany 1
      (List.replicate 2147483646 ("X", OrderType.BUY, 1, 1))).2 = 2147483647 := by
    have h := (Order.createMany_ids (List.replicate 2147483646 ("X", OrderType.BUY, 1, 1)) 1
      (by norm_num) (by rw [hlen]; norm_num)).2 (by rw [hlen]; norm_num)
    rw [h, hlen]
    norm_num
  have htwo : (Order.createMany 2147483647
      [("X", OrderType.BUY, 1, 1), ("X", OrderType.BUY, 1, 1)]).1.map Order.orderId
        = [2147483647, -2147483648] := by
    norm_num [Order.createMany, Order.create, wrapInt32]
  refine ⟨hcount, by norm_num [Order.create, wrapInt32], htwo, ?_⟩
  intro hpw
  rw [(Order.createMany_append _ _ 1).1, hcount, List.map_append, htwo] at hpw
  have h2 := (List.pairwise_append.mp hpw).2.1
  rw [List.pairwise_cons] at h2
  have h3 := h2.1 (-2147483648) (List.mem_singleton.mpr rfl)
  omega

/-- Claim C17 (amended): a construction takes the current counter value as its id and
gives the order status PENDING and filled quantity 0; while the counter is below `INT_MAX`
it advances the counter by one. Hence for constructions made while the ids stay within
`int` (counter at least `-2^31` at the start and at most `INT_MAX` at the last
construction) the ids are consecutive from the starting value: strictly increasing in
construction order, and no id is assigned twice. -/
theorem order_ids_sequential_below_int_max (n : Int)
    (args : List (String × OrderType × ℚ × ℚ))
    (hlo : -2147483648 ≤ n) (hhi : n + args.length ≤ INT_MAX + 1) :
    (∀ (symbol : String) (type : OrderType) (quantity price : ℚ),
        (Order.create n symbol type quantity price).1.orderId = n ∧
        (Order.create n symbol type quantity price).1.status = OrderStatus.PENDING ∧
        (Order.create n symbol type quantity price).1.filledQuantity = 0 ∧
        (n < INT_MAX → (Order.create n symbol type quantity price).2 = n + 1)) ∧
      (Order.createMany n args).1.map Order.orderId =
        (List.range args.length).map (fun i : Nat => n + (i : Int)) ∧
      (∀ o ∈ (Order.createMany n args).1,
        o.status = OrderStatus.PENDING ∧ o.filledQuantity = 0) ∧
      (n + args.length ≤ INT_MAX → (Order.createMany n args).2 = n + args.length) ∧
      ((Order.createMany n args).1.map Order.orderId).Pairwise (fun a b => a < b) ∧
      ((Order.createMany n args).1.map Order.orderId).Nodup := by
  simp only [INT_MAX] at hhi ⊢
  have hids := Order.createMany_ids args n hlo (by omega)
  have hpw : ((Order.createMany n args).1.map Order.orderId).Pairwise (fun a b => a < b) := by
    rw [hids.1, List.pairwise_map]
    exact (List.pairwise_lt_range args.length).imp (fun h => by omega)
  refine ⟨?_, hids.1, ?_, hids.2, hpw, ?_⟩
  · intro symbol type quantity price
    refine ⟨rfl, rfl, rfl, ?_⟩
    intro hlt
    exact Order.wrapInt32_of_inRange _ (by omega) (by omega)
  · have hall : ∀ (l : List (String × OrderType × ℚ × ℚ)) (m : Int),
        ∀ o ∈ (Order.createMany m l).1,
          o.status = OrderStatus.PENDING ∧ o.filledQuantity = 0 := by
      intro l
      induction l with
      | nil => intro m o ho; simp [Order.createMany] at ho
      | cons a rest ih =>
        intro m o ho
        rw [Order.createMany_cons] at ho
        rcases List.mem_cons.mp ho with h | h
        · subst h; exact ⟨rfl, rfl⟩
        · exact ih _ o h
    exact hall args n
  · exact hpw.imp (fun h => ne_of_lt h)

theorem order_ids_sequential_below_int_max_witness :
    (Order.createMany 1
        [("X", OrderType.BUY, 1, 1), ("Y", OrderType.SELL, 2, 3),
          ("X", OrderType.BUY, 5, 40)]).1.map Order.orderId = [1, 2, 3] ∧
      (Order.createMany 1
        [("X", OrderType.BUY, 1, 1), ("Y", OrderType.SELL, 2, 3),
          ("X", OrderType.BUY, 5, 40)]).2 = 4 := by
  have h := order_ids_sequential_below_int_max 1
    [("X", OrderType.BUY, 1, 1), ("Y", OrderType.SELL, 2, 3), ("X", OrderType.BUY, 5, 40)]
    (by norm_num) (by norm_num [INT_MAX])
  refine ⟨?_, ?_⟩
  · rw [h.2.1]
    simp [List.range_succ]
  · rw [h.2.2.2.1 (by norm_num [INT_MAX])]
    norm_num

/-- Claim C18: for every market state (whatever the stored volatilities), every value of
`sqrt(dt)` and every sequence of random draws, a registered symbol is still registered
after `updatePrices` and its current price is at least `0.01`. -/
theorem updatePrices_price_floor (m : Market) (sqrtDt : ℚ) (draws : Nat → ℚ)
    (symbol : String) (hreg : m.hasSymbol symbol = true) :
    (m.updatePrices sqrtDt draws).hasSymbol symbol = true ∧
      (m.updatePrices sqrtDt draws).getCurrentPrice symbol ≥ 1 / 100 := by
  obtain ⟨p, hp⟩ : ∃ p : ℚ, m.currentPrices.find symbol = some p := by
    simpa [Market.hasSymbol, Option.isSome_iff_exists] using hreg
  obtain ⟨p2, hp2, hle⟩ := Market.updatePricesLoop_floor (m.currentPrices.map Prod.fst) symbol
    sqrtDt draws m 0 (Or.inl ⟨StdMap.mem_keys_of_find _ _ _ hp, p, hp⟩)
  have hfind : (m.updatePrices sqrtDt draws).currentPrices.find symbol = some p2 := hp2
  constructor
  · simp [Market.hasSymbol, hfind]
  · simp only [Market.getCurrentPrice, hfind]
    exact hle

theorem updatePrices_price_floor_witness :
    ((Market.single "X" (1 / 50)).updatePrices 1 (fun _ => -100)).getCurrentPrice "X"
      ≥ 1 / 100 :=
  (updatePrices_price_floor (Market.single "X" (1 / 50)) 1 (fun _ => -100) "X"
    (by simp [Market.hasSymbol, Market.single, StdMap.find])).2

/-- Claim C19: in every market state reached from the empty market by `addSymbol` and
`updatePrices` calls, every stored price history has at most 1000 points; and recording a
point onto a history of exactly 1000 points stores the old history without its first
point, followed by the new point. -/
theorem priceHistory_bounded_and_evicts_oldest (ops : List MarketOp) :
    (∀ (symbol : String) (history : List PriceData),
        (Market.empty.run ops).priceHistory.find symbol = some history →
          history.length ≤ 1000) ∧
      (∀ (m : Market) (symbol : String) (history : List PriceData) (price volume : ℚ),
        m.priceHistory.find symbol = some history → history.length = 1000 →
          (m.recordPrice symbol price volume).priceHistory.find symbol =
            some (history.tail ++ [{ price := price, volume := volume }])) := by
  constructor
  · exact Market.run_historyBounded ops Market.empty
      (by intro s h hf; simp [Market.empty, StdMap.find] at hf)
  · intro m symbol history price volume hf hlen
    rw [Market.recordPrice_find_self, hf]
    simp only [Option.getD_some, List.length_append, List.length_singleton, hlen]
    have hne : history ≠ [] := by
      intro h; rw [h] at hlen; simp at hlen
    obtain ⟨x, xs, rfl⟩ := List.exists_cons_of_ne_nil hne
    simp

theorem priceHistory_bounded_and_evicts_oldest_witness :
    ((Market.withHistory "X" (List.replicate 1000 7) 7).recordPrice "X" 9
        1000).priceHistory.find "X" =
      some (((List.replicate 1000 (7 : ℚ)).map
        (fun x => ({ price := x, volume := 1000 } : PriceData))).tail ++
          [{ price := 9, volume := 1000 }]) :=
  (priceHistory_bounded_and_evicts_oldest []).2
    (Market.withHistory "X" (List.replicate 1000 7) 7) "X" _ 9 1000
    (Market.withHistory_find "X" (List.replicate 1000 7) 7)
    (by rw [List.length_map, List.length_replicate])

/-- Claim C20: `getDailyReturn` is `0` when the symbol has no history (in particular when
it is not registered, in every market reached from the empty one by `addSymbol` and
`updatePrices`) or when its history has fewer than two points; otherwise it is
`(last - secondToLast) / secondToLast * 100` over the prices of the last two points (for
a second-to-last price other than `0`, where the quotient is defined). History prices
`[100, 105]` give exactly `5`. -/
theorem getDailyReturn_formula (m : Market) (symbol : String) :
    (m.priceHistory.find symbol = none → m.getDailyReturn symbol = 0) ∧
      (∀ ops : List MarketOp, (Market.empty.run ops).hasSymbol symbol = false →
        (Market.empty.run ops).getDailyReturn symbol = 0) ∧
      (∀ history : List PriceData, m.priceHistory.find symbol = some history →
        history.length < 2 → m.getDailyReturn symbol = 0) ∧
      (∀ (older : List PriceData) (secondToLast last : PriceData),
        m.priceHistory.find symbol = some (older ++ [secondToLast, last]) →
        secondToLast.price ≠ 0 →
          m.getDailyReturn symbol =
            (last.price - secondToLast.price) / secondToLast.price * 100) ∧
      (Market.withHistory "X" [100, 105] 105).getDailyReturn "X" = 5 := by
  refine ⟨?_, ?_, ?_, ?_, ?_⟩
  · intro hf
    simp [Market.getDailyReturn, hf]
  · intro ops hreg
    have hnone : (Market.empty.run ops).currentPrices.find symbol = none := by
      simpa [Market.hasSymbol] using hreg
    have hinv := Market.run_historyOnlyForRegistered ops Market.empty
      (by intro s _; simp [Market.empty, StdMap.find])
    simp [Market.getDailyReturn, hinv symbol hnone]
  · intro history hf hlen
    simp [Market.getDailyReturn, hf, hlen]
  · intro older a b hf _
    exact Market.getDailyReturn_of_two_last m symbol older a b hf
  · rw [Market.getDailyReturn_of_two_last (Market.withHistory "X" [100, 105] 105) "X" []
      { price := 100, volume := 1000 } { price := 105, volume := 1000 }
      (by simp [Market.withHistory, StdMap.find])]
    norm_num

theorem getDailyReturn_formula_witness :
    (Market.withHistory "X" [100] 100).getDailyReturn "X" = 0 ∧
      (Market.withHistory "X" [50, 100, 105] 105).getDailyReturn "X" =
        (105 - 100) / 100 * 100 :=
  ⟨(getDailyReturn_formula (Market.withHistory "X" [100] 100) "X").2.2.1
      [{ price := 100, volume := 1000 }] (by simp [Market.withHistory, StdMap.find])
      (by simp),
   (getDailyReturn_formula (Market.withHistory "X" [50, 100, 105] 105) "X").2.2.2.1
      [{ price := 50, volume := 1000 }] { price := 100, volume := 1000 }
      { price := 105, volume := 1000 } (by simp [Market.withHistory, StdMap.find])
      (by norm_num)⟩

/-! ## Ordered maps -/

namespace StdMap
variable {V : Type}

theorem mem_keys_assign (m : StdMap V) (k x : String) (v : V) :
    x ∈ (m.assign k v).map Prod.fst ↔ x = k ∨ x ∈ m.map Prod.fst := by
  induction m with
  | nil => simp [assign]
  | cons hd tl ih =>
    obtain ⟨k', v'⟩ := hd
    by_cases h1 : k' = k
    · subst h1
      simp [assign]
    · by_cases h2 : k < k'
      · simp [assign, h1, h2]
      · simp only [assign, h1, h2, if_false, List.map_cons, List.mem_cons, ih]
        tauto

theorem ordered_assign (m : StdMap V) (k : String) (v : V) (h : m.Ordered) :
    (m.assign k v).Ordered := by
  unfold Ordered at h ⊢
  induction m with
  | nil => simp [assign]
  | cons hd tl ih =>
    obtain ⟨k', v'⟩ := hd
    simp only [List.map_cons, List.pairwise_cons] at h
    by_cases h1 : k' = k
    · subst h1
      simpa [assign] using h
    · by_cases h2 : k < k'
      · simp only [assign, h1, h2, if_false, if_true, List.map_cons, List.pairwise_cons,
          List.mem_cons]
        refine ⟨?_, h⟩
        intro x hx
        rcases hx with hx | hx
        · rw [hx]; exact h2
        · exact lt_trans h2 (h.1 x hx)
      · simp only [assign, h1, h2, if_false, List.map_cons, List.pairwise_cons]
        refine ⟨?_, ih h.2⟩
        intro x hx
        rw [mem_keys_assign] at hx
        rcases hx with hx | hx
        · rw [hx]
          rcases lt_trichotomy k' k with h3 | h3 | h3
          · exact h3
          · exact absurd h3 h1
          · exact absurd h3 h2
        · exact h.1 x hx

theorem ordered_nodup (m : StdMap V) (h : m.Ordered) : (m.map Prod.fst).Nodup :=
  List.Pairwise.imp (fun hab => ne_of_lt hab) h

end StdMap

/-! ## Zero volatility and `addSymbol` -/

namespace Market

theorem simulatePriceMovement_volatility_ne (m : Market) (symbol s2 : String)
    (sqrtDt randomShock : ℚ) (hne : s2 ≠ symbol) :
    (m.simulatePriceMovement symbol sqrtDt randomShock).volatility.find s2 =
      m.volatility.find s2 := by
  cases hp : m.currentPrices.find symbol with
  | none => rw [simulatePriceMovement_of_unregistered m symbol sqrtDt randomShock hp]
  | some p =>
    rw [simulatePriceMovement_of_registered m symbol sqrtDt randomShock p hp,
      (recordPrice_frame _ _ _ _).2]
    simp only [StdMap.index]
    cases hv : m.volatility.find symbol with
    | none => simp only [StdMap.find_assign_ne _ _ _ _ hne]
    | some v => rfl

/-- The `updatePrices` loop over keys without repetition: a symbol outside the keys keeps
its price and volatility entries; a symbol among them with stored volatility `0` ends at
`max(0.01, p * (1 + 0.05/252))`, whatever the draws are. -/
theorem updatePricesLoop_zero_volatility (keys : List String) (symbol : String)
    (sqrtDt : ℚ) (draws : Nat → ℚ) (hnodup : keys.Nodup) :
    ∀ (m : Market) (i : Nat),
      (symbol ∉ keys →
        (updatePricesLoop keys m sqrtDt draws i).currentPrices.find symbol =
            m.currentPrices.find symbol ∧
          (updatePricesLoop keys m sqrtDt draws i).volatility.find symbol =
            m.volatility.find symbol) ∧
      (symbol ∈ keys → ∀ p : ℚ, m.currentPrices.find symbol = some p →
        m.volatility.find symbol = some 0 →
          (updatePricesLoop keys m sqrtDt draws i).currentPrices.find symbol =
            some (max (1 / 100) (p * (1 + 5 / 100 / 252)))) := by
  induction keys with
  | nil =>
    intro m i
    exact ⟨fun _ => ⟨rfl, rfl⟩, fun h => absurd h (List.not_mem_nil _)⟩
  | cons k rest ih =>
    intro m i
    rw [List.nodup_cons] at hnodup
    have ih' := ih hnodup.2 (m.simulatePriceMovement k sqrtDt (draws i)) (i + 1)
    simp only [updatePricesLoop]
    constructor
    · intro hnot
      have hne : symbol ≠ k := fun h => hnot (h ▸ List.mem_cons_self _ _)
      have hrest : symbol ∉ rest := fun h => hnot (List.mem_cons_of_mem _ h)
      rw [(ih'.1 hrest).1, (ih'.1 hrest).2,
        (simulatePriceMovement_currentPrices m k sqrtDt (draws i)).2 symbol hne,
        simulatePriceMovement_volatility_ne m k symbol sqrtDt (draws i) hne]
      exact ⟨rfl, rfl⟩
    · intro hmem p hp hvol
      by_cases hk : symbol = k
      · subst hk
        rw [(ih'.1 hnodup.1).1,
          (simulatePriceMovement_currentPrices m symbol sqrtDt (draws i)).1 p hp]
        have hidx : (m.volatility.index symbol 0).2 = 0 := by
          simp [StdMap.index, hvol]
        rw [hidx]
        congr 2
        ring
      · have hrest : symbol ∈ rest := by
          rcases List.mem_cons.mp hmem with h | h
          · exact absurd h hk
          · exact h
        apply ih'.2 hrest p
        · rw [(simulatePriceMovement_currentPrices m k sqrtDt (draws i)).2 symbol hk]
          exact hp
        · rw [simulatePriceMovement_volatility_ne m k symbol sqrtDt (draws i) hk]
          exact hvol

/-- State of a symbol right after `addSymbol`. -/
theorem addSymbol_registers (m : Market) (symbol : String) (initialPrice vol : ℚ) :
    (m.addSymbol symbol initialPrice vol).currentPrices.find symbol = some initialPrice ∧
      (m.addSymbol symbol initialPrice vol).volatility.find symbol = some vol ∧
      (m.addSymbol symbol initialPrice vol).priceHistory.find symbol =
        some [PriceData.mk initialPrice 1000] ∧
      (m.addSymbol symbol initialPrice vol).currentPrices =
        m.currentPrices.assign symbol initialPrice := by
  unfold addSymbol
  refine ⟨?_, ?_, ?_, ?_⟩
  · rw [(recordPrice_frame _ _ _ _).1]
    exact StdMap.find_assign_self _ _ _
  · rw [(recordPrice_frame _ _ _ _).2]
    exact StdMap.find_assign_self _ _ _
  · rw [recordPrice_find_self]
    simp [StdMap.find_assign_self]
  · rw [(recordPrice_frame _ _ _ _).1]

end Market

/-! ## Membership, erasure and sums in maps -/

namespace StdMap
variable {V : Type}

theorem mem_assign (m : StdMap V) (k : String) (v : V) (kv : String × V)
    (h : kv ∈ m.assign k v) : kv = (k, v) ∨ kv ∈ m := by
  induction m with
  | nil => simpa [assign] using h
  | cons hd tl ih =>
    obtain ⟨k', v'⟩ := hd
    by_cases h1 : k' = k
    · simp only [assign, h1, if_true, List.mem_cons] at h
      rcases h with h | h
      · exact Or.inl h
      · exact Or.inr (List.mem_cons_of_mem _ h)
    · by_cases h2 : k < k'
      · simp only [assign, h1, h2, if_false, if_true, List.mem_cons] at h
        rcases h with h | h | h
        · exact Or.inl h
        · exact Or.inr (h ▸ List.mem_cons_self _ _)
        · exact Or.inr (List.mem_cons_of_mem _ h)
      · simp only [assign, h1, h2, if_false, List.mem_cons] at h
        rcases h with h | h
        · exact Or.inr (h ▸ List.mem_cons_self _ _)
        · rcases ih h with h3 | h3
          · exact Or.inl h3
          · exact Or.inr (List.mem_cons_of_mem _ h3)

theorem assign_assign (m : StdMap V) (k : String) (a b : V) :
    (m.assign k a).assign k b = m.assign k b := by
  induction m with
  | nil => simp [assign]
  | cons hd tl ih =>
    obtain ⟨k', v'⟩ := hd
    by_cases h1 : k' = k
    · simp [assign, h1]
    · by_cases h2 : k < k'
      · simp [assign, h1, h2]
      · simp [assign, h1, h2, ih]

theorem mem_erase (m : StdMap V) (k : String) (kv : String × V) (h : kv ∈ m.erase k) :
    kv ∈ m ∧ kv.1 ≠ k := by
  induction m with
  | nil => simp [erase] at h
  | cons hd tl ih =>
    obtain ⟨k', v'⟩ := hd
    by_cases h1 : k' = k
    · simp only [erase, h1, if_true] at h
      exact ⟨List.mem_cons_of_mem _ (ih h).1, (ih h).2⟩
    · simp only [erase, h1, if_false, List.mem_cons] at h
      rcases h with h | h
      · rw [h]
        exact ⟨List.mem_cons_self _ _, h1⟩
      · exact ⟨List.mem_cons_of_mem _ (ih h).1, (ih h).2⟩

theorem erase_sublist (m : StdMap V) (k : String) : (m.erase k).Sublist m := by
  induction m with
  | nil => simp [erase]
  | cons hd tl ih =>
    obtain ⟨k', v'⟩ := hd
    by_cases h1 : k' = k
    · simp only [erase, h1, if_true]
      exact List.Sublist.cons _ ih
    · simp only [erase, h1, if_false]
      exact List.Sublist.cons₂ _ ih

theorem ordered_erase (m : StdMap V) (k : String) (h : m.Ordered) : (m.erase k).Ordered := by
  unfold Ordered at h ⊢
  exact List.Pairwise.sublist ((erase_sublist m k).map Prod.fst) h

/-- In a well-formed map, assigning to a present key rewrites that entry in place. -/
theorem assign_eq_map_of_ordered (m : StdMap V) (k : String) (v old : V)
    (hord : m.Ordered) (hf : m.find k = some old) :
    m.assign k v = m.map (fun kv => if kv.1 = k then (k, v) else kv) := by
  unfold Ordered at hord
  induction m with
  | nil => simp [find] at hf
  | cons hd tl ih =>
    obtain ⟨k', v'⟩ := hd
    simp only [List.map_cons, List.pairwise_cons] at hord
    by_cases h1 : k' = k
    · subst h1
      have htl : tl.map (fun kv => if kv.1 = k' then (k', v) else kv) = tl := by
        conv_rhs => rw [← List.map_id tl]
        apply List.map_congr_left
        intro kv hkv
        have hlt := hord.1 kv.1 (List.mem_map_of_mem Prod.fst hkv)
        have hne : ¬ kv.1 = k' := fun h => (ne_of_lt hlt) h.symm
        simp [hne]
      simp [assign, htl]
    · simp only [find, h1, if_false] at hf
      have hlt : k' < k := hord.1 k (mem_keys_of_find _ _ _ hf)
      have h2 : ¬ k < k' := lt_asymm hlt
      simp only [assign, h1, h2, if_false, List.map_cons]
      rw [ih hord.2 hf]

end StdMap

/-! ## The cached total value; `updatePositionValue` -/

namespace Portfolio

theorem foldl_add_eq_sum (l : List (String × Position)) (f : String × Position → ℚ) :
    ∀ a : ℚ, l.foldl (fun acc kv => acc + f kv) a = a + (l.map f).sum := by
  induction l with
  | nil => intro a; simp
  | cons hd tl ih =>
    intro a
    simp only [List.foldl_cons, List.map_cons, List.sum_cons, ih]
    ring

theorem updateTotalValue_eq (pf : Portfolio) :
    pf.updateTotalValue =
      { pf with totalValue := pf.cash + pf.costBasisPlusUnrealized } := by
  simp only [updateTotalValue, costBasisPlusUnrealized]
  rw [foldl_add_eq_sum pf.positions
    (fun kv => kv.2.quantity * kv.2.averagePrice + kv.2.unrealizedPnL) pf.cash]

theorem updateTotalValue_totalValueCached (pf : Portfolio) :
    pf.updateTotalValue.TotalValueCached := by
  rw [updateTotalValue_eq]
  rfl

/-- The result of `executeOrder` is the given ledger (order refused) or ends with
`updateTotalValue`. -/
theorem executeOrder_eq_or_updated (pf : Portfolio) (order : Order) (p : ℚ) :
    (pf.canAffordOrder order = false ∧ pf.executeOrder order p = pf) ∨
      (pf.canAffordOrder order = true ∧
        ∃ pf2 : Portfolio, pf.executeOrder order p = pf2.updateTotalValue) := by
  cases hc : pf.canAffordOrder order with
  | false => exact Or.inl ⟨rfl, executeOrder_of_not_afford pf order p hc⟩
  | true =>
    right
    refine ⟨rfl, ?_⟩
    unfold executeOrder
    simp only [hc, Bool.not_true, Bool.false_eq_true, if_false]
    exact ⟨_, rfl⟩

theorem executeOrder_totalValueCached (pf : Portfolio) (order : Order) (p : ℚ)
    (h : pf.TotalValueCached) : (pf.executeOrder order p).TotalValueCached := by
  rcases executeOrder_eq_or_updated pf order p with ⟨_, heq⟩ | ⟨_, pf2, heq⟩
  · rw [heq]; exact h
  · rw [heq]; exact updateTotalValue_totalValueCached pf2

theorem updatePositionValue_totalValueCached (pf : Portfolio) (symbol : String) (price : ℚ) :
    (pf.updatePositionValue symbol price).TotalValueCached := by
  unfold updatePositionValue
  exact updateTotalValue_totalValueCached _

theorem run_totalValueCached (ops : List PortfolioOp) :
    ∀ pf : Portfolio, pf.TotalValueCached → (pf.run ops).TotalValueCached := by
  induction ops with
  | nil => intro pf h; simpa [run] using h
  | cons op rest ih =>
    intro pf h
    have hstep : (pf.step op).TotalValueCached := by
      cases op with
      | executeOrder order p => exact executeOrder_totalValueCached pf order p h
      | updatePositionValue symbol price =>
        exact updatePositionValue_totalValueCached pf symbol price
    simpa [run] using ih _ hstep

/-- Fields of the ledger after `updatePositionValue`. -/
theorem updatePositionValue_fields (pf : Portfolio) (symbol : String) (price : ℚ) :
    (pf.updatePositionValue symbol price).cash = pf.cash ∧
      (pf.updatePositionValue symbol price).orderHistory = pf.orderHistory ∧
      (pf.updatePositionValue symbol price).positions =
        (match pf.positions.find symbol with
         | some pos =>
           pf.positions.assign symbol
             { pos with unrealizedPnL := pos.quantity * (price - pos.averagePrice) }
         | none => pf.positions) := by
  unfold updatePositionValue
  cases hf : pf.positions.find symbol with
  | none => simp [updateTotalValue]
  | some pos => simp [updateTotalValue]

end Portfolio

/-! ## Well-formed position maps and positive quantities -/

theorem StdMap.ordered_index {V : Type} (m : StdMap V) (k : String) (d : V)
    (h : m.Ordered) : (m.index k d).1.Ordered := by
  unfold StdMap.index
  cases m.find k with
  | none => exact StdMap.ordered_assign m k d h
  | some v => exact h

namespace Portfolio

theorem executeOrder_ordered (pf : Portfolio) (order : Order) (p : ℚ)
    (h : pf.positions.Ordered) : (pf.executeOrder order p).positions.Ordered := by
  cases hc : pf.canAffordOrder order with
  | false => rw [executeOrder_of_not_afford pf order p hc]; exact h
  | true =>
    cases ht : order.type with
    | BUY =>
      rw [executeOrder_buy_positions pf order p hc ht]
      cases pf.positions.find order.symbol with
      | none => exact StdMap.ordered_assign _ _ _ (StdMap.ordered_assign _ _ _ h)
      | some pos => exact StdMap.ordered_assign _ _ _ h
    | SELL =>
      unfold executeOrder
      simp only [hc, Bool.not_true, Bool.false_eq_true, if_false, ht]
      split_ifs
      · exact StdMap.ordered_erase _ _
          (StdMap.ordered_assign _ _ _ (StdMap.ordered_index _ _ _ h))
      · exact StdMap.ordered_assign _ _ _ (StdMap.ordered_index _ _ _ h)

theorem updatePositionValue_ordered (pf : Portfolio) (symbol : String) (price : ℚ)
    (h : pf.positions.Ordered) : (pf.updatePositionValue symbol price).positions.Ordered := by
  rw [(updatePositionValue_fields pf symbol price).2.2]
  cases pf.positions.find symbol with
  | none => exact h
  | some pos => exact StdMap.ordered_assign _ _ _ h

theorem run_ordered (ops : List PortfolioOp) :
    ∀ pf : Portfolio, pf.positions.Ordered → (pf.run ops).positions.Ordered := by
  induction ops with
  | nil => intro pf h; simpa [run] using h
  | cons op rest ih =>
    intro pf h
    have hstep : (pf.step op).positions.Ordered := by
      cases op with
      | executeOrder order p => exact executeOrder_ordered pf order p h
      | updatePositionValue symbol price => exact updatePositionValue_ordered pf symbol price h
    simpa [run] using ih _ hstep

/-- An affordable SELL of positive quantity finds a position for its symbol. -/
theorem sell_affordable_has_position (pf : Portfolio) (order : Order)
    (ht : order.type = OrderType.SELL) (hq : 0 < order.quantity)
    (hc : pf.canAffordOrder order = true) :
    ∃ pos : Position, pf.positions.find order.symbol = some pos ∧
      order.quantity ≤ pos.quantity := by
  simp only [canAffordOrder, ht, getPositionQuantity, decide_eq_true_eq] at hc
  cases hf : pf.positions.find order.symbol with
  | none =>
    rw [hf] at hc
    exact absurd hc (not_le.mpr hq)
  | some pos =>
    rw [hf] at hc
    exact ⟨pos, rfl, hc⟩

theorem executeOrder_positionsPositive (pf : Portfolio) (order : Order) (p : ℚ)
    (hq : 0 < order.quantity) (h : pf.PositionsPositive) :
    (pf.executeOrder order p).PositionsPositive := by
  cases hc : pf.canAffordOrder order with
  | false => rw [executeOrder_of_not_afford pf order p hc]; exact h
  | true =>
    intro kv hkv
    cases ht : order.type with
    | BUY =>
      rw [executeOrder_buy_positions pf order p hc ht] at hkv
      cases hf : pf.positions.find order.symbol with
      | none =>
        rw [hf] at hkv
        simp only [StdMap.assign_assign] at hkv
        rcases StdMap.mem_assign _ _ _ _ hkv with h1 | h1
        · rw [h1]; exact hq
        · exact h kv h1
      | some pos =>
        rw [hf] at hkv
        simp only at hkv
        rcases StdMap.mem_assign _ _ _ _ hkv with h1 | h1
        · rw [h1]
          by_cases hpos : pos.quantity > 0
          · simp only [hpos, if_true]
            exact add_pos hpos hq
          · simp only [hpos, if_false]
            exact hq
        · exact h kv h1
    | SELL =>
      obtain ⟨pos, hf, _⟩ := sell_affordable_has_position pf order ht hq hc
      rw [executeOrder_sell_positions pf order p hc ht pos hf] at hkv
      by_cases hsmall : pos.quantity - order.quantity ≤ 1 / 1000
      · rw [if_pos hsmall] at hkv
        have hm := StdMap.mem_erase _ _ _ hkv
        rcases StdMap.mem_assign _ _ _ _ hm.1 with h1 | h1
        · rw [h1] at hm
          exact absurd rfl hm.2
        · exact h kv h1
      · rw [if_neg hsmall] at hkv
        rcases StdMap.mem_assign _ _ _ _ hkv with h1 | h1
        · rw [h1]
          have : (1 : ℚ) / 1000 < pos.quantity - order.quantity := not_le.mp hsmall
          show 0 < pos.quantity - order.quantity
          linarith
        · exact h kv h1

end Portfolio

/-! ## Revaluing every held position -/

namespace StdMap
variable {V : Type}

theorem find_of_mem_ordered (m : StdMap V) (kv : String × V) (hord : m.Ordered)
    (h : kv ∈ m) : m.find kv.1 = some kv.2 := by
  unfold Ordered at hord
  induction m with
  | nil => simp at h
  | cons hd tl ih =>
    obtain ⟨k', v'⟩ := hd
    simp only [List.map_cons, List.pairwise_cons] at hord
    rcases List.mem_cons.mp h with h1 | h1
    · rw [h1]
      simp [find]
    · have hlt := hord.1 kv.1 (List.mem_map_of_mem Prod.fst h1)
      have hne : ¬ k' = kv.1 := ne_of_lt hlt
      simp only [find, hne, if_false]
      exact ih hord.2 h1

end StdMap

namespace Portfolio

/-- The position `pos` with its unrealized P&L recomputed at `price`. -/
theorem updatePositionValue_positions_map (pf : Portfolio) (symbol : String) (price : ℚ)
    (hord : pf.positions.Ordered) :
    (pf.updatePositionValue symbol price).positions =
      pf.positions.map (fun kv =>
        if kv.1 = symbol then
          (kv.1, { kv.2 with
            unrealizedPnL := kv.2.quantity * (price - kv.2.averagePrice) })
        else kv) := by
  rw [(updatePositionValue_fields pf symbol price).2.2]
  cases hf : pf.positions.find symbol with
  | none =>
    simp only
    conv_lhs => rw [← List.map_id pf.positions]
    apply List.map_congr_left
    intro kv hkv
    have hne : ¬ kv.1 = symbol := by
      intro h
      have := StdMap.find_of_mem_ordered _ kv hord hkv
      rw [h, hf] at this
      exact Option.noConfusion this
    simp [hne]
  | some pos =>
    simp only
    rw [StdMap.assign_eq_map_of_ordered _ _ _ pos hord hf]
    apply List.map_congr_left
    intro kv hkv
    by_cases h : kv.1 = symbol
    · have hfind := StdMap.find_of_mem_ordered _ kv hord hkv
      rw [h, hf] at hfind
      injection hfind with hfind
      simp only [h, if_true]
      rw [hfind]
    · simp only [h, if_false]

/-- After `updatePositionValue` has been called at `price s` for each `s` of `syms`, the
positions whose key is in `syms` carry the unrealized P&L of that price; nothing else
changes in the map, and cash is unchanged. -/
theorem revalue_positions (syms : List String) (price : String → ℚ) :
    ∀ pf : Portfolio, pf.positions.Ordered →
      (syms.foldl (fun acc s => acc.updatePositionValue s (price s)) pf).positions =
          pf.positions.map (fun kv =>
            if kv.1 ∈ syms then
              (kv.1, { kv.2 with
                unrealizedPnL := kv.2.quantity * (price kv.1 - kv.2.averagePrice) })
            else kv) ∧
        (syms.foldl (fun acc s => acc.updatePositionValue s (price s)) pf).cash = pf.cash ∧
        (syms.foldl (fun acc s => acc.updatePositionValue s (price s)) pf).orderHistory =
          pf.orderHistory := by
  induction syms with
  | nil =>
    intro pf _
    simp
  | cons s rest ih =>
    intro pf hord
    simp only [List.foldl_cons]
    obtain ⟨h1, h2, h3⟩ := ih (pf.updatePositionValue s (price s))
      (updatePositionValue_ordered pf s (price s) hord)
    refine ⟨?_, ?_, ?_⟩
    · rw [h1, updatePositionValue_positions_map pf s (price s) hord, List.map_map]
      apply List.map_congr_left
      intro kv _
      obtain ⟨k, pos⟩ := kv
      by_cases hs : k = s
      · subst hs
        by_cases hr : k ∈ rest
        · simp [hr]
        · simp [hr]
      · by_cases hr : k ∈ rest
        · simp [hs, hr]
        · simp [hs, hr]
    · rw [h2, (updatePositionValue_fields pf s (price s)).1]
    · rw [h3, (updatePositionValue_fields pf s (price s)).2.1]

theorem revalue_totalValueCached (syms : List String) (price : String → ℚ) :
    ∀ pf : Portfolio, (syms ≠ [] ∨ pf.TotalValueCached) →
      (syms.foldl (fun acc s => acc.updatePositionValue s (price s)) pf).TotalValueCached := by
  induction syms with
  | nil =>
    intro pf h
    rcases h with h | h
    · exact absurd rfl h
    · simpa using h
  | cons s rest ih =>
    intro pf _
    simp only [List.foldl_cons]
    exact ih _ (Or.inr (updatePositionValue_totalValueCached pf s (price s)))

end Portfolio

/-! ## Cash through executions; induction over simulation steps and events -/

namespace Portfolio

theorem revalue_cash (syms : List String) (price : String → ℚ) :
    ∀ pf : Portfolio,
      (syms.foldl (fun acc s => acc.updatePositionValue s (price s)) pf).cash = pf.cash := by
  induction syms with
  | nil => intro pf; rfl
  | cons s rest ih =>
    intro pf
    simp only [List.foldl_cons]
    rw [ih, (updatePositionValue_fields pf s (price s)).1]

/-- Cash stays non-negative through `executeOrder` when a BUY executes at a price not
above its limit and a SELL at a non-negative price. -/
theorem executeOrder_cash_nonneg (pf : Portfolio) (order : Order) (p : ℚ)
    (hcash : 0 ≤ pf.cash) (hq : 0 < order.quantity)
    (hbuy : order.type = OrderType.BUY → p ≤ order.price)
    (hsell : order.type = OrderType.SELL → 0 ≤ p) :
    0 ≤ (pf.executeOrder order p).cash := by
  cases hc : pf.canAffordOrder order with
  | false => rw [executeOrder_of_not_afford pf order p hc]; exact hcash
  | true =>
    have h := (executeOrder_cash_history pf order p hc).1
    cases ht : order.type with
    | BUY =>
      rw [ht] at h
      rw [h]
      have h1 : pf.cash ≥ order.quantity * order.price := by
        simpa [canAffordOrder, ht] using hc
      have h2 : order.quantity * p ≤ order.quantity * order.price :=
        mul_le_mul_of_nonneg_left (hbuy ht) (le_of_lt hq)
      simp only
      linarith
    | SELL =>
      rw [ht] at h
      rw [h]
      have h2 : 0 ≤ order.quantity * p := mul_nonneg (le_of_lt hq) (hsell ht)
      simp only
      linarith

end Portfolio

namespace TradingEngine

/-- Pending queue and execution log after a `processOrders` pass. -/
theorem processOrders_lists (e : TradingEngine) :
    e.processOrders.pendingOrders =
        e.pendingOrders.filter (fun o => !canExecute e.market o) ∧
      e.processOrders.executedOrders =
        e.executedOrders ++ (e.pendingOrders.filter (fun o => canExecute e.market o)).map
          (fun o => (o.fillOrder o.quantity).setStatus OrderStatus.FILLED) := by
  have h := processOrdersLoop_spec e.pendingOrders e []
  constructor
  · simp [processOrders, h.1]
  · simp [processOrders, h.2.1]

theorem simulationStep_eq (e : TradingEngine) (sqrtDt : ℚ) (draws : Nat → ℚ) :
    e.simulationStep sqrtDt draws =
      (TradingEngine.mk (e.market.updatePrices sqrtDt draws)
        ((e.market.updatePrices sqrtDt draws).getAvailableSymbols.foldl
          (fun pf symbol => pf.updatePositionValue symbol
            ((e.market.updatePrices sqrtDt draws).getCurrentPrice symbol)) e.portfolio)
        e.pendingOrders e.executedOrders e.transactionCost e.enableLogging
        e.nextOrderId).processOrders := rfl

/-- A property of engine states kept by `simulationStep` holds after `runSimulation`. -/
theorem runSimulationLoop_induction (P : TradingEngine → Prop)
    (hstep : ∀ (e : TradingEngine) (sqrtDt : ℚ) (draws : Nat → ℚ),
      P e → P (e.simulationStep sqrtDt draws))
    (sqrtDt : ℚ) (draws : Nat → Nat → ℚ) (n : Nat) :
    ∀ (e : TradingEngine) (step : Nat), P e →
      P (runSimulationLoop n e sqrtDt draws step) := by
  induction n with
  | zero => intro e step h; simpa [runSimulationLoop] using h
  | succ n ih =>
    intro e step h
    simp only [runSimulationLoop]
    exact ih _ _ (hstep e sqrtDt (draws step) h)

/-- A property of engine states kept by every event of a list holds after the list. -/
theorem run_induction (P : TradingEngine → Prop) (ops : List EngineOp) :
    ∀ e : TradingEngine, (∀ op ∈ ops, ∀ e2 : TradingEngine, P e2 → P (e2.step op)) → P e →
      P (e.run ops) := by
  induction ops with
  | nil => intro e _ h; simpa [run] using h
  | cons op rest ih =>
    intro e hops h
    have h1 := hops op (List.mem_cons_self _ _) e h
    have := ih (e.step op) (fun x hx => hops x (List.mem_cons_of_mem _ hx)) h1
    simpa [run] using this

end TradingEngine

/-! ## Zero volatility in binary64 arithmetic -/

namespace Market

/-- Effect of the binary64 `simulatePriceMovement` on a registered symbol. -/
theorem simulatePriceMovement64_of_registered (m : Market) (symbol : String)
    (sqrtDt randomShock p : ℚ) (hp : m.currentPrices.find symbol = some p) :
    m.simulatePriceMovement64 symbol sqrtDt randomShock =
      ({ priceHistory := m.priceHistory,
         currentPrices := m.currentPrices.assign symbol
           (max (round64 (1 / 100))
             (round64 (p + round64 (p * round64 (round64 (round64 (5 / 100) * round64 (1 / 252)) +
               round64 (round64 ((m.volatility.index symbol 0).2 * sqrtDt) *
                 randomShock)))))),
         volatility := (m.volatility.index symbol 0).1 } : Market).recordPrice symbol
        (max (round64 (1 / 100))
          (round64 (p + round64 (p * round64 (round64 (round64 (5 / 100) * round64 (1 / 252)) +
            round64 (round64 ((m.volatility.index symbol 0).2 * sqrtDt) *
              randomShock)))))) 1000 := by
  simp [simulatePriceMovement64, hp, StdMap.index]

theorem simulatePriceMovement64_of_unregistered (m : Market) (symbol : String)
    (sqrtDt randomShock : ℚ) (hp : m.currentPrices.find symbol = none) :
    m.simulatePriceMovement64 symbol sqrtDt randomShock = m := by
  simp [simulatePriceMovement64, hp]

/-- Current prices after the binary64 `simulatePriceMovement`. -/
theorem simulatePriceMovement64_currentPrices (m : Market) (symbol : String)
    (sqrtDt randomShock : ℚ) :
    (∀ p : ℚ, m.currentPrices.find symbol = some p →
        (m.simulatePriceMovement64 symbol sqrtDt randomShock).currentPrices.find symbol =
          some (max (round64 (1 / 100))
            (round64 (p + round64 (p * round64 (round64 (round64 (5 / 100) * round64 (1 / 252)) +
              round64 (round64 ((m.volatility.index symbol 0).2 * sqrtDt) *
                randomShock))))))) ∧
      (∀ s2 : String, s2 ≠ symbol →
        (m.simulatePriceMovement64 symbol sqrtDt randomShock).currentPrices.find s2 =
          m.currentPrices.find s2) := by
  constructor
  · intro p hp
    rw [simulatePriceMovement64_of_registered m symbol sqrtDt randomShock p hp,
      (recordPrice_frame _ _ _ _).1]
    exact StdMap.find_assign_self _ _ _
  · intro s2 hne
    cases hp : m.currentPrices.find symbol with
    | none => rw [simulatePriceMovement64_of_unregistered m symbol sqrtDt randomShock hp]
    | some p =>
      rw [simulatePriceMovement64_of_registered m symbol sqrtDt randomShock p hp,
        (recordPrice_frame _ _ _ _).1]
      exact StdMap.find_assign_ne _ _ _ _ hne

theorem simulatePriceMovement64_volatility_ne (m : Market) (symbol s2 : String)
    (sqrtDt randomShock : ℚ) (hne : s2 ≠ symbol) :
    (m.simulatePriceMovement64 symbol sqrtDt randomShock).volatility.find s2 =
      m.volatility.find s2 := by
  cases hp : m.currentPrices.find symbol with
  | none => rw [simulatePriceMovement64_of_unregistered m symbol sqrtDt randomShock hp]
  | some p =>
    rw [simulatePriceMovement64_of_registered m symbol sqrtDt randomShock p hp,
      (recordPrice_frame _ _ _ _).2]
    simp only [StdMap.index]
    cases hv : m.volatility.find symbol with
    | none => simp only [StdMap.find_assign_ne _ _ _ _ hne]
    | some v => rfl

/-- The binary64 `updatePrices` loop over keys without repetition: a symbol outside the
keys keeps its price and volatility entries; a symbol among them with stored volatility
`0` ends at `max(0.01, p + p * (0.05 * (1/252)))`, each operation rounded, whatever the
draws are. -/
theorem updatePricesLoop64_zero_volatility (keys : List String) (symbol : String)
    (sqrtDt : ℚ) (draws : Nat → ℚ) (hnodup : keys.Nodup) :
    ∀ (m : Market) (i : Nat),
      (symbol ∉ keys →
        (updatePricesLoop64 keys m sqrtDt draws i).currentPrices.find symbol =
            m.currentPrices.find symbol ∧
          (updatePricesLoop64 keys m sqrtDt draws i).volatility.find symbol =
            m.volatility.find symbol) ∧
      (symbol ∈ keys → ∀ p : ℚ, m.currentPrices.find symbol = some p →
        m.volatility.find symbol = some 0 →
          (updatePricesLoop64 keys m sqrtDt draws i).currentPrices.find symbol =
            some (max (round64 (1 / 100))
              (round64 (p + round64 (p * round64 (round64 (5 / 100) * round64 (1 / 252))))))) := by
  induction keys with
  | nil =>
    intro m i
    exact ⟨fun _ => ⟨rfl, rfl⟩, fun h => absurd h (List.not_mem_nil _)⟩
  | cons k rest ih =>
    intro m i
    rw [List.nodup_cons] at hnodup
    have ih' := ih hnodup.2 (m.simulatePriceMovement64 k sqrtDt (draws i)) (i + 1)
    simp only [updatePricesLoop64]
    constructor
    · intro hnot
      have hne : symbol ≠ k := fun h => hnot (h ▸ List.mem_cons_self _ _)
      have hrest : symbol ∉ rest := fun h => hnot (List.mem_cons_of_mem _ h)
      rw [(ih'.1 hrest).1, (ih'.1 hrest).2,
        (simulatePriceMovement64_currentPrices m k sqrtDt (draws i)).2 symbol hne,
        simulatePriceMovement64_volatility_ne m k symbol sqrtDt (draws i) hne]
      exact ⟨rfl, rfl⟩
    · intro hmem p hp hvol
      by_cases hk : symbol = k
      · subst hk
        rw [(ih'.1 hnodup.1).1,
          (simulatePriceMovement64_currentPrices m symbol sqrtDt (draws i)).1 p hp]
        have hidx : (m.volatility.index symbol 0).2 = 0 := by
          simp [StdMap.index, hvol]
        rw [hidx, zero_mul, round64_zero, zero_mul, round64_zero, add_zero, round64_idem]
      · have hrest : symbol ∈ rest := by
          rcases List.mem_cons.mp hmem with h | h
          · exact absurd h hk
          · exact h
        apply ih'.2 hrest p
        · rw [(simulatePriceMovement64_currentPrices m k sqrtDt (draws i)).2 symbol hk]
          exact hp
        · rw [simulatePriceMovement64_volatility_ne m k symbol sqrtDt (draws i) hk]
          exact hvol

end Market

/-! ## Revaluation and BUY in binary64 arithmetic -/

namespace Portfolio

/-- Fields after the binary64 `updatePositionValue`. -/
theorem updatePositionValue64_fields (pf : Portfolio) (symbol : String) (price : ℚ) :
    (pf.updatePositionValue64 symbol price).cash = pf.cash ∧
      (pf.updatePositionValue64 symbol price).positions =
        (match pf.positions.find symbol with
         | some pos =>
           pf.positions.assign symbol
             { pos with
               unrealizedPnL := round64 (pos.quantity * round64 (price - pos.averagePrice)) }
         | none => pf.positions) ∧
      (pf.updatePositionValue64 symbol price).totalValue =
        (pf.updatePositionValue64 symbol price).positions.foldl
          (fun acc kv =>
            round64 (acc + round64 (round64 (kv.2.quantity * kv.2.averagePrice) +
              kv.2.unrealizedPnL))) (pf.updatePositionValue64 symbol price).cash := by
  unfold updatePositionValue64
  cases hf : pf.positions.find symbol with
  | none => simp [updateTotalValue64]
  | some pos => simp [updateTotalValue64]

theorem updatePositionValue64_ordered (pf : Portfolio) (symbol : String) (price : ℚ)
    (h : pf.positions.Ordered) :
    (pf.updatePositionValue64 symbol price).positions.Ordered := by
  rw [(updatePositionValue64_fields pf symbol price).2.1]
  cases pf.positions.find symbol with
  | none => exact h
  | some pos => exact StdMap.ordered_assign _ _ _ h

theorem updatePositionValue64_positions_map (pf : Portfolio) (symbol : String) (price : ℚ)
    (hord : pf.positions.Ordered) :
    (pf.updatePositionValue64 symbol price).positions =
      pf.positions.map (fun kv =>
        if kv.1 = symbol then
          (kv.1, { kv.2 with
            unrealizedPnL :=
              round64 (kv.2.quantity * round64 (price - kv.2.averagePrice)) })
        else kv) := by
  rw [(updatePositionValue64_fields pf symbol price).2.1]
  cases hf : pf.positions.find symbol with
  | none =>
    simp only
    conv_lhs => rw [← List.map_id pf.positions]
    apply List.map_congr_left
    intro kv hkv
    have hne : ¬ kv.1 = symbol := by
      intro h
      have := StdMap.find_of_mem_ordered _ kv hord hkv
      rw [h, hf] at this
      exact Option.noConfusion this
    simp [hne]
  | some pos =>
    simp only
    rw [StdMap.assign_eq_map_of_ordered _ _ _ pos hord hf]
    apply List.map_congr_left
    intro kv hkv
    by_cases h : kv.1 = symbol
    · have hfind := StdMap.find_of_mem_ordered _ kv hord hkv
      rw [h, hf] at hfind
      injection hfind with hfind
      simp only [h, if_true]
      rw [hfind]
    · simp only [h, if_false]

/-- After the binary64 `updatePositionValue` has been called at `price s` for each `s` of
`syms`, the positions whose key is in `syms` carry the unrealized P&L of that price as
the code rounds it; nothing else changes in the map, and cash is unchanged. -/
theorem revalue64_positions (syms : List String) (price : String → ℚ) :
    ∀ pf : Portfolio, pf.positions.Ordered →
      (syms.foldl (fun acc s => acc.updatePositionValue64 s (price s)) pf).positions =
          pf.positions.map (fun kv =>
            if kv.1 ∈ syms then
              (kv.1, { kv.2 with
                unrealizedPnL :=
                  round64 (kv.2.quantity * round64 (price kv.1 - kv.2.averagePrice)) })
            else kv) ∧
        (syms.foldl (fun acc s => acc.updatePositionValue64 s (price s)) pf).cash =
          pf.cash := by
  induction syms with
  | nil =>
    intro pf _
    simp
  | cons s rest ih =>
    intro pf hord
    simp only [List.foldl_cons]
    obtain ⟨h1, h2⟩ := ih (pf.updatePositionValue64 s (price s))
      (updatePositionValue64_ordered pf s (price s) hord)
    refine ⟨?_, ?_⟩
    · rw [h1, updatePositionValue64_positions_map pf s (price s) hord, List.map_map]
      apply List.map_congr_left
      intro kv _
      obtain ⟨k, pos⟩ := kv
      by_cases hs : k = s
      · subst hs
        by_cases hr : k ∈ rest
        · simp [hr]
        · simp [hr]
      · by_cases hr : k ∈ rest
        · simp [hs, hr]
        · simp [hs, hr]
    · rw [h2, (updatePositionValue64_fields pf s (price s)).1]

/-- After at least one binary64 `updatePositionValue`, `totalValue` is the sum
accumulated by `updateTotalValue` over the positions then stored. -/
theorem revalue64_totalValue (syms : List String) (price : String → ℚ) :
    ∀ pf : Portfolio,
      (syms ≠ [] ∨ pf.totalValue = pf.positions.foldl
        (fun acc kv =>
          round64 (acc + round64 (round64 (kv.2.quantity * kv.2.averagePrice) +
            kv.2.unrealizedPnL))) pf.cash) →
      (syms.foldl (fun acc s => acc.updatePositionValue64 s (price s)) pf).totalValue =
        (syms.foldl (fun acc s => acc.updatePositionValue64 s (price s)) pf).positions.foldl
          (fun acc kv =>
            round64 (acc + round64 (round64 (kv.2.quantity * kv.2.averagePrice) +
              kv.2.unrealizedPnL)))
          (syms.foldl (fun acc s => acc.updatePositionValue64 s (price s)) pf).cash := by
  induction syms with
  | nil =>
    intro pf h
    rcases h with h | h
    · exact absurd rfl h
    · simpa using h
  | cons s rest ih =>
    intro pf _
    simp only [List.foldl_cons]
    exact ih _ (Or.inr (updatePositionValue64_fields pf s (price s)).2.2)

end Portfolio

/-! ## Claims C21 to C29 -/

/-- Claim C21 (counterexample): in binary64 arithmetic register "X" at 34.7 with
volatility 0 and make one `updatePrices` step. The price becomes
`4884559812367567 / 2^47` (34.70688492063493), while the closed form
`max(0.01, p * (1 + 0.05/252))` evaluated in binary64 is `4884559812367566 / 2^47`
(34.70688492063492), one unit in the last place lower; the price is not the exact value
of the closed form either. -/
theorem zero_volatility_closed_form_fails_in_binary64 :
    0 < round64 (347 / 10) ∧
      ((Market.empty.addSymbol "X" (round64 (347 / 10)) 0).updatePrices64 (63 / 1000)
        (fun _ => 3)).getCurrentPrice "X" = 4884559812367567 / 2 ^ 47 ∧
      max (round64 (1 / 100))
          (round64 (round64 (347 / 10) * round64 (1 + round64 (round64 (5 / 100) / 252)))) =
        4884559812367566 / 2 ^ 47 ∧
      ((Market.empty.addSymbol "X" (round64 (347 / 10)) 0).updatePrices64 (63 / 1000)
          (fun _ => 3)).getCurrentPrice "X" ≠
        max (round64 (1 / 100))
          (round64 (round64 (347 / 10) * round64 (1 + round64 (round64 (5 / 100) / 252)))) ∧
      ((Market.empty.addSymbol "X" (round64 (347 / 10)) 0).updatePrices64 (63 / 1000)
          (fun _ => 3)).getCurrentPrice "X" ≠
        max (1 / 100) (round64 (347 / 10) * (1 + 5 / 100 / 252)) := by
  have hloop := (Market.updatePricesLoop64_zero_volatility
    ((Market.empty.addSymbol "X" (round64 (347 / 10)) 0).currentPrices.map Prod.fst) "X"
    (63 / 1000) (fun _ => 3)
    (StdMap.ordered_nodup _ (by
      rw [(Market.addSymbol_registers _ _ _ _).2.2.2]
      exact StdMap.ordered_assign _ _ _ (by simp [Market.empty, StdMap.Ordered])))
    (Market.empty.addSymbol "X" (round64 (347 / 10)) 0) 0).2
    (StdMap.mem_keys_of_find _ _ _ (Market.addSymbol_registers _ _ _ _).1)
    (round64 (347 / 10)) (Market.addSymbol_registers _ _ _ _).1
    (Market.addSymbol_registers _ _ _ _).2.1
  have hfind : ((Market.empty.addSymbol "X" (round64 (347 / 10)) 0).updatePrices64 (63 / 1000)
      (fun _ => 3)).currentPrices.find "X" =
        some (max (round64 (1 / 100))
          (round64 (round64 (347 / 10) + round64 (round64 (347 / 10) *
            round64 (round64 (5 / 100) * round64 (1 / 252)))))) := hloop
  have h1 : round64 (347 / 10) = 2441795422964941 / 70368744177664 :=
    round64_value _ (-47) 4883590845929882 _ (by norm_num) (by norm_num) (by norm_num)
      (Or.inl (by norm_num [abs_lt])) (by norm_num)
  have h2 : round64 (1 / 252) = 285942833483841 / 72057594037927936 :=
    round64_value _ (-60) 4575085335741456 _ (by norm_num) (by norm_num) (by norm_num)
      (Or.inl (by norm_num [abs_lt])) (by norm_num)
  have h3 : round64 (1 / 20) = 3602879701896397 / 72057594037927936 :=
    round64_value _ (-57) 7205759403792794 _ (by norm_num) (by norm_num) (by norm_num)
      (Or.inl (by norm_num [abs_lt])) (by norm_num)
  have h4 : round64 (1030217630661672148517955620877 / 5192296858534827628530496329220096) =
      3660068268593165 / 18446744073709551616 :=
    round64_value _ (-65) 7320136537186330 _ (by norm_num) (by norm_num) (by norm_num)
      (Or.inl (by norm_num [abs_lt])) (by norm_num)
  have h5 : round64 (8937137945990006612655187228265 / 1298074214633706907132624082305024) =
      7937773057511427 / 1152921504606846976 :=
    round64_value _ (-60) 7937773057511427 _ (by norm_num) (by norm_num) (by norm_num)
      (Or.inl (by norm_num [abs_lt])) (by norm_num)
  have h6 : round64 (40014313982915104771 / 1152921504606846976) =
      4884559812367567 / 140737488355328 :=
    round64_value _ (-47) 4884559812367567 _ (by norm_num) (by norm_num) (by norm_num)
      (Or.inl (by norm_num [abs_lt])) (by norm_num)
  have h7 : round64 (1 / 100) = 5764607523034235 / 576460752303423488 :=
    round64_value _ (-59) 5764607523034235 _ (by norm_num) (by norm_num) (by norm_num)
      (Or.inl (by norm_num [abs_lt])) (by norm_num)
  have h8 : round64 (3602879701896397 / 18158513697557839872) =
      3660068268593165 / 18446744073709551616 :=
    round64_value _ (-65) 7320136537186330 _ (by norm_num) (by norm_num) (by norm_num)
      (Or.inl (by norm_num [abs_lt])) (by norm_num)
  have h9 : round64 (18450404141978144781 / 18446744073709551616) =
      4504493198725133 / 4503599627370496 :=
    round64_value _ (-52) 4504493198725133 _ (by norm_num) (by norm_num) (by norm_num)
      (Or.inl (by norm_num [abs_lt])) (by norm_num)
  have h10 : round64 (10999050875423736167412154562153 / 316912650057057350374175801344) =
      2442279906183783 / 70368744177664 :=
    round64_value _ (-47) 4884559812367566 _ (by norm_num) (by norm_num) (by norm_num)
      (Or.inl (by norm_num [abs_lt])) (by norm_num)
  have hprice : ((Market.empty.addSymbol "X" (round64 (347 / 10)) 0).updatePrices64
      (63 / 1000) (fun _ => 3)).getCurrentPrice "X" = 4884559812367567 / 2 ^ 47 := by
    simp only [Market.getCurrentPrice, hfind]
    norm_num [h1, h2, h3, h4, h5, h6, h7, h8, h9, h10]
  refine ⟨?_, hprice, ?_, ?_, ?_⟩
  · rw [h1]; norm_num
  · norm_num [h1, h2, h3, h4, h5, h6, h7, h8, h9, h10]
  · rw [hprice]
    norm_num [h1, h2, h3, h4, h5, h6, h7, h8, h9, h10]
  · rw [hprice]
    norm_num [h1]

/-- Claim C21 (amended): for a registered symbol with current price `p > 0` and
volatility `0`, in a market whose price map is a well-formed `std::map`, the price after
one `updatePrices` does not depend on `sqrt(dt)` nor on the random draws. In binary64
arithmetic it is `max(0.01, p + p * (0.05 * (1/252)))` with every operation rounded; in
exact arithmetic it is `max(0.01, p * (1 + 0.05/252))`. -/
theorem zero_volatility_price_independent_of_draw (m : Market) (symbol : String)
    (p sqrtDt : ℚ) (draws : Nat → ℚ) (hwf : m.currentPrices.Ordered)
    (hp : m.currentPrices.find symbol = some p) (_hpos : 0 < p)
    (hvol : m.volatility.find symbol = some 0) :
    (m.updatePrices64 sqrtDt draws).getCurrentPrice symbol =
        max (round64 (1 / 100))
          (round64 (p + round64 (p * round64 (round64 (5 / 100) * round64 (1 / 252))))) ∧
      (m.updatePrices sqrtDt draws).getCurrentPrice symbol =
        max (1 / 100) (p * (1 + 5 / 100 / 252)) := by
  constructor
  · have h := (Market.updatePricesLoop64_zero_volatility (m.currentPrices.map Prod.fst) symbol
      sqrtDt draws (StdMap.ordered_nodup _ hwf) m 0).2
      (StdMap.mem_keys_of_find _ _ _ hp) p hp hvol
    have hfind : (m.updatePrices64 sqrtDt draws).currentPrices.find symbol =
        some (max (round64 (1 / 100))
          (round64 (p + round64 (p * round64 (round64 (5 / 100) * round64 (1 / 252)))))) := h
    simp only [Market.getCurrentPrice, hfind]
  · have h := (Market.updatePricesLoop_zero_volatility (m.currentPrices.map Prod.fst) symbol
      sqrtDt draws (StdMap.ordered_nodup _ hwf) m 0).2
      (StdMap.mem_keys_of_find _ _ _ hp) p hp hvol
    have hfind : (m.updatePrices sqrtDt draws).currentPrices.find symbol =
        some (max (1 / 100) (p * (1 + 5 / 100 / 252))) := h
    simp only [Market.getCurrentPrice, hfind]

theorem zero_volatility_price_independent_of_draw_witness :
    ((Market.empty.addSymbol "X" 100 0).updatePrices64 (63 / 1000)
        (fun _ => 3)).getCurrentPrice "X" = 7038270623008020 / 2 ^ 46 ∧
      round64 (100 * round64 (1 + round64 (round64 (5 / 100) / 252))) =
        7038270623008020 / 2 ^ 46 ∧
      ((Market.empty.addSymbol "X" 100 0).updatePrices (63 / 1000)
        (fun _ => 3)).getCurrentPrice "X" = 100 * (1 + 5 / 100 / 252) := by
  have h := zero_volatility_price_independent_of_draw (Market.empty.addSymbol "X" 100 0) "X"
    100 (63 / 1000) (fun _ => 3)
    (by
      rw [(Market.addSymbol_registers _ _ _ _).2.2.2]
      exact StdMap.ordered_assign _ _ _ (by simp [Market.empty, StdMap.Ordered]))
    (Market.addSymbol_registers _ _ _ _).1 (by norm_num)
    (Market.addSymbol_registers _ _ _ _).2.1
  have h1 : round64 (1 / 252) = 285942833483841 / 72057594037927936 :=
    round64_value _ (-60) 4575085335741456 _ (by norm_num) (by norm_num) (by norm_num)
      (Or.inl (by norm_num [abs_lt])) (by norm_num)
  have h2 : round64 (1 / 20) = 3602879701896397 / 72057594037927936 :=
    round64_value _ (-57) 7205759403792794 _ (by norm_num) (by norm_num) (by norm_num)
      (Or.inl (by norm_num [abs_lt])) (by norm_num)
  have h3 : round64 (1030217630661672148517955620877 / 5192296858534827628530496329220096) =
      3660068268593165 / 18446744073709551616 :=
    round64_value _ (-65) 7320136537186330 _ (by norm_num) (by norm_num) (by norm_num)
      (Or.inl (by norm_num [abs_lt])) (by norm_num)
  have h4 : round64 (91501706714829125 / 4611686018427387904) =
      1429714167419205 / 72057594037927936 :=
    round64_value _ (-58) 5718856669676820 _ (by norm_num) (by norm_num) (by norm_num)
      (Or.inl (by norm_num [abs_lt])) (by norm_num)
  have h5 : round64 (7207189117960212805 / 72057594037927936) = 1759567655752005 / 17592186044416 :=
    round64_value _ (-46) 7038270623008020 _ (by norm_num) (by norm_num) (by norm_num)
      (Or.inl (by norm_num [abs_lt])) (by norm_num)
  have h6 : round64 (1 / 100) = 5764607523034235 / 576460752303423488 :=
    round64_value _ (-59) 5764607523034235 _ (by norm_num) (by norm_num) (by norm_num)
      (Or.inl (by norm_num [abs_lt])) (by norm_num)
  have h7 : round64 (3602879701896397 / 18158513697557839872) =
      3660068268593165 / 18446744073709551616 :=
    round64_value _ (-65) 7320136537186330 _ (by norm_num) (by norm_num) (by norm_num)
      (Or.inl (by norm_num [abs_lt])) (by norm_num)
  have h8 : round64 (18450404141978144781 / 18446744073709551616) =
      4504493198725133 / 4503599627370496 :=
    round64_value _ (-52) 4504493198725133 _ (by norm_num) (by norm_num) (by norm_num)
      (Or.inl (by norm_num [abs_lt])) (by norm_num)
  have h9 : round64 (112612329968128325 / 1125899906842624) = 1759567655752005 / 17592186044416 :=
    round64_value _ (-46) 7038270623008020 _ (by norm_num) (by norm_num) (by norm_num)
      (Or.inl (by norm_num [abs_lt])) (by norm_num)
  refine ⟨?_, ?_, ?_⟩
  · rw [h.1]
    norm_num [h1, h2, h3, h4, h5, h6, h7, h8, h9]
  · norm_num [h1, h2, h3, h4, h5, h6, h7, h8, h9]
  · rw [h.2]
    norm_num

/-- Claim C22 (counterexample): `addSymbol` with initial price `0`, or `-5`, does not
fail: the symbol is registered, with that current price and a one-point history. -/
theorem addSymbol_accepts_nonpositive_price :
    (Market.empty.addSymbol "X" 0 0).hasSymbol "X" = true ∧
      (Market.empty.addSymbol "X" 0 0).getCurrentPrice "X" = 0 ∧
      (Market.empty.addSymbol "X" 0 0).priceHistory.find "X" =
        some [PriceData.mk 0 1000] ∧
      (Market.empty.addSymbol "X" (-5) 0).hasSymbol "X" = true ∧
      (Market.empty.addSymbol "X" (-5) 0).getCurrentPrice "X" = -5 ∧
      Market.empty.addSymbol "X" (-5) 0 ≠ Market.empty := by
  have h0 := Market.addSymbol_registers Market.empty "X" 0 0
  have h5 := Market.addSymbol_registers Market.empty "X" (-5) 0
  refine ⟨?_, ?_, h0.2.2.1, ?_, ?_, ?_⟩
  · simp [Market.hasSymbol, h0.1]
  · simp [Market.getCurrentPrice, h0.1]
  · simp [Market.hasSymbol, h5.1]
  · simp [Market.getCurrentPrice, h5.1]
  · intro heq
    have := h5.1
    rw [heq] at this
    simp [Market.empty, StdMap.find] at this

/-- Claim C22 (amended): `addSymbol` has no failure path. For every initial price, positive
or not, the symbol is registered afterwards with current price `initialPrice`, volatility
`vol` and a history of exactly one point, whose price is `initialPrice`. -/
theorem addSymbol_registers_any_price (m : Market) (symbol : String)
    (initialPrice vol : ℚ) :
    (m.addSymbol symbol initialPrice vol).hasSymbol symbol = true ∧
      (m.addSymbol symbol initialPrice vol).getCurrentPrice symbol = initialPrice ∧
      (m.addSymbol symbol initialPrice vol).volatility.find symbol = some vol ∧
      (∃ point : PriceData,
        (m.addSymbol symbol initialPrice vol).priceHistory.find symbol = some [point] ∧
        point.price = initialPrice) := by
  have h := Market.addSymbol_registers m symbol initialPrice vol
  refine ⟨?_, ?_, h.2.1, ⟨_, h.2.2.1, rfl⟩⟩
  · simp [Market.hasSymbol, h.1]
  · simp [Market.getCurrentPrice, h.1]

/-- Claim C23: in every ledger state reached from construction by any sequence of
`executeOrder` and `updatePositionValue` calls, `totalValue` equals `cash` plus the sum
over the positions of the map of `quantity * averagePrice + unrealizedPnL`. -/
theorem totalValue_cached_in_reachable_states (initialCash : ℚ) (ops : List PortfolioOp) :
    ((Portfolio.create initialCash).run ops).totalValue =
      ((Portfolio.create initialCash).run ops).cash +
        (((Portfolio.create initialCash).run ops).positions.map
          (fun kv => kv.2.quantity * kv.2.averagePrice + kv.2.unrealizedPnL)).sum :=
  Portfolio.run_totalValueCached ops (Portfolio.create initialCash)
    (by simp [Portfolio.TotalValueCached, Portfolio.create, Portfolio.costBasisPlusUnrealized])

theorem totalValue_cached_in_reachable_states_witness :
    ((Portfolio.create 1000).run
        [PortfolioOp.executeOrder (Order.pending 1 "X" OrderType.BUY 10 60) 50,
          PortfolioOp.updatePositionValue "X" 55]).totalValue =
      500 + (10 * 50 + 10 * (55 - 50)) := by
  rw [totalValue_cached_in_reachable_states 1000
    [PortfolioOp.executeOrder (Order.pending 1 "X" OrderType.BUY 10 60) 50,
      PortfolioOp.updatePositionValue "X" 55]]
  norm_num [Portfolio.run, Portfolio.step, Portfolio.create, Portfolio.executeOrder,
    Portfolio.updatePositionValue, Portfolio.canAffordOrder, Portfolio.updateCash,
    Portfolio.updateTotalValue, Order.pending, Order.create, StdMap.find, StdMap.assign,
    StdMap.index, Position.create]

/-- Claim C24: `updatePositionValue(symbol, currentPrice)` sets the unrealized P&L of the
held position of `symbol` to `quantity * (currentPrice - averagePrice)`, keeping its other
fields; cash and the execution history are unchanged; the position of every other symbol
is unchanged; when the symbol is not held the position map is unchanged, and in every case
a symbol is held afterwards exactly when it was held before. The total value is recomputed
from the resulting map. -/
theorem updatePositionValue_frame (pf : Portfolio) (symbol : String) (currentPrice : ℚ) :
    (pf.updatePositionValue symbol currentPrice).cash = pf.cash ∧
      (pf.updatePositionValue symbol currentPrice).orderHistory = pf.orderHistory ∧
      (∀ pos : Position, pf.positions.find symbol = some pos →
        (pf.updatePositionValue symbol currentPrice).positions.find symbol =
          some { pos with
            unrealizedPnL := pos.quantity * (currentPrice - pos.averagePrice) }) ∧
      (∀ s : String, s ≠ symbol →
        (pf.updatePositionValue symbol currentPrice).positions.find s =
          pf.positions.find s) ∧
      (pf.positions.find symbol = none →
        (pf.updatePositionValue symbol currentPrice).positions = pf.positions) ∧
      (∀ s : String,
        (pf.updatePositionValue symbol currentPrice).hasPosition s = pf.hasPosition s) ∧
      (pf.updatePositionValue symbol currentPrice).totalValue =
        pf.cash +
          ((pf.updatePositionValue symbol currentPrice).positions.map
            (fun kv => kv.2.quantity * kv.2.averagePrice + kv.2.unrealizedPnL)).sum := by
  obtain ⟨hcash, hhist, hpos⟩ := Portfolio.updatePositionValue_fields pf symbol currentPrice
  have hself : ∀ pos : Position, pf.positions.find symbol = some pos →
      (pf.updatePositionValue symbol currentPrice).positions.find symbol =
        some { pos with
          unrealizedPnL := pos.quantity * (currentPrice - pos.averagePrice) } := by
    intro pos hf
    rw [hpos, hf]
    exact StdMap.find_assign_self _ _ _
  have hother : ∀ s : String, s ≠ symbol →
      (pf.updatePositionValue symbol currentPrice).positions.find s =
        pf.positions.find s := by
    intro s hs
    rw [hpos]
    cases pf.positions.find symbol with
    | none => rfl
    | some pos => exact StdMap.find_assign_ne _ _ _ _ hs
  have hnone : pf.positions.find symbol = none →
      (pf.updatePositionValue symbol currentPrice).positions = pf.positions := by
    intro hf
    rw [hpos, hf]
  refine ⟨hcash, hhist, hself, hother, hnone, ?_, ?_⟩
  · intro s
    by_cases hs : s = symbol
    · subst hs
      cases hf : pf.positions.find s with
      | none => simp [Portfolio.hasPosition, hnone hf]
      | some pos => simp [Portfolio.hasPosition, hself pos hf, hf]
    · simp [Portfolio.hasPosition, hother s hs]
  · have h := Portfolio.updatePositionValue_totalValueCached pf symbol currentPrice
    rw [Portfolio.TotalValueCached, hcash] at h
    exact h

theorem updatePositionValue_frame_witness :
    ((Portfolio.holding 500 "X" 10 50).updatePositionValue "X" 60).positions.find "X" =
        some { symbol := "X", quantity := 10, averagePrice := 50,
               unrealizedPnL := 10 * (60 - 50), realizedPnL := 0 } ∧
      ((Portfolio.holding 500 "X" 10 50).updatePositionValue "Y" 60).positions =
        (Portfolio.holding 500 "X" 10 50).positions :=
  ⟨(updatePositionValue_frame (Portfolio.holding 500 "X" 10 50) "X" 60).2.2.1
      (Position.create "X" 10 50) (by simp [Portfolio.holding, StdMap.find]),
   (updatePositionValue_frame (Portfolio.holding 500 "X" 10 50) "Y" 60).2.2.2.2.1
      (by simp [Portfolio.holding, StdMap.find])⟩

/-- Claim C25 (counterexample): in binary64 arithmetic start from `Portfolio(1000)`, BUY 10
"X" at 10.1 and call `updatePositionValue("X", 101.01)`. Cash is 899 and the held
quantity 10, `totalValue` is `8396310594348647 / 2^42` (1909.1000000000001), while
`cash + 10 * 101.01` evaluated in binary64 is `8396310594348646 / 2^42` (1909.1);
`totalValue` is not the exact value of `cash + 10 * 101.01` either. -/
theorem mark_to_market_fails_in_binary64 :
    (((Portfolio.create 1000).executeOrder64
        (Order.pending 1 "X" OrderType.BUY 10 (round64 (101 / 10)))
        (round64 (101 / 10))).updatePositionValue64 "X" (round64 (10101 / 100))).cash = 899 ∧
      (((Portfolio.create 1000).executeOrder64
        (Order.pending 1 "X" OrderType.BUY 10 (round64 (101 / 10)))
        (round64 (101 / 10))).updatePositionValue64 "X"
          (round64 (10101 / 100))).positions.map (fun kv => (kv.1, kv.2.quantity)) =
        [("X", 10)] ∧
      (((Portfolio.create 1000).executeOrder64
        (Order.pending 1 "X" OrderType.BUY 10 (round64 (101 / 10)))
        (round64 (101 / 10))).updatePositionValue64 "X" (round64 (10101 / 100))).totalValue =
        8396310594348647 / 2 ^ 42 ∧
      round64 (899 + round64 (10 * round64 (10101 / 100))) = 8396310594348646 / 2 ^ 42 ∧
      (((Portfolio.create 1000).executeOrder64
        (Order.pending 1 "X" OrderType.BUY 10 (round64 (101 / 10)))
        (round64 (101 / 10))).updatePositionValue64 "X" (round64 (10101 / 100))).totalValue ≠
        round64 (899 + round64 (10 * round64 (10101 / 100))) ∧
      (((Portfolio.create 1000).executeOrder64
        (Order.pending 1 "X" OrderType.BUY 10 (round64 (101 / 10)))
        (round64 (101 / 10))).updatePositionValue64 "X" (round64 (10101 / 100))).totalValue ≠
        899 + 10 * round64 (10101 / 100) := by
  have h1 : round64 (101 / 10) = 5685794529555251 / 562949953421312 :=
    round64_value _ (-49) 5685794529555251 _ (by norm_num) (by norm_num) (by norm_num)
      (Or.inl (by norm_num [abs_lt])) (by norm_num)
  have h2 : round64 (28428972647776255 / 281474976710656) = 101 :=
    round64_value _ (-46) 7107243161944064 _ (by norm_num) (by norm_num) (by norm_num)
      (Or.inl (by norm_num [abs_lt])) (by norm_num)
  have h3 : round64 (899) = 899 :=
    round64_value _ (-43) 7907687626964992 _ (by norm_num) (by norm_num) (by norm_num)
      (Or.inl (by norm_num [abs_lt])) (by norm_num)
  have h4 : round64 (101) = 101 :=
    round64_value _ (-46) 7107243161944064 _ (by norm_num) (by norm_num) (by norm_num)
      (Or.inl (by norm_num [abs_lt])) (by norm_num)
  have h5 : round64 (1000) = 1000 :=
    round64_value _ (-43) 8796093022208000 _ (by norm_num) (by norm_num) (by norm_num)
      (Or.inl (by norm_num [abs_lt])) (by norm_num)
  have h6 : round64 (10101 / 100) = 7107946849385841 / 70368744177664 :=
    round64_value _ (-46) 7107946849385841 _ (by norm_num) (by norm_num) (by norm_num)
      (Or.inl (by norm_num [abs_lt])) (by norm_num)
  have h7 : round64 (51177780265531477 / 562949953421312) = 6397222533191435 / 70368744177664 :=
    round64_value _ (-46) 6397222533191435 _ (by norm_num) (by norm_num) (by norm_num)
      (Or.inl (by norm_num [abs_lt])) (by norm_num)
  have h8 : round64 (31986112665957175 / 35184372088832) = 3998264083244647 / 4398046511104 :=
    round64_value _ (-43) 7996528166489294 _ (by norm_num) (by norm_num) (by norm_num)
      (Or.inl (by norm_num [abs_lt])) (by norm_num)
  have h9 : round64 (4442466780866151 / 4398046511104) = 4442466780866151 / 4398046511104 :=
    round64_value _ (-43) 8884933561732302 _ (by norm_num) (by norm_num) (by norm_num)
      (Or.inl (by norm_num [abs_lt])) (by norm_num)
  have h10 : round64 (8396310594348647 / 4398046511104) = 8396310594348647 / 4398046511104 :=
    round64_value _ (-42) 8396310594348647 _ (by norm_num) (by norm_num) (by norm_num)
      (Or.inl (by norm_num [abs_lt])) (by norm_num)
  have h11 : round64 (35539734246929205 / 35184372088832) = 8884933561732301 / 8796093022208 :=
    round64_value _ (-43) 8884933561732301 _ (by norm_num) (by norm_num) (by norm_num)
      (Or.inl (by norm_num [abs_lt])) (by norm_num)
  have h12 : round64 (16792621188697293 / 8796093022208) = 4198155297174323 / 2199023255552 :=
    round64_value _ (-42) 8396310594348646 _ (by norm_num) (by norm_num) (by norm_num)
      (Or.inr ⟨by norm_num [abs_eq], by decide⟩) (by norm_num)
  norm_num [Portfolio.create, Portfolio.executeOrder64, Portfolio.canAffordOrder64,
    Portfolio.updateCash64, Portfolio.updateTotalValue64, Portfolio.updatePositionValue64,
    Order.pending, Order.create, wrapInt32, Position.create, StdMap.find, StdMap.assign,
    StdMap.index, h1, h2, h3, h4, h5, h6, h7, h8, h9, h10, h11, h12]

/-- Claim C25 (amended): take a ledger whose position map is a well-formed `std::map` and
call `updatePositionValue(s, price s)` for the symbols of a list containing every held
symbol, with no other call in between (at least one call, or a ledger without positions
whose `totalValue` is its cash). In binary64 arithmetic `totalValue` is afterwards the
sum the code accumulates: starting from `cash`, for each held position in map order,
`quantity * averagePrice + quantity * (price - averagePrice)` is added, every operation
rounded. In exact arithmetic that sum is `cash` plus the sum over the held positions of
`quantity * price`, cash and the held quantities being those before the calls. -/
theorem totalValue_marks_to_market_up_to_rounding (pf : Portfolio) (syms : List String)
    (price : String → ℚ) (hwf : pf.positions.Ordered)
    (hall : ∀ kv ∈ pf.positions, kv.1 ∈ syms)
    (hcalls : syms ≠ [] ∨ pf.totalValue = pf.cash) :
    (syms.foldl (fun acc s => acc.updatePositionValue64 s (price s)) pf).totalValue =
        pf.positions.foldl
          (fun acc kv =>
            round64 (acc + round64 (round64 (kv.2.quantity * kv.2.averagePrice) +
              round64 (kv.2.quantity * round64 (price kv.1 - kv.2.averagePrice))))) pf.cash ∧
      ((syms.foldl (fun acc s => acc.updatePositionValue s (price s)) pf).totalValue =
          (syms.foldl (fun acc s => acc.updatePositionValue s (price s)) pf).cash +
            ((syms.foldl (fun acc s => acc.updatePositionValue s (price s)) pf).positions.map
              (fun kv => kv.2.quantity * price kv.1)).sum ∧
        (syms.foldl (fun acc s => acc.updatePositionValue s (price s)) pf).cash = pf.cash ∧
        (syms.foldl (fun acc s => acc.updatePositionValue s (price s)) pf).positions.map
            (fun kv => (kv.1, kv.2.quantity)) =
          pf.positions.map (fun kv => (kv.1, kv.2.quantity))) := by
  have hempty : syms = [] → pf.positions = [] := by
    intro h
    cases hp : pf.positions with
    | nil => rfl
    | cons kv rest =>
      have := hall kv (by rw [hp]; exact List.mem_cons_self _ _)
      rw [h] at this
      exact absurd this (List.not_mem_nil _)
  constructor
  · obtain ⟨hpos, hcash⟩ := Portfolio.revalue64_positions syms price pf hwf
    have htot := Portfolio.revalue64_totalValue syms price pf (by
      rcases hcalls with h | h
      · exact Or.inl h
      · by_cases hs : syms = []
        · right
          rw [hempty hs, h]
          rfl
        · exact Or.inl hs)
    rw [htot, hpos, hcash, List.foldl_map]
    apply List.foldl_ext
    intro acc kv hkv
    simp only [hall kv hkv, if_true]
  · obtain ⟨hpos, hcash, _⟩ := Portfolio.revalue_positions syms price pf hwf
    have hcached := Portfolio.revalue_totalValueCached syms price pf (by
      rcases hcalls with h | h
      · exact Or.inl h
      · by_cases hs : syms = []
        · right
          rw [Portfolio.TotalValueCached, Portfolio.costBasisPlusUnrealized, hempty hs, h]
          simp
        · exact Or.inl hs)
    refine ⟨?_, hcash, ?_⟩
    · rw [Portfolio.TotalValueCached, Portfolio.costBasisPlusUnrealized] at hcached
      rw [hcached, hpos, List.map_map, List.map_map]
      congr 2
      apply List.map_congr_left
      intro kv hkv
      simp only [Function.comp, hall kv hkv, if_true]
      ring
    · rw [hpos, List.map_map]
      apply List.map_congr_left
      intro kv _
      by_cases h : kv.1 ∈ syms
      · simp [Function.comp, h]
      · simp [Function.comp, h]

theorem totalValue_marks_to_market_up_to_rounding_witness :
    (["X"].foldl (fun acc s => acc.updatePositionValue64 s ((fun _ => 60) s))
        (Portfolio.holding 500 "X" 10 50)).totalValue = 1100 ∧
      (["X"].foldl (fun acc s => acc.updatePositionValue s ((fun _ => 60) s))
        (Portfolio.holding 500 "X" 10 50)).totalValue = 500 + 10 * 60 := by
  have h := totalValue_marks_to_market_up_to_rounding (Portfolio.holding 500 "X" 10 50) ["X"]
    (fun _ => 60)
    (by simp [Portfolio.holding, StdMap.Ordered])
    (by simp [Portfolio.holding])
    (Or.inl (by simp))
  have h10 : round64 10 = 10 := by
    simpa using round64_intCast_small 10 (by norm_num) (by norm_num)
  have h100 : round64 100 = 100 := by
    simpa using round64_intCast_small 100 (by norm_num) (by norm_num)
  have h500 : round64 500 = 500 := by
    simpa using round64_intCast_small 500 (by norm_num) (by norm_num)
  have h600 : round64 600 = 600 := by
    simpa using round64_intCast_small 600 (by norm_num) (by norm_num)
  have h1100 : round64 1100 = 1100 := by
    simpa using round64_intCast_small 1100 (by norm_num) (by norm_num)
  refine ⟨?_, ?_⟩
  · rw [h.1]
    norm_num [Portfolio.holding, Position.create, h10, h100, h500, h600, h1100]
  · rw [h.2.1]
    norm_num [Portfolio.holding, Portfolio.updatePositionValue, Portfolio.updateTotalValue,
      StdMap.find, StdMap.assign, Position.create]

/-- Claim C26: in every engine state reached from a newly constructed engine by
`executeMarketOrder`, `executeLimitOrder`, `processOrders`, `cancelOrder` and
`runSimulation` calls (and changes of the borrowed market), every pending order has status
PENDING and filled quantity 0, every logged order has status FILLED and filled quantity
equal to its quantity, and no order in the queue or the log is PARTIALLY_FILLED. -/
theorem partially_filled_unreachable (mkt : Market) (port : Portfolio) (txnCost : ℚ)
    (nextOrderId : Int) (ops : List EngineOp) (hops : ∀ op ∈ ops, op.NotRawSubmit) :
    (∀ o ∈ ((TradingEngine.create mkt port txnCost nextOrderId).run ops).pendingOrders,
        o.status = OrderStatus.PENDING ∧ o.filledQuantity = 0 ∧
        o.status ≠ OrderStatus.PARTIALLY_FILLED) ∧
      (∀ o ∈ ((TradingEngine.create mkt port txnCost nextOrderId).run ops).executedOrders,
        o.status = OrderStatus.FILLED ∧ o.filledQuantity = o.quantity ∧
        o.status ≠ OrderStatus.PARTIALLY_FILLED) := by
  have hinv := TradingEngine.run_induction
    (fun e =>
      (∀ o ∈ e.pendingOrders,
        o.status = OrderStatus.PENDING ∧ o.filledQuantity = 0 ∧ 0 < o.quantity) ∧
      (∀ o ∈ e.executedOrders, o.status = OrderStatus.FILLED ∧ o.filledQuantity = o.quantity))
    ops (TradingEngine.create mkt port txnCost nextOrderId)
    (by
      intro op hop e hP
      have hproc : ∀ e2 : TradingEngine,
          ((∀ o ∈ e2.pendingOrders,
              o.status = OrderStatus.PENDING ∧ o.filledQuantity = 0 ∧ 0 < o.quantity) ∧
            (∀ o ∈ e2.executedOrders,
              o.status = OrderStatus.FILLED ∧ o.filledQuantity = o.quantity)) →
          ((∀ o ∈ e2.processOrders.pendingOrders,
              o.status = OrderStatus.PENDING ∧ o.filledQuantity = 0 ∧ 0 < o.quantity) ∧
            (∀ o ∈ e2.processOrders.executedOrders,
              o.status = OrderStatus.FILLED ∧ o.filledQuantity = o.quantity)) := by
        intro e2 h2
        obtain ⟨hp, hx⟩ := TradingEngine.processOrders_lists e2
        constructor
        · intro o ho
          rw [hp] at ho
          exact h2.1 o (List.mem_filter.mp ho).1
        · intro o ho
          rw [hx, List.mem_append] at ho
          rcases ho with ho | ho
          · exact h2.2 o ho
          · obtain ⟨o2, ho2, heq⟩ := List.mem_map.mp ho
            have hfresh := h2.1 o2 (List.mem_filter.mp ho2).1
            rw [Order.fillOrder_full o2 hfresh.2.2 hfresh.2.1] at heq
            rw [← heq]
            exact ⟨rfl, rfl⟩
      cases op with
      | submitOrder order => exact absurd (hops _ hop) (by simp [EngineOp.NotRawSubmit])
      | executeMarketOrder symbol type quantity =>
        by_cases hv : e.market.hasSymbol symbol = true ∧ e.validateOrder
            (Order.create e.nextOrderId symbol type quantity
              (e.market.getCurrentPrice symbol)).1 = true
        · simp only [TradingEngine.step,
            TradingEngine.executeMarketOrder_of_valid e symbol type quantity hv.2]
          refine ⟨hP.1, ?_⟩
          intro o ho
          rcases List.mem_append.mp ho with h | h
          · exact hP.2 o h
          · rw [List.mem_singleton.mp h]
            exact ⟨rfl, rfl⟩
        · obtain ⟨_, h2, h3, _⟩ :=
            TradingEngine.executeMarketOrder_of_invalid e symbol type quantity hv
          simp only [TradingEngine.step, h2, h3]
          exact hP
      | executeLimitOrder symbol type quantity price =>
        simp only [TradingEngine.step, TradingEngine.executeLimitOrder_eq]
        refine ⟨?_, hP.2⟩
        intro o ho
        by_cases hv : e.validateOrder
            (Order.create e.nextOrderId symbol type quantity price).1 = true
        · simp only [hv, if_true] at ho
          rcases List.mem_append.mp ho with h | h
          · exact hP.1 o h
          · rw [List.mem_singleton.mp h]
            have hg := (TradingEngine.validateOrder_iff e _).mp hv
            exact ⟨rfl, rfl, hg.2.1⟩
        · simp only [hv, if_false] at ho
          exact hP.1 o ho
      | processOrders => exact hproc e hP
      | cancelOrder orderId =>
        simp only [TradingEngine.step, TradingEngine.cancelOrder,
          TradingEngine.cancelOrderLoop_fst, List.nil_append]
        refine ⟨?_, hP.2⟩
        intro o ho
        exact hP.1 o (List.mem_filter.mp ho).1
      | runSimulation steps sqrtDt draws =>
        simp only [TradingEngine.step, TradingEngine.runSimulation]
        apply TradingEngine.runSimulationLoop_induction
          (fun e =>
            (∀ o ∈ e.pendingOrders,
              o.status = OrderStatus.PENDING ∧ o.filledQuantity = 0 ∧ 0 < o.quantity) ∧
            (∀ o ∈ e.executedOrders,
              o.status = OrderStatus.FILLED ∧ o.filledQuantity = o.quantity))
        · intro e2 s d h2
          rw [TradingEngine.simulationStep_eq]
          exact hproc _ h2
        · exact hP
      | marketChange market => exact hP)
    (by simp [TradingEngine.create])
  constructor
  · intro o ho
    have h := hinv.1 o ho
    exact ⟨h.1, h.2.1, by rw [h.1]; exact fun hc => OrderStatus.noConfusion hc⟩
  · intro o ho
    have h := hinv.2 o ho
    exact ⟨h.1, h.2, by rw [h.1]; exact fun hc => OrderStatus.noConfusion hc⟩

theorem partially_filled_unreachable_witness :
    (∀ op ∈ EngineOp.sampleSession, op.NotRawSubmit) ∧
      (∀ o ∈ ((TradingEngine.sample "X" 50 1000).run EngineOp.sampleSession).executedOrders,
        o.status = OrderStatus.FILLED ∧ o.filledQuantity = o.quantity ∧
        o.status ≠ OrderStatus.PARTIALLY_FILLED) :=
  ⟨by
      intro op hop
      simp only [EngineOp.sampleSession, List.mem_cons, List.mem_singleton,
        List.not_mem_nil, or_false] at hop
      rcases hop with h | h | h | h | h <;> rw [h] <;> simp [EngineOp.NotRawSubmit],
   (partially_filled_unreachable (Market.single "X" 50) (Portfolio.create 1000) 5 1
      EngineOp.sampleSession
      (by
        intro op hop
        simp only [EngineOp.sampleSession, List.mem_cons, List.mem_singleton,
          List.not_mem_nil, or_false] at hop
        rcases hop with h | h | h | h | h <;> rw [h] <;> simp [EngineOp.NotRawSubmit])).2⟩

/-- Claim C27: in every ledger state reached from an empty ledger by `executeOrder` calls
with orders of positive quantity, every position stored in the map has quantity `> 0`;
and the position that an executed SELL of positive quantity leaves in the map for its
symbol has quantity `> 0.001`. -/
theorem positions_positive_in_reachable_states (initialCash : ℚ) (ops : List PortfolioOp)
    (hops : ∀ op ∈ ops, op.IsExecuteOfPositiveQuantity) :
    (∀ kv ∈ ((Portfolio.create initialCash).run ops).positions, 0 < kv.2.quantity) ∧
      (∀ (pf : Portfolio) (order : Order) (p : ℚ) (pos : Position),
        order.type = OrderType.SELL → 0 < order.quantity →
        pf.canAffordOrder order = true →
        (pf.executeOrder order p).positions.find order.symbol = some pos →
          1 / 1000 < pos.quantity) := by
  constructor
  · have hrun : ∀ (l : List PortfolioOp) (pf : Portfolio),
        (∀ op ∈ l, op.IsExecuteOfPositiveQuantity) → pf.PositionsPositive →
          (pf.run l).PositionsPositive := by
      intro l
      induction l with
      | nil => intro pf _ h; simpa [Portfolio.run] using h
      | cons op rest ih =>
        intro pf hl h
        have hop := hl op (List.mem_cons_self _ _)
        have hstep : (pf.step op).PositionsPositive := by
          cases op with
          | executeOrder order p =>
            exact Portfolio.executeOrder_positionsPositive pf order p hop h
          | updatePositionValue symbol price => exact absurd hop (by simp
              [PortfolioOp.IsExecuteOfPositiveQuantity])
        have := ih (pf.step op) (fun x hx => hl x (List.mem_cons_of_mem _ hx)) hstep
        simpa [Portfolio.run] using this
    exact hrun ops (Portfolio.create initialCash) hops
      (by intro kv hkv; simp [Portfolio.create] at hkv)
  · intro pf order p pos ht hq hc hfind
    obtain ⟨old, hf, _⟩ := Portfolio.sell_affordable_has_position pf order ht hq hc
    rw [Portfolio.executeOrder_sell_positions pf order p hc ht old hf] at hfind
    by_cases hsmall : old.quantity - order.quantity ≤ 1 / 1000
    · rw [if_pos hsmall, StdMap.find_erase_self] at hfind
      exact Option.noConfusion hfind
    · rw [if_neg hsmall, StdMap.find_assign_self] at hfind
      injection hfind with hfind
      rw [← hfind]
      exact not_le.mp hsmall

theorem positions_positive_in_reachable_states_witness :
    (∀ op ∈ PortfolioOp.sampleTrades, op.IsExecuteOfPositiveQuantity) ∧
      (∀ kv ∈ ((Portfolio.create 1000).run PortfolioOp.sampleTrades).positions,
        0 < kv.2.quantity) :=
  ⟨by
      intro op hop
      simp only [PortfolioOp.sampleTrades, List.mem_cons, List.mem_singleton,
        List.not_mem_nil, or_false] at hop
      rcases hop with h | h <;> rw [h] <;>
        norm_num [PortfolioOp.IsExecuteOfPositiveQuantity, Order.pending, Order.create],
   (positions_positive_in_reachable_states 1000 PortfolioOp.sampleTrades
      (by
        intro op hop
        simp only [PortfolioOp.sampleTrades, List.mem_cons, List.mem_singleton,
          List.not_mem_nil, or_false] at hop
        rcases hop with h | h <;> rw [h] <;>
          norm_num [PortfolioOp.IsExecuteOfPositiveQuantity, Order.pending,
            Order.create])).1⟩

/-- Claim C28: if the ledger has cash `≥ 0` when the engine is constructed, then cash is
`≥ 0` after any sequence of `submitOrder`, `executeMarketOrder`, `executeLimitOrder`,
`processOrders`, `cancelOrder` and `runSimulation` calls, whatever the market states in
between: every queued order has positive quantity and limit price, a BUY is debited at a
market price `≤` its limit only when cash covers `quantity * limit`, and a SELL executes at
a positive price. -/
theorem cash_never_negative (mkt : Market) (port : Portfolio) (txnCost : ℚ)
    (nextOrderId : Int) (ops : List EngineOp) (hcash : 0 ≤ port.cash) :
    0 ≤ ((TradingEngine.create mkt port txnCost nextOrderId).run ops).portfolio.cash := by
  have hinv := TradingEngine.run_induction
    (fun e => 0 ≤ e.portfolio.cash ∧ ∀ o ∈ e.pendingOrders, 0 < o.quantity ∧ 0 < o.price)
    ops (TradingEngine.create mkt port txnCost nextOrderId)
    (by
      intro op _ e hP
      have hfold : ∀ (m : Market) (queue : List Order) (pf : Portfolio),
          (∀ o ∈ queue, 0 < o.quantity ∧ 0 < o.price) → 0 ≤ pf.cash →
          0 ≤ (queue.foldl
            (fun pf o =>
              if TradingEngine.canExecute m o then
                pf.executeOrder ((o.fillOrder o.quantity).setStatus OrderStatus.FILLED)
                  (m.getCurrentPrice o.symbol)
              else pf) pf).cash := by
        intro m queue
        induction queue with
        | nil => intro pf _ h; simpa using h
        | cons o rest ih =>
          intro pf hq h
          simp only [List.foldl_cons]
          apply ih _ (fun x hx => hq x (List.mem_cons_of_mem _ hx))
          have ho := hq o (List.mem_cons_self _ _)
          have hf := Order.fillOrder_fields o o.quantity
          cases hx : TradingEngine.canExecute m o with
          | false => simpa using h
          | true =>
            simp only [if_true]
            apply Portfolio.executeOrder_cash_nonneg _ _ _ h
            · simp only [Order.setStatus, hf.2.2.2.1]
              exact ho.1
            · intro ht
              simp only [Order.setStatus, hf.2.2.1, hf.2.2.2.2] at ht ⊢
              simpa [TradingEngine.canExecute, ht] using hx
            · intro ht
              simp only [Order.setStatus, hf.2.2.1] at ht
              have hge : m.getCurrentPrice o.symbol ≥ o.price := by
                simpa [TradingEngine.canExecute, ht] using hx
              linarith [ho.2]
      have hproc : ∀ e2 : TradingEngine,
          (0 ≤ e2.portfolio.cash ∧ ∀ o ∈ e2.pendingOrders, 0 < o.quantity ∧ 0 < o.price) →
          (0 ≤ e2.processOrders.portfolio.cash ∧
            ∀ o ∈ e2.processOrders.pendingOrders, 0 < o.quantity ∧ 0 < o.price) := by
        intro e2 h2
        constructor
        · rw [TradingEngine.processOrders_portfolio]
          exact hfold e2.market e2.pendingOrders e2.portfolio h2.2 h2.1
        · intro o ho
          rw [(TradingEngine.processOrders_lists e2).1] at ho
          exact h2.2 o (List.mem_filter.mp ho).1
      cases op with
      | submitOrder order =>
        simp only [TradingEngine.step, TradingEngine.submitOrder]
        by_cases hv : e.validateOrder order = true
        · simp only [hv, Bool.not_true, Bool.false_eq_true, if_false]
          refine ⟨hP.1, ?_⟩
          intro o ho
          rcases List.mem_append.mp ho with h | h
          · exact hP.2 o h
          · rw [List.mem_singleton.mp h]
            have hg := (TradingEngine.validateOrder_iff e order).mp hv
            exact ⟨hg.2.1, hg.2.2.1⟩
        · simp only [Bool.not_eq_true] at hv
          simp only [hv, Bool.not_false, if_true]
          exact hP
      | executeMarketOrder symbol type quantity =>
        by_cases hv : e.market.hasSymbol symbol = true ∧ e.validateOrder
            (Order.create e.nextOrderId symbol type quantity
              (e.market.getCurrentPrice symbol)).1 = true
        · simp only [TradingEngine.step,
            TradingEngine.executeMarketOrder_of_valid e symbol type quantity hv.2]
          have hg := (TradingEngine.validateOrder_iff e _).mp hv.2
          simp only [Order.create] at hg
          refine ⟨?_, hP.2⟩
          apply Portfolio.executeOrder_cash_nonneg _ _ _ hP.1
          · exact hg.2.1
          · intro _; exact le_refl _
          · intro _; exact le_of_lt hg.2.2.1
        · obtain ⟨h1, _, h3, _⟩ :=
            TradingEngine.executeMarketOrder_of_invalid e symbol type quantity hv
          simp only [TradingEngine.step, h1, h3]
          exact hP
      | executeLimitOrder symbol type quantity price =>
        simp only [TradingEngine.step, TradingEngine.executeLimitOrder_eq]
        refine ⟨hP.1, ?_⟩
        intro o ho
        by_cases hv : e.validateOrder
            (Order.create e.nextOrderId symbol type quantity price).1 = true
        · simp only [hv, if_true] at ho
          rcases List.mem_append.mp ho with h | h
          · exact hP.2 o h
          · rw [List.mem_singleton.mp h]
            have hg := (TradingEngine.validateOrder_iff e _).mp hv
            exact ⟨hg.2.1, hg.2.2.1⟩
        · simp only [hv, if_false] at ho
          exact hP.2 o ho
      | processOrders => exact hproc e hP
      | cancelOrder orderId =>
        simp only [TradingEngine.step, TradingEngine.cancelOrder,
          TradingEngine.cancelOrderLoop_fst, List.nil_append]
        refine ⟨hP.1, ?_⟩
        intro o ho
        exact hP.2 o (List.mem_filter.mp ho).1
      | runSimulation steps sqrtDt draws =>
        simp only [TradingEngine.step, TradingEngine.runSimulation]
        apply TradingEngine.runSimulationLoop_induction
          (fun e =>
            0 ≤ e.portfolio.cash ∧ ∀ o ∈ e.pendingOrders, 0 < o.quantity ∧ 0 < o.price)
        · intro e2 s d h2
          rw [TradingEngine.simulationStep_eq]
          apply hproc
          refine ⟨?_, h2.2⟩
          simp only
          rw [Portfolio.revalue_cash]
          exact h2.1
        · exact hP
      | marketChange market => exact hP)
    (by simp [TradingEngine.create, hcash])
  exact hinv.1

theorem cash_never_negative_witness :
    0 ≤ (Portfolio.create 1000).cash ∧
      0 ≤ ((TradingEngine.sample "X" 50 1000).run
        (EngineOp.submitOrder (Order.pending 9 "X" OrderType.BUY 30 45) ::
          EngineOp.sampleSession)).portfolio.cash :=
  ⟨by norm_num [Portfolio.create],
   cash_never_negative (Market.single "X" 50) (Portfolio.create 1000) 5 1
      (EngineOp.submitOrder (Order.pending 9 "X" OrderType.BUY 30 45) ::
        EngineOp.sampleSession)
      (by norm_num [Portfolio.create])⟩

end TradingSim
